import Mathlib

/-!
Verification of the `mih-rs` multi-index hashing library.

The development shallowly embeds the library's Rust sources:

* `src/popcnt.rs` / `src/basic.rs` : population count and Hamming distance;
* `src/index/siggen.rs`            : the weight-`r` signature enumerator;
* `src/index/sparsehash.rs`        : the sparse hash table (`Table`, `Group`);
* `src/index/ops.rs`               : index construction, range search, top-K
  search and serialization;
* `src/ls.rs`                      : the linear-scan oracle.

Binary codes of width `w` are modeled as natural numbers below `2 ^ w`;
all bit manipulation is done with `Nat` shifts, masks and xors, which agree
with the Rust `u8/u16/u32/u64` operations at the widths in scope (comments
at each definition note where overflow cannot occur).
-/

namespace Mih

/-- Binary population-count recursion with explicit fuel (`n` itself always
suffices, since `n / 2` decreases); the fuel keeps the definition
structurally recursive. -/
def popcntAux : Nat → Nat → Nat
  | 0, _ => 0
  | fuel + 1, n => if n = 0 then 0 else n % 2 + popcntAux fuel (n / 2)

/-- Population count, modeling `count_ones` on unsigned integers
(`src/popcnt.rs`); the recursion mirrors the usual binary definition. -/
def popcnt (n : Nat) : Nat := popcntAux n n

theorem popcntAux_congr : ∀ f1 f2 n : Nat, n ≤ f1 → n ≤ f2 →
    popcntAux f1 n = popcntAux f2 n := by
  intro f1
  induction f1 with
  | zero =>
      intro f2 n h1 _
      have h0 : n = 0 := by omega
      subst h0
      cases f2 with
      | zero => rfl
      | succ f2 => simp [popcntAux]
  | succ f1 ih =>
      intro f2 n h1 h2
      rcases eq_or_ne n 0 with h0 | h0
      · subst h0
        cases f2 with
        | zero => simp [popcntAux]
        | succ f2 => simp [popcntAux]
      · cases f2 with
        | zero => omega
        | succ f2 =>
            rw [popcntAux, popcntAux, if_neg h0, if_neg h0,
              ih f2 (n / 2) (by omega) (by omega)]

theorem popcnt_zero : popcnt 0 = 0 := rfl

theorem popcnt_rec (n : Nat) : popcnt n = n % 2 + popcnt (n / 2) := by
  rcases eq_or_ne n 0 with h | h
  · subst h
    simp [popcnt_zero]
  · obtain ⟨m, rfl⟩ : ∃ m, n = m + 1 := ⟨n - 1, by omega⟩
    show popcntAux (m + 1) (m + 1) = _
    rw [popcntAux, if_neg h, popcnt,
      popcntAux_congr m ((m + 1) / 2) ((m + 1) / 2) (by omega) (by omega)]

theorem popcnt_two_mul_add (a b : Nat) (hb : b < 2) :
    popcnt (2 * a + b) = popcnt a + b := by
  rw [popcnt_rec (2 * a + b)]
  have h1 : (2 * a + b) % 2 = b := by omega
  have h2 : (2 * a + b) / 2 = a := by omega
  rw [h1, h2]; ring

theorem popcnt_one : popcnt 1 = 1 := by
  have := popcnt_two_mul_add 0 1 (by norm_num)
  simpa [popcnt_zero] using this

/-- Splitting a number at bit `k` splits its population count. -/
theorem popcnt_pow_mul_add (k : Nat) :
    ∀ a b : Nat, b < 2 ^ k → popcnt (2 ^ k * a + b) = popcnt a + popcnt b := by
  induction k with
  | zero =>
      intro a b hb
      interval_cases b
      simp [popcnt_zero]
  | succ k ih =>
      intro a b hb
      rw [popcnt_rec (2 ^ (k + 1) * a + b), popcnt_rec b]
      have h1 : (2 ^ (k + 1) * a + b) % 2 = b % 2 := by
        have : 2 ^ (k + 1) * a = 2 * (2 ^ k * a) := by ring
        omega
      have h2 : (2 ^ (k + 1) * a + b) / 2 = 2 ^ k * a + b / 2 := by
        have : 2 ^ (k + 1) * a = 2 * (2 ^ k * a) := by ring
        omega
      have h3 : b / 2 < 2 ^ k := by
        have : 2 ^ (k + 1) = 2 * 2 ^ k := by ring
        omega
      rw [h1, h2, ih a (b / 2) h3]; ring

theorem popcnt_two_pow (k : Nat) : popcnt (2 ^ k) = 1 := by
  have := popcnt_pow_mul_add k 1 0 (Nat.pos_pow_of_pos k (by norm_num))
  simpa [popcnt_zero, popcnt_one] using this

theorem popcnt_pow_mul (k a : Nat) : popcnt (2 ^ k * a) = popcnt a := by
  have := popcnt_pow_mul_add k a 0 (Nat.pos_pow_of_pos k (by norm_num))
  simpa [popcnt_zero] using this

/-- `popcnt` splits across any bit position. -/
theorem popcnt_split (k n : Nat) :
    popcnt n = popcnt (n / 2 ^ k) + popcnt (n % 2 ^ k) := by
  conv_lhs => rw [← Nat.div_add_mod n (2 ^ k)]
  exact popcnt_pow_mul_add k (n / 2 ^ k) (n % 2 ^ k) (Nat.mod_lt n (Nat.pos_pow_of_pos k (by norm_num)))

/-- Hamming distance (`src/basic.rs`): `hamdist x y = popcnt (x ^ y)`. -/
def hamdist (x y : Nat) : Nat := popcnt (x ^^^ y)

/-- The basic mixed xor law on binary digit decompositions. -/
theorem xor_two_mul_add (a b e f : Nat) (he : e < 2) (hf : f < 2) :
    (2 * a + e) ^^^ (2 * b + f) = 2 * (a ^^^ b) + (e ^^^ f) := by
  apply Nat.eq_of_testBit_eq
  intro i
  cases i with
  | zero =>
      have h1 : (2 * a + e) % 2 = e := by omega
      have h2 : (2 * b + f) % 2 = f := by omega
      have hef : e ^^^ f < 2 := by interval_cases e <;> interval_cases f <;> decide
      have h3 : (2 * (a ^^^ b) + (e ^^^ f)) % 2 = e ^^^ f := by omega
      rw [Nat.testBit_xor]
      simp only [Nat.testBit_zero]
      rw [h1, h2, h3]
      interval_cases e <;> interval_cases f <;> rfl
  | succ i =>
      have hef : e ^^^ f < 2 := by interval_cases e <;> interval_cases f <;> decide
      have h1 : (2 * a + e) / 2 = a := by omega
      have h2 : (2 * b + f) / 2 = b := by omega
      have h3 : (2 * (a ^^^ b) + (e ^^^ f)) / 2 = a ^^^ b := by omega
      rw [Nat.testBit_xor, Nat.testBit_succ, Nat.testBit_succ, Nat.testBit_succ,
        h1, h2, h3, ← Nat.testBit_xor]

theorem xor_two_mul (a b : Nat) : (2 * a) ^^^ (2 * b) = 2 * (a ^^^ b) := by
  have := xor_two_mul_add a b 0 0 (by norm_num) (by norm_num)
  simpa using this

theorem xor_pow_mul (k : Nat) :
    ∀ a b : Nat, (2 ^ k * a) ^^^ (2 ^ k * b) = 2 ^ k * (a ^^^ b) := by
  induction k with
  | zero => intro a b; simp
  | succ k ih =>
      intro a b
      have e1 : 2 ^ (k + 1) * a = 2 * (2 ^ k * a) := by ring
      have e2 : 2 ^ (k + 1) * b = 2 * (2 ^ k * b) := by ring
      have e3 : 2 ^ (k + 1) * (a ^^^ b) = 2 * (2 ^ k * (a ^^^ b)) := by ring
      rw [e1, e2, e3, xor_two_mul, ih]

/-- Xor of bit-disjoint values is addition (low part below bit `k`). -/
theorem xor_eq_add_of_lt (k : Nat) :
    ∀ a b : Nat, b < 2 ^ k → (2 ^ k * a) ^^^ b = 2 ^ k * a + b := by
  induction k with
  | zero =>
      intro a b hb
      interval_cases b
      simp
  | succ k ih =>
      intro a b hb
      have e1 : 2 ^ (k + 1) * a = 2 * (2 ^ k * a) + 0 := by ring
      have e2 : b = 2 * (b / 2) + b % 2 := by omega
      rw [e1, e2, xor_two_mul_add _ _ 0 (b % 2) (by norm_num) (by omega)]
      have h3 : b / 2 < 2 ^ k := by
        have : 2 ^ (k + 1) = 2 * 2 ^ k := by ring
        omega
      rw [Nat.zero_xor, ih a (b / 2) h3]
      ring

/-- Xor of powers of two at the given positions. -/
def xmask : List Nat → Nat
  | [] => 0
  | a :: t => 2 ^ a ^^^ xmask t

/-- Strictly ascending list of bit positions. -/
def Asc (q : List Nat) : Prop := List.Pairwise (· < ·) q

theorem xmask_append (u v : List Nat) : xmask (u ++ v) = xmask u ^^^ xmask v := by
  induction u with
  | nil => simp [xmask]
  | cons a t ih => simp [xmask, ih, Nat.xor_assoc]

theorem xmask_dvd (m : Nat) (q : List Nat) (h : ∀ x ∈ q, m ≤ x) :
    ∃ s, xmask q = 2 ^ m * s := by
  induction q with
  | nil => exact ⟨0, by simp [xmask]⟩
  | cons a t ih =>
      obtain ⟨s, hs⟩ := ih (fun x hx => h x (List.mem_cons_of_mem a hx))
      have ha : m ≤ a := h a (List.mem_cons_self a t)
      refine ⟨2 ^ (a - m) ^^^ s, ?_⟩
      have : (2 : Nat) ^ a = 2 ^ m * 2 ^ (a - m) := by
        rw [← pow_add]; congr 1; omega
      rw [xmask, hs, this, xor_pow_mul]

/-- On an ascending list, the xor-mask is the sum `2 ^ a + xmask t`. -/
theorem xmask_cons_eq_add (a : Nat) (t : List Nat) (h : ∀ x ∈ t, a < x) :
    xmask (a :: t) = 2 ^ a + xmask t := by
  obtain ⟨s, hs⟩ := xmask_dvd (a + 1) t (fun x hx => h x hx)
  have hlt : (2 : Nat) ^ a < 2 ^ (a + 1) := Nat.pow_lt_pow_right (by norm_num) (by omega)
  rw [xmask, hs, Nat.xor_comm, xor_eq_add_of_lt (a + 1) s (2 ^ a) hlt]
  ring

theorem popcnt_xmask (q : List Nat) (h : Asc q) : popcnt (xmask q) = q.length := by
  induction q with
  | nil => simp [xmask, popcnt_zero]
  | cons a t ih =>
      have ht : ∀ x ∈ t, a < x := fun x hx => (List.pairwise_cons.mp h).1 x hx
      obtain ⟨s, hs⟩ := xmask_dvd (a + 1) t ht
      have hrec := ih (List.pairwise_cons.mp h).2
      rw [xmask_cons_eq_add a t ht, hs]
      have e1 : (2 : Nat) ^ (a + 1) * s + 2 ^ a = 2 ^ a * (2 * s) + 2 ^ a := by ring
      have e2 : (2 : Nat) ^ a * (2 * s) + 2 ^ a = 2 ^ a * (2 * s + 1) := by ring
      rw [add_comm ((2 : Nat) ^ a), e1, e2, popcnt_pow_mul]
      rw [hs, popcnt_pow_mul] at hrec
      rw [popcnt_two_mul_add s 1 (by norm_num), hrec]
      simp [List.length_cons]

theorem xmask_lt (q : List Nat) (k : Nat) (hb : ∀ x ∈ q, x < k) :
    xmask q < 2 ^ k := by
  induction q with
  | nil =>
      have := Nat.pos_pow_of_pos k (show 0 < 2 by norm_num)
      simpa [xmask] using this
  | cons a t ih =>
      have ha : a < k := hb a (List.mem_cons_self a t)
      have h1 : (2 : Nat) ^ a < 2 ^ k := Nat.pow_lt_pow_right (by norm_num) ha
      have h2 : xmask t < 2 ^ k := ih (fun x hx => hb x (List.mem_cons_of_mem a hx))
      exact Nat.xor_lt_two_pow h1 h2

/-- Ascending list of the positions of the set bits of `n`. -/
def bitsList (n : Nat) : List Nat :=
  if n = 0 then [] else
    (if n % 2 = 1 then [0] else []) ++ (bitsList (n / 2)).map (· + 1)
decreasing_by exact Nat.div_lt_self (Nat.pos_of_ne_zero (by assumption)) one_lt_two

theorem bitsList_zero : bitsList 0 = [] := by rw [bitsList]; rfl

theorem xmask_map_succ (l : List Nat) : xmask (l.map (· + 1)) = 2 * xmask l := by
  induction l with
  | nil => simp [xmask]
  | cons a t ih =>
      have e : (2 : Nat) ^ (a + 1) = 2 * 2 ^ a := by ring
      simp only [List.map_cons, xmask, ih, e, xor_two_mul]

theorem xmask_bitsList (n : Nat) : xmask (bitsList n) = n := by
  induction n using Nat.strong_induction_on with
  | _ n ih =>
      rcases eq_or_ne n 0 with h | h
      · subst h; simp [bitsList_zero, xmask]
      · rw [bitsList]
        simp only [h, if_false]
        have hdiv : n / 2 < n := Nat.div_lt_self (Nat.pos_of_ne_zero h) one_lt_two
        have ihd := ih (n / 2) hdiv
        rcases Nat.mod_two_eq_zero_or_one n with hp | hp
        · simp only [hp]
          norm_num
          rw [xmask_map_succ, ihd]
          omega
        · simp only [hp, if_true]
          rw [List.cons_append, List.nil_append, xmask, xmask_map_succ, ihd]
          have := xor_two_mul_add (n / 2) 0 0 1 (by norm_num) (by norm_num)
          simp only [Nat.xor_zero, Nat.zero_xor, mul_zero, add_zero, zero_add] at this
          have e : (2 : Nat) ^ 0 = 1 := rfl
          rw [e, Nat.xor_comm, this]
          omega

theorem asc_bitsList (n : Nat) : Asc (bitsList n) := by
  induction n using Nat.strong_induction_on with
  | _ n ih =>
      rcases eq_or_ne n 0 with h | h
      · subst h; simp [bitsList_zero, Asc]
      · rw [bitsList]
        simp only [h, if_false]
        have hdiv : n / 2 < n := Nat.div_lt_self (Nat.pos_of_ne_zero h) one_lt_two
        have ihd := ih (n / 2) hdiv
        have hmap : Asc ((bitsList (n / 2)).map (· + 1)) := List.Pairwise.map _ (by omega) ihd
        rcases Nat.mod_two_eq_zero_or_one n with hp | hp
        · simpa [hp] using hmap
        · simp only [hp, if_true, List.cons_append, List.nil_append]
          refine List.pairwise_cons.mpr ⟨?_, hmap⟩
          intro x hx
          obtain ⟨y, _, rfl⟩ := List.mem_map.mp hx
          omega

theorem length_bitsList (n : Nat) : (bitsList n).length = popcnt n := by
  induction n using Nat.strong_induction_on with
  | _ n ih =>
      rcases eq_or_ne n 0 with h | h
      · subst h; simp [bitsList_zero, popcnt_zero]
      · rw [bitsList, popcnt_rec n]
        simp only [h, if_false]
        have hdiv : n / 2 < n := Nat.div_lt_self (Nat.pos_of_ne_zero h) one_lt_two
        have ihd := ih (n / 2) hdiv
        rcases Nat.mod_two_eq_zero_or_one n with hp | hp
        · simp [hp, ihd]
        · simp [hp, ihd]
          omega

theorem mem_bitsList_le (n : Nat) : ∀ a ∈ bitsList n, 2 ^ a ≤ n := by
  induction n using Nat.strong_induction_on with
  | _ n ih =>
      intro a ha
      rcases eq_or_ne n 0 with h | h
      · subst h; simp [bitsList_zero] at ha
      · rw [bitsList] at ha
        simp only [h, if_false, List.mem_append] at ha
        have hdiv : n / 2 < n := Nat.div_lt_self (Nat.pos_of_ne_zero h) one_lt_two
        rcases ha with ha | ha
        · have : a = 0 := by
            rcases Nat.mod_two_eq_zero_or_one n with hp | hp <;> simp [hp] at ha
            exact ha
          subst this; simpa using Nat.pos_of_ne_zero h
        · obtain ⟨y, hy, rfl⟩ := List.mem_map.mp ha
          have := ih (n / 2) hdiv y hy
          have e : (2 : Nat) ^ (y + 1) = 2 * 2 ^ y := by ring
          omega

theorem mem_bitsList_lt (n k : Nat) (hn : n < 2 ^ k) : ∀ a ∈ bitsList n, a < k := by
  intro a ha
  have h1 := mem_bitsList_le n a ha
  have h2 : (2 : Nat) ^ a < 2 ^ k := lt_of_le_of_lt h1 hn
  exact (Nat.pow_lt_pow_iff_right (by norm_num)).mp h2

/-- State of `SigGenerator64` (`src/index/siggen.rs`).  The Rust `power`
array has 64 entries; the generator only ever reads and writes entries at
indices `0 ..= radius`, so it is modeled as a total function.  The Rust
`bit` cursor is an `isize` (it transiently reaches `-1`), modeled as `Int`.
All shift amounts that occur in reachable states are below 64, so plain
`Nat` arithmetic agrees with the `u64` operations. -/
structure SigGenerator64 where
  sig : Nat
  base : Nat
  radius : Nat
  bit : Int
  power : Nat → Nat

/-- `SigGenerator64::new()`. -/
def SigGenerator64.new : SigGenerator64 :=
  { sig := 0, base := 0, radius := 0, bit := 0, power := fun _ => 0 }

/-- `SigGenerator64::init(base, dim, radius)`: overwrites `power[0..radius]`
with `0, 1, ..., radius - 1` and plants the sentinel `power[radius] = dim + 1`;
other entries keep their previous contents. -/
def SigGenerator64.init (g : SigGenerator64) (base dim radius : Nat) : SigGenerator64 :=
  { sig := 0, base := base, radius := radius, bit := (radius : Int) - 1,
    power := fun i => if i < radius then i else if i = radius then dim + 1 else g.power i }

/-- One iteration of the first loop of `next()`: the xor-toggle applied at
cursor index `idx`, as written in the source. -/
def sigToggle (sig : Nat) (power : Nat → Nat) (idx : Nat) : Nat :=
  if power idx = idx then sig ^^^ (1 <<< power idx) else sig ^^^ (3 <<< (power idx - 1))

/-- The first loop of `next()` (`while self.bit != -1`), iterating the cursor
from `n - 1` down to `0`. -/
def sigAdvance : Nat → Nat → (Nat → Nat) → Nat × (Nat → Nat)
  | 0, sig, power => (sig, power)
  | n + 1, sig, power =>
      sigAdvance n (sigToggle sig power n) (Function.update power n (power n + 1))

/-- The second loop of `next()`: starting at cursor `idx`, keep resetting
positions while `power[idx] + 1 == power[idx + 1]`; returns the final
cursor, register and array. -/
def sigRewindAux : Nat → Nat → Nat → Nat → (Nat → Nat) → Nat × Nat × (Nat → Nat)
  | 0, _, idx, sig, power => (idx, sig, power)
  | fuel + 1, radius, idx, sig, power =>
      if radius ≤ idx then (idx, sig, power)
      else if power idx + 1 ≠ power (idx + 1) then (idx, sig, power)
      else sigRewindAux fuel radius (idx + 1) (sig ^^^ (1 <<< (power idx - 1)))
        (Function.update power idx idx)

def sigRewind (radius idx sig : Nat) (power : Nat → Nat) : Nat × Nat × (Nat → Nat) :=
  sigRewindAux (radius - idx) radius idx sig power

theorem sigRewind_eq (radius idx sig : Nat) (power : Nat → Nat) :
    sigRewind radius idx sig power =
      if radius ≤ idx then (idx, sig, power)
      else if power idx + 1 ≠ power (idx + 1) then (idx, sig, power)
      else sigRewind radius (idx + 1) (sig ^^^ (1 <<< (power idx - 1)))
        (Function.update power idx idx) := by
  rw [sigRewind, sigRewind]
  rcases Nat.lt_or_ge idx radius with h | h
  · have hf : radius - idx = (radius - (idx + 1)) + 1 := by omega
    rw [hf, sigRewindAux]
  · have hf : radius - idx = 0 := by omega
    rw [hf, if_pos h]
    rfl

/-- `SigGenerator64::next()`: returns the emitted signature and the new state. -/
def SigGenerator64.next (g : SigGenerator64) : Nat × SigGenerator64 :=
  let p1 := sigAdvance (g.bit + 1).toNat g.sig g.power
  let p2 := sigRewind g.radius 0 p1.1 p1.2
  (p1.1 ^^^ g.base, { g with sig := p2.2.1, bit := (p2.1 : Int), power := p2.2.2 })

/-- `SigGenerator64::has_next()`. -/
def SigGenerator64.has_next (g : SigGenerator64) : Bool := g.bit != (g.radius : Int)

/-- Run the generator `init .. ; while has_next() { next() }`, with explicit
fuel (the Rust loop is bounded by `choose dim radius`, proved below). -/
def sigRun : Nat → SigGenerator64 → List Nat × SigGenerator64
  | 0, g => ([], g)
  | fuel + 1, g =>
      if g.has_next then
        let p := g.next
        let rest := sigRun fuel p.2
        (p.1 :: rest.1, rest.2)
      else ([], g)

/-- The emitted signatures alone. -/
def sigList (fuel : Nat) (g : SigGenerator64) : List Nat := (sigRun fuel g).1


/-- Entry `i` of a position list (0 past the end). -/
def nth (q : List Nat) (i : Nat) : Nat := q.getD i 0

/-- `q` is an ascending list of `r` positions below `d` (a combination). -/
structure Comb (d r : Nat) (q : List Nat) : Prop where
  asc : Asc q
  len : q.length = r
  lt : ∀ x ∈ q, x < d


/-- The continuation test of the second loop of `next()`, phrased on the
combination: at cursor `i`, the generator compares `power[i] + 1` with
`power[i+1]`, whose value is `nth q (i+1) + 1` below the length and the
sentinel `d + 1` at the length. -/
def condAt (d : Nat) (q : List Nat) (i : Nat) : Bool :=
  if i + 1 < q.length then nth q (i + 1) == nth q i + 1 else nth q i + 1 == d

/-- First cursor position at which the second loop of `next()` stops. -/
def brkAux (d : Nat) (q : List Nat) (i : Nat) : Nat :=
  if i < q.length ∧ condAt d q i then brkAux d q (i + 1) else i
termination_by q.length - i
decreasing_by
  rename_i h
  omega

/-- Break position of `q`: the length of the leading chain `q₀, q₀ + 1, …`
(a final entry equal to `d - 1` counts as chained, per the sentinel). -/
def brk (d : Nat) (q : List Nat) : Nat := brkAux d q 0

theorem brkAux_rec (d : Nat) (q : List Nat) (i : Nat) :
    brkAux d q i = if i < q.length ∧ condAt d q i then brkAux d q (i + 1) else i := by
  rw [brkAux]

theorem brkAux_ge (d : Nat) (q : List Nat) : ∀ n i, q.length - i ≤ n → i ≤ brkAux d q i := by
  intro n
  induction n with
  | zero =>
      intro i hi
      rw [brkAux_rec]
      split
      · omega
      · omega
  | succ n ih =>
      intro i hi
      rw [brkAux_rec]
      split
      · rename_i h
        have := ih (i + 1) (by omega)
        omega
      · omega

theorem brkAux_le (d : Nat) (q : List Nat) : ∀ n i, q.length - i ≤ n → i ≤ q.length →
    brkAux d q i ≤ q.length := by
  intro n
  induction n with
  | zero =>
      intro i hi hle
      rw [brkAux_rec]
      split
      · omega
      · omega
  | succ n ih =>
      intro i hi hle
      rw [brkAux_rec]
      split
      · rename_i h
        exact ih (i + 1) (by omega) (by omega)
      · omega

theorem brkAux_cond (d : Nat) (q : List Nat) :
    ∀ n i, q.length - i ≤ n → ∀ k, i ≤ k → k < brkAux d q i → condAt d q k = true := by
  intro n
  induction n with
  | zero =>
      intro i hi k hik hk
      rw [brkAux_rec] at hk
      split at hk
      · omega
      · omega
  | succ n ih =>
      intro i hi k hik hk
      rw [brkAux_rec] at hk
      split at hk
      · rename_i h
        rcases eq_or_lt_of_le hik with rfl | hik'
        · exact h.2
        · exact ih (i + 1) (by omega) k (by omega) hk
      · omega

theorem brkAux_exit (d : Nat) (q : List Nat) :
    ∀ n i, q.length - i ≤ n → i ≤ q.length →
      brkAux d q i = q.length ∨ condAt d q (brkAux d q i) = false := by
  intro n
  induction n with
  | zero =>
      intro i hi hle
      rw [brkAux_rec]
      split
      · rename_i h; omega
      · rename_i h
        rcases Nat.lt_or_ge i q.length with h' | h'
        · right
          simp only [h', true_and] at h
          simpa using h
        · left; omega
  | succ n ih =>
      intro i hi hle
      rw [brkAux_rec]
      split
      · rename_i h
        exact ih (i + 1) (by omega) (by omega)
      · rename_i h
        rcases Nat.lt_or_ge i q.length with h' | h'
        · right
          simp only [h', true_and] at h
          simpa using h
        · left; omega

theorem brk_le_length (d : Nat) (q : List Nat) : brk d q ≤ q.length :=
  brkAux_le d q q.length 0 (by omega) (by omega)

theorem brk_cond (d : Nat) (q : List Nat) (k : Nat) (hk : k < brk d q) :
    condAt d q k = true :=
  brkAux_cond d q q.length 0 (by omega) k (by omega) hk

theorem brk_exit (d : Nat) (q : List Nat) :
    brk d q = q.length ∨ condAt d q (brk d q) = false :=
  brkAux_exit d q q.length 0 (by omega) (by omega)

theorem brk_chain (d : Nat) (q : List Nat) (k : Nat) (hk : k < brk d q)
    (hlen : k + 1 < q.length) : nth q (k + 1) = nth q k + 1 := by
  have := brk_cond d q k hk
  rw [condAt, if_pos hlen] at this
  exact eq_of_beq this

theorem brk_sent (d : Nat) (q : List Nat) (h : brk d q = q.length) (hne : 0 < q.length) :
    nth q (q.length - 1) + 1 = d := by
  have := brk_cond d q (q.length - 1) (by omega)
  rw [condAt] at this
  have hx : ¬(q.length - 1 + 1 < q.length) := by omega
  rw [if_neg hx] at this
  have := eq_of_beq this
  omega

theorem brk_gap_mid (d : Nat) (q : List Nat) (h : brk d q + 1 < q.length) :
    nth q (brk d q + 1) ≠ nth q (brk d q) + 1 := by
  rcases brk_exit d q with he | he
  · omega
  · rw [condAt, if_pos h] at he
    intro hc
    rw [hc] at he
    simp at he

theorem brk_gap_end (d : Nat) (q : List Nat) (h : brk d q < q.length)
    (h2 : ¬ brk d q + 1 < q.length) : nth q (brk d q) + 1 ≠ d := by
  rcases brk_exit d q with he | he
  · omega
  · rw [condAt, if_neg h2] at he
    intro hc
    rw [hc] at he
    simp at he

/-- Entries within the chain are consecutive. -/
theorem brk_chain_nth (d : Nat) (q : List Nat) (i : Nat) (hi : i < brk d q)
    (hlen : brk d q ≤ q.length) : nth q i = nth q 0 + i := by
  induction i with
  | zero => omega
  | succ i ih =>
      have h1 := ih (by omega)
      have h2 := brk_chain d q i (by omega) (by omega)
      omega

/-- Colexicographic successor of `q` at break position `j`: the first `j`
entries reset to `0, …, j - 1`, entry `j` incremented, the rest kept. -/
def succAt (j : Nat) (q : List Nat) : List Nat :=
  List.range j ++ (nth q j + 1) :: q.drop (j + 1)

/-- Orbit of `q` under colexicographic succession (fuel-clipped). -/
def orbit (d : Nat) : Nat → List Nat → List (List Nat)
  | 0, _ => []
  | fuel + 1, q =>
      q :: (if brk d q = q.length then [] else orbit d fuel (succAt (brk d q) q))

/-- Colexicographic rank: `rank (q₀ :: …) i = choose q₀ i + …`. -/
def rank : List Nat → Nat → Nat
  | [], _ => 0
  | a :: t, i => Nat.choose a i + rank t (i + 1)

theorem nth_lt_nth (q : List Nat) (h : Asc q) (i j : Nat) (hij : i < j)
    (hj : j < q.length) : nth q i < nth q j := by
  have hi : i < q.length := lt_trans hij hj
  have := (List.pairwise_iff_get.mp h) ⟨i, hi⟩ ⟨j, hj⟩ hij
  rw [nth, nth, List.getD_eq_getElem _ _ hi, List.getD_eq_getElem _ _ hj]
  simpa using this

theorem nth_ge_idx (q : List Nat) (h : Asc q) (i : Nat) (hi : i < q.length) :
    i ≤ nth q i := by
  induction i with
  | zero => exact Nat.zero_le _
  | succ i ih =>
      have h1 := ih (lt_trans (Nat.lt_succ_self i) hi)
      have h2 := nth_lt_nth q h i (i + 1) (Nat.lt_succ_self i) hi
      omega

theorem nth_mem (q : List Nat) (i : Nat) (hi : i < q.length) : nth q i ∈ q := by
  rw [nth, List.getD_eq_getElem _ _ hi]
  exact List.getElem_mem hi

theorem comb_r_le_d (d r : Nat) (q : List Nat) (hq : Comb d r q) : r ≤ d := by
  have hlen := hq.len
  rcases Nat.eq_zero_or_pos r with h | h
  · omega
  · have h1 := nth_ge_idx q hq.asc (r - 1) (by omega)
    have h2 := hq.lt (nth q (r - 1)) (nth_mem q (r - 1) (by rw [hq.len]; omega))
    omega

/-- Entries at and below the break position are consecutive. -/
theorem chain_nth (d : Nat) (q : List Nat) (i : Nat) (hi : i ≤ brk d q)
    (hilen : i < q.length) : nth q i = nth q 0 + i := by
  induction i with
  | zero => omega
  | succ i ih =>
      have h1 := ih (by omega) (by omega)
      have h2 := brk_chain d q i (by omega) (by omega)
      omega

theorem length_succAt (j : Nat) (q : List Nat) (h : j < q.length) :
    (succAt j q).length = q.length := by
  simp [succAt]
  omega

theorem nth_succAt_lt (j : Nat) (q : List Nat) (i : Nat) (hij : i < j) :
    nth (succAt j q) i = i := by
  rw [nth, succAt, List.getD_eq_getElem?_getD, List.getElem?_append]
  simp only [List.length_range, hij, if_pos]
  rw [List.getElem?_range hij]
  rfl

theorem nth_succAt_self (j : Nat) (q : List Nat) :
    nth (succAt j q) j = nth q j + 1 := by
  rw [nth, succAt, List.getD_eq_getElem?_getD, List.getElem?_append]
  simp

theorem nth_succAt_gt (j : Nat) (q : List Nat) (i : Nat) (hij : j < i) :
    nth (succAt j q) i = nth q i := by
  rw [nth, succAt, List.getD_eq_getElem?_getD, List.getElem?_append]
  simp only [List.length_range]
  rw [if_neg (by omega)]
  have : i - j = (i - j - 1) + 1 := by omega
  rw [this, List.getElem?_cons_succ, List.getElem?_drop, nth, List.getD_eq_getElem?_getD]
  congr 2
  omega

theorem succAt_comb (d r : Nat) (q : List Nat) (hq : Comb d r q) (j : Nat)
    (hj : j = brk d q) (hjr : j < r) : Comb d r (succAt j q) := by
  have hlen : q.length = r := hq.len
  have hjq : j < q.length := by omega
  have hqj_ge : j ≤ nth q j := nth_ge_idx q hq.asc j hjq
  have hqj_lt : nth q j < d := hq.lt _ (nth_mem q j hjq)
  -- the incremented entry stays below `d`
  have hinc : nth q j + 1 < d := by
    by_cases hj1 : j + 1 < q.length
    · have hgap := brk_gap_mid d q (by omega)
      rw [← hj] at hgap
      have hasc := nth_lt_nth q hq.asc j (j + 1) (by omega) hj1
      have hub := hq.lt _ (nth_mem q (j + 1) hj1)
      omega
    · have hgap := brk_gap_end d q (by omega) (by omega)
      rw [← hj] at hgap
      omega
  -- entries of the kept tail exceed the incremented entry
  have htail : ∀ x ∈ q.drop (j + 1), nth q j + 1 < x := by
    intro x hx
    obtain ⟨i, hilt, hi⟩ := List.mem_iff_getElem.mp hx
    rw [List.getElem_drop] at hi
    have hxval : x = nth q (j + 1 + i) := by
      rw [nth, List.getD_eq_getElem _ _ (by simp at hilt; omega)]
      exact hi.symm
    have hj1 : j + 1 < q.length := by simp at hilt; omega
    have h1 : nth q (j + 1) ≤ nth q (j + 1 + i) := by
      rcases Nat.eq_zero_or_pos i with h0 | h0
      · subst h0; simp
      · exact le_of_lt (nth_lt_nth q hq.asc (j + 1) (j + 1 + i) (by omega)
          (by simp at hilt; omega))
    have h2 : nth q j < nth q (j + 1) := nth_lt_nth q hq.asc j (j + 1) (by omega) hj1
    have hgap := brk_gap_mid d q (by omega)
    rw [← hj] at hgap
    omega
  constructor
  · -- ascending
    rw [succAt, Asc, List.pairwise_append]
    refine ⟨List.pairwise_lt_range j, ?_, ?_⟩
    · rw [List.pairwise_cons]
      refine ⟨htail, ?_⟩
      exact hq.asc.sublist (List.drop_sublist (j + 1) q)
    · intro x hx y hy
      have hxj : x < j := List.mem_range.mp hx
      rcases List.mem_cons.mp hy with rfl | hy'
      · omega
      · have := htail y hy'
        omega
  · rw [length_succAt j q hjq]; exact hlen
  · intro x hx
    rw [succAt] at hx
    rcases List.mem_append.mp hx with hx' | hx'
    · have := List.mem_range.mp hx'
      have : j < d := by
        have := comb_r_le_d d r q hq
        omega
      omega
    · rcases List.mem_cons.mp hx' with rfl | hx''
      · exact hinc
      · exact hq.lt x (List.mem_of_mem_drop hx'')

theorem rank_append (u v : List Nat) : ∀ i, rank (u ++ v) i = rank u i + rank v (i + u.length) := by
  induction u with
  | nil => intro i; simp [rank]
  | cons a t ih =>
      intro i
      show Nat.choose a i + rank (t ++ v) (i + 1) =
        Nat.choose a i + rank t (i + 1) + rank v (i + (t.length + 1))
      rw [ih (i + 1)]
      have : i + 1 + t.length = i + (t.length + 1) := by omega
      rw [this]
      ring

theorem rank_small (q : List Nat) : ∀ i, 1 ≤ i →
    (∀ k, k < q.length → nth q k < i + k) → rank q i = 0 := by
  induction q with
  | nil => intro i _ _; simp [rank]
  | cons a t ih =>
      intro i hi hk
      have h0 := hk 0 (by simp)
      rw [nth, List.getD_cons_zero] at h0
      have htail : ∀ k, k < t.length → nth t k < (i + 1) + k := by
        intro k hkl
        have := hk (k + 1) (by simp; omega)
        rw [nth, List.getD_cons_succ] at this
        rw [nth]
        omega
      rw [rank, Nat.choose_eq_zero_of_lt (by omega), ih (i + 1) (by omega) htail]

theorem rank_range (k : Nat) : rank (List.range k) 1 = 0 := by
  apply rank_small _ 1 (by omega)
  intro i hi
  rw [List.length_range] at hi
  rw [nth, List.getD_eq_getElem?_getD, List.getElem?_range hi]
  simp

/-- Diagonal binomial sum: rank of a consecutive run. -/
theorem rank_range' (j : Nat) : ∀ a i, 1 ≤ i →
    rank (List.range' a (j + 1)) i + Nat.choose a (i - 1) =
      Nat.choose (a + j + 1) (i + j) := by
  induction j with
  | zero =>
      intro a i hi
      obtain ⟨k, rfl⟩ : ∃ k, i = k + 1 := ⟨i - 1, by omega⟩
      show rank [a] (k + 1) + Nat.choose a k = Nat.choose (a + 1) (k + 1)
      rw [rank, rank]
      have hps := Nat.choose_succ_succ a k
      simp only [Nat.succ_eq_add_one] at hps
      omega
  | succ j ih =>
      intro a i hi
      obtain ⟨k, rfl⟩ : ∃ k, i = k + 1 := ⟨i - 1, by omega⟩
      rw [List.range'_succ, rank]
      have hIH := ih (a + 1) (k + 2) (by omega)
      have hps := Nat.choose_succ_succ a k
      simp only [Nat.succ_eq_add_one] at hps
      have e1 : a + 1 + j + 1 = a + (j + 1) + 1 := by omega
      have e2 : k + 2 + j = k + 1 + (j + 1) := by omega
      have e3 : k + 2 - 1 = k + 1 := by omega
      rw [e1, e2, e3] at hIH
      have e4 : k + 1 - 1 = k := by omega
      have e5 : k + 1 + 1 = k + 2 := by omega
      rw [e4, e5]
      omega

/-- Below the break position, `q` is a consecutive run. -/
theorem take_eq_range' (d : Nat) (q : List Nat) (k : Nat) (hk : k ≤ brk d q + 1)
    (hlen : k ≤ q.length) : q.take k = List.range' (nth q 0) k := by
  apply List.ext_getElem?
  intro i
  rw [List.getElem?_take]
  by_cases hik : i < k
  · rw [if_pos hik]
    have hil : i < q.length := by omega
    have := chain_nth d q i (by omega) hil
    rw [List.getElem?_range' _ _ hik, List.getElem?_eq_getElem hil]
    rw [nth, List.getD_eq_getElem _ _ hil] at this
    rw [this]
    simp
  · rw [if_neg hik]
    symm
    rw [List.getElem?_eq_none_iff, List.length_range']
    omega

theorem rank_succAt (d r : Nat) (q : List Nat) (hq : Comb d r q) (j : Nat)
    (hj : j = brk d q) (hjr : j < r) : rank (succAt j q) 1 = rank q 1 + 1 := by
  have hlen : q.length = r := hq.len
  have hjq : j < q.length := by omega
  -- decompose q at j + 1
  have hdec : q = q.take (j + 1) ++ q.drop (j + 1) := (List.take_append_drop (j + 1) q).symm
  have htake : q.take (j + 1) = List.range' (nth q 0) (j + 1) :=
    take_eq_range' d q (j + 1) (by omega) (by omega)
  have htlen : (q.take (j + 1)).length = j + 1 := by
    rw [List.length_take]; omega
  have hqj : nth q j = nth q 0 + j := chain_nth d q j (by omega) hjq
  -- rank of q
  have hrq : rank q 1 = rank (List.range' (nth q 0) (j + 1)) 1 + rank (q.drop (j + 1)) (j + 2) := by
    conv_lhs => rw [hdec]
    rw [rank_append, htlen, htake]
    have e : 1 + (j + 1) = j + 2 := by omega
    rw [e]
  -- rank of the successor
  have hrs : rank (succAt j q) 1 =
      Nat.choose (nth q j + 1) (j + 1) + rank (q.drop (j + 1)) (j + 2) := by
    rw [succAt, rank_append, List.length_range, rank_range, rank]
    have e0 : 1 + j = j + 1 := by omega
    rw [e0]
    have e1 : j + 1 + 1 = j + 2 := by omega
    rw [e1]
    omega
  have hid := rank_range' j (nth q 0) 1 (by omega)
  simp only [Nat.sub_self, Nat.choose_zero_right] at hid
  have e : nth q 0 + j + 1 = nth q j + 1 := by omega
  rw [e] at hid
  have e2 : 1 + j = j + 1 := by omega
  rw [e2] at hid
  omega

theorem rank_lt : ∀ (q : List Nat), Asc q → ∀ d, (∀ x ∈ q, x < d) →
    rank q 1 < Nat.choose d q.length := by
  intro q
  induction q using List.reverseRecOn with
  | nil =>
      intro _ d _
      simp [rank]
  | append_singleton u a ih =>
      intro hasc d hb
      rw [Asc, List.pairwise_append] at hasc
      obtain ⟨hu, _, hcross⟩ := hasc
      have hua : ∀ x ∈ u, x < a := fun x hx => hcross x hx a (by simp)
      have hIH := ih hu a hua
      have had : a < d := hb a (by simp)
      rw [rank_append, rank, rank, List.length_append, List.length_singleton]
      have hps : Nat.choose (a + 1) (u.length + 1) =
          Nat.choose a u.length + Nat.choose a (u.length + 1) := Nat.choose_succ_succ a u.length
      have hmono : Nat.choose (a + 1) (u.length + 1) ≤ Nat.choose d (u.length + 1) :=
        Nat.choose_le_choose _ (by omega)
      have e : 1 + u.length = u.length + 1 := by omega
      rw [e]
      omega

theorem rank_inj : ∀ (q c : List Nat), Asc q → Asc c → q.length = c.length →
    rank q 1 = rank c 1 → q = c := by
  intro q
  induction q using List.reverseRecOn with
  | nil =>
      intro c _ _ hlen _
      rw [List.length_nil] at hlen
      exact (List.eq_nil_of_length_eq_zero hlen.symm).symm
  | append_singleton u a ih =>
      intro c hq hc hlen hrank
      induction c using List.reverseRecOn with
      | nil => rw [List.length_nil] at hlen; simp at hlen
      | append_singleton v b _ =>
          rw [Asc, List.pairwise_append] at hq hc
          obtain ⟨hu, _, hcru⟩ := hq
          obtain ⟨hv, _, hcrv⟩ := hc
          have hua : ∀ x ∈ u, x < a := fun x hx => hcru x hx a (by simp)
          have hvb : ∀ x ∈ v, x < b := fun x hx => hcrv x hx b (by simp)
          have hlen' : u.length = v.length := by
            simp at hlen; omega
          have key : ∀ (u' v' : List Nat) (a' b' : Nat), Asc u' → (∀ x ∈ u', x < a') →
              u'.length = v'.length → a' < b' →
              rank (u' ++ [a']) 1 < rank (v' ++ [b']) 1 := by
            intro u' v' a' b' hu' hua' hlen'' hab
            have h1 : rank (u' ++ [a']) 1 < Nat.choose (a' + 1) (u'.length + 1) := by
              have := rank_lt (u' ++ [a']) ?_ (a' + 1) ?_
              · rw [List.length_append, List.length_singleton] at this
                exact this
              · rw [Asc, List.pairwise_append]
                exact ⟨hu', List.pairwise_singleton _ _, fun x hx y hy => by
                  simp at hy; subst hy; exact hua' x hx⟩
              · intro x hx
                rcases List.mem_append.mp hx with hx' | hx'
                · have := hua' x hx'; omega
                · simp at hx'; omega
            have h2 : Nat.choose (a' + 1) (u'.length + 1) ≤ Nat.choose b' (v'.length + 1) := by
              rw [hlen'']
              exact Nat.choose_le_choose _ (by omega)
            have h3 : Nat.choose b' (v'.length + 1) ≤ rank (v' ++ [b']) 1 := by
              rw [rank_append, rank, rank]
              have e : 1 + v'.length = v'.length + 1 := by omega
              rw [e]
              omega
            omega
          rcases Nat.lt_trichotomy a b with hab | hab | hab
          · have := key u v a b hu hua hlen' hab
            omega
          · subst hab
            have hru : rank u 1 = rank v 1 := by
              have h1 : rank (u ++ [a]) 1 = rank u 1 + Nat.choose a (1 + u.length) := by
                rw [rank_append, rank, rank]; omega
              have h2 : rank (v ++ [a]) 1 = rank v 1 + Nat.choose a (1 + v.length) := by
                rw [rank_append, rank, rank]; omega
              rw [h1, h2, hlen'] at hrank
              omega
            have := ih v hu hv hlen' hru
            rw [this]
          · have := key v u b a hv hvb hlen'.symm hab
            omega

theorem rank_last (d r : Nat) (q : List Nat) (hq : Comb d r q) (hr : 1 ≤ r)
    (h : brk d q = q.length) : rank q 1 + 1 = Nat.choose d r := by
  have hlen : q.length = r := hq.len
  have hrd : r ≤ d := comb_r_le_d d r q hq
  have hsent := brk_sent d q h (by omega)
  have hlast : nth q (q.length - 1) = nth q 0 + (q.length - 1) :=
    chain_nth d q (q.length - 1) (by omega) (by omega)
  have hq0 : nth q 0 = d - r := by omega
  have hfull : q = List.range' (nth q 0) r := by
    have h1 := take_eq_range' d q q.length (by omega) (by omega)
    rw [List.take_length] at h1
    conv_lhs => rw [h1]
    rw [hlen]
  obtain ⟨r', rfl⟩ : ∃ r', r = r' + 1 := ⟨r - 1, by omega⟩
  have hid := rank_range' r' (d - (r' + 1)) 1 (by omega)
  simp only [Nat.sub_self, Nat.choose_zero_right] at hid
  have e1 : d - (r' + 1) + r' + 1 = d := by omega
  have e2 : 1 + r' = r' + 1 := by omega
  rw [e1, e2] at hid
  rw [hfull, hq0]
  omega

theorem xor_cancel_left' (a b : Nat) : a ^^^ (a ^^^ b) = b := by
  rw [← Nat.xor_assoc, Nat.xor_self, Nat.zero_xor]

/-- Entries of the kept tail exceed the incremented entry. -/
theorem succAt_tail_gt (d r : Nat) (q : List Nat) (hq : Comb d r q) (j : Nat)
    (hj : j = brk d q) (hjr : j < r) : ∀ x ∈ q.drop (j + 1), nth q j + 1 < x := by
  have hlen : q.length = r := hq.len
  have hjq : j < q.length := by omega
  intro x hx
  obtain ⟨i, hilt, hi⟩ := List.mem_iff_getElem.mp hx
  rw [List.getElem_drop] at hi
  have hlendrop : i + (j + 1) < q.length := by
    rw [List.length_drop] at hilt; omega
  have hxval : x = nth q (j + 1 + i) := by
    rw [nth, List.getD_eq_getElem _ _ (by omega), hi]
  have hj1 : j + 1 < q.length := by omega
  have h1 : nth q (j + 1) ≤ nth q (j + 1 + i) := by
    rcases Nat.eq_zero_or_pos i with h0 | h0
    · subst h0; simp
    · exact le_of_lt (nth_lt_nth q hq.asc (j + 1) (j + 1 + i) (by omega) (by omega))
  have h2 : nth q j < nth q (j + 1) := nth_lt_nth q hq.asc j (j + 1) (by omega) hj1
  have hgap := brk_gap_mid d q (by omega)
  rw [← hj] at hgap
  omega

/-- The colexicographic successor has a strictly larger mask. -/
theorem xmask_succAt_gt (d r : Nat) (q : List Nat) (hq : Comb d r q) (j : Nat)
    (hj : j = brk d q) (hjr : j < r) : xmask q < xmask (succAt j q) := by
  have hlen : q.length = r := hq.len
  have hjq : j < q.length := by omega
  have hqj_ge : j ≤ nth q j := nth_ge_idx q hq.asc j hjq
  have htks : q.take (j + 1) = q.take j ++ [nth q j] := by
    rw [List.take_succ, List.getElem?_eq_getElem hjq]
    rw [nth, List.getD_eq_getElem _ _ hjq]
    rfl
  have hdec : q = q.take j ++ ([nth q j] ++ q.drop (j + 1)) := by
    conv_lhs => rw [← List.take_append_drop (j + 1) q]
    rw [htks, List.append_assoc]
  have htail := succAt_tail_gt d r q hq j hj hjr
  obtain ⟨s, hs⟩ := xmask_dvd (nth q j + 2) (q.drop (j + 1)) (fun x hx => by
    have := htail x hx; omega)
  have hT : xmask (q.take j) < 2 ^ nth q j := by
    apply xmask_lt
    intro x hx
    obtain ⟨i, hilt, hi⟩ := List.mem_iff_getElem.mp hx
    rw [List.length_take] at hilt
    rw [List.getElem_take] at hi
    have hxi : x = nth q i := by
      rw [nth, List.getD_eq_getElem _ _ (by omega), hi]
    subst hxi
    exact nth_lt_nth q hq.asc i j (by omega) hjq
  have hR : xmask (List.range j) < 2 ^ (nth q j + 1) := by
    apply xmask_lt
    intro x hx
    have := List.mem_range.mp hx
    omega
  have hxm1 : xmask [nth q j] = 2 ^ nth q j := by simp [xmask]
  -- numeric form of xmask q
  have hvq : xmask q = 2 ^ (nth q j + 2) * s + 2 ^ nth q j + xmask (q.take j) := by
    conv_lhs => rw [hdec]
    rw [xmask_append, xmask_append, hxm1, hs]
    have e1 : (2 : Nat) ^ nth q j ^^^ 2 ^ (nth q j + 2) * s =
        2 ^ (nth q j + 2) * s + 2 ^ nth q j := by
      rw [Nat.xor_comm]
      exact xor_eq_add_of_lt _ _ _ (Nat.pow_lt_pow_right (by norm_num) (by omega))
    rw [e1]
    have e2 : (2 : Nat) ^ (nth q j + 2) * s + 2 ^ nth q j =
        2 ^ nth q j * (4 * s + 1) := by
      rw [pow_add]; ring
    rw [e2, Nat.xor_comm, xor_eq_add_of_lt _ _ _ hT]
  -- numeric form of the successor's mask
  have hvs : xmask (succAt j q) =
      2 ^ (nth q j + 2) * s + 2 ^ (nth q j + 1) + xmask (List.range j) := by
    rw [succAt, xmask_append]
    show xmask (List.range j) ^^^ (2 ^ (nth q j + 1) ^^^ xmask (q.drop (j + 1))) = _
    rw [hs]
    have e1 : (2 : Nat) ^ (nth q j + 1) ^^^ 2 ^ (nth q j + 2) * s =
        2 ^ (nth q j + 2) * s + 2 ^ (nth q j + 1) := by
      rw [Nat.xor_comm]
      exact xor_eq_add_of_lt _ _ _ (Nat.pow_lt_pow_right (by norm_num) (by omega))
    rw [e1]
    have e2 : (2 : Nat) ^ (nth q j + 2) * s + 2 ^ (nth q j + 1) =
        2 ^ (nth q j + 1) * (2 * s + 1) := by
      rw [pow_add, pow_add]; ring
    rw [e2, Nat.xor_comm, xor_eq_add_of_lt _ _ _ hR]
  have hpow : (2 : Nat) ^ (nth q j + 1) = 2 * 2 ^ nth q j := by
    rw [pow_succ]; ring
  omega

theorem orbit_mem_comb (d r : Nat) (hr : 1 ≤ r) :
    ∀ (fuel : Nat) (q : List Nat), Comb d r q → ∀ c ∈ orbit d fuel q, Comb d r c := by
  intro fuel
  induction fuel with
  | zero => intro q _ c hc; simp [orbit] at hc
  | succ fuel ih =>
      intro q hq c hc
      rw [orbit] at hc
      rcases List.mem_cons.mp hc with rfl | hc'
      · exact hq
      · split at hc'
        · simp at hc'
        · rename_i hbrk
          have hjr : brk d q < r := by
            have h1 := brk_le_length d q
            have h2 := hq.len
            omega
          exact ih (succAt (brk d q) q) (succAt_comb d r q hq _ rfl hjr) c hc'

theorem orbit_length (d r : Nat) (hr : 1 ≤ r) :
    ∀ (fuel : Nat) (q : List Nat), Comb d r q →
      Nat.choose d r - rank q 1 ≤ fuel →
      (orbit d fuel q).length = Nat.choose d r - rank q 1 := by
  intro fuel
  induction fuel with
  | zero =>
      intro q hq hfuel
      have := rank_lt q hq.asc d hq.lt
      rw [hq.len] at this
      omega
  | succ fuel ih =>
      intro q hq hfuel
      have hrlt := rank_lt q hq.asc d hq.lt
      rw [hq.len] at hrlt
      rw [orbit]
      by_cases hbrk : brk d q = q.length
      · rw [if_pos hbrk]
        have := rank_last d r q hq hr hbrk
        simp
        omega
      · rw [if_neg hbrk]
        have hjr : brk d q < r := by
          have h1 := brk_le_length d q
          have h2 := hq.len
          omega
        have hsq := succAt_comb d r q hq _ rfl hjr
        have hrs := rank_succAt d r q hq _ rfl hjr
        have hrlt' := rank_lt (succAt (brk d q) q) hsq.asc d hsq.lt
        rw [hsq.len] at hrlt'
        have := ih (succAt (brk d q) q) hsq (by omega)
        simp only [List.length_cons, this, hrs]
        omega

theorem orbit_complete (d r : Nat) (hr : 1 ≤ r) :
    ∀ (fuel : Nat) (q : List Nat), Comb d r q →
      ∀ c, Comb d r c → rank q 1 ≤ rank c 1 →
      Nat.choose d r - rank q 1 ≤ fuel → c ∈ orbit d fuel q := by
  intro fuel
  induction fuel with
  | zero =>
      intro q hq c hc hrk hfuel
      have := rank_lt q hq.asc d hq.lt
      rw [hq.len] at this
      omega
  | succ fuel ih =>
      intro q hq c hc hrk hfuel
      have hclt := rank_lt c hc.asc d hc.lt
      rw [hc.len] at hclt
      rw [orbit]
      rcases eq_or_lt_of_le hrk with heq | hlt
      · have : q = c := rank_inj q c hq.asc hc.asc (by rw [hq.len, hc.len]) heq
        subst this
        exact List.mem_cons_self _ _
      · by_cases hbrk : brk d q = q.length
        · have := rank_last d r q hq hr hbrk
          omega
        · rw [if_neg hbrk]
          have hjr : brk d q < r := by
            have h1 := brk_le_length d q
            have h2 := hq.len
            omega
          have hsq := succAt_comb d r q hq _ rfl hjr
          have hrs := rank_succAt d r q hq _ rfl hjr
          refine List.mem_cons_of_mem _ (ih (succAt (brk d q) q) hsq c hc (by omega) (by omega))

theorem orbit_ge_head (d r : Nat) (hr : 1 ≤ r) :
    ∀ (fuel : Nat) (q : List Nat), Comb d r q →
      ∀ c ∈ orbit d fuel q, xmask q ≤ xmask c := by
  intro fuel
  induction fuel with
  | zero => intro q _ c hc; simp [orbit] at hc
  | succ fuel ih =>
      intro q hq c hc
      rw [orbit] at hc
      rcases List.mem_cons.mp hc with rfl | hc'
      · exact le_refl _
      · split at hc'
        · simp at hc'
        · rename_i hbrk
          have hjr : brk d q < r := by
            have h1 := brk_le_length d q
            have h2 := hq.len
            omega
          have hsq := succAt_comb d r q hq _ rfl hjr
          have h1 := ih (succAt (brk d q) q) hsq c hc'
          have h2 := xmask_succAt_gt d r q hq _ rfl hjr
          omega

theorem orbit_masks_sorted (d r : Nat) (hr : 1 ≤ r) :
    ∀ (fuel : Nat) (q : List Nat), Comb d r q →
      List.Pairwise (fun c c' => xmask c < xmask c') (orbit d fuel q) := by
  intro fuel
  induction fuel with
  | zero => intro q _; simp [orbit]
  | succ fuel ih =>
      intro q hq
      rw [orbit]
      refine List.pairwise_cons.mpr ⟨?_, ?_⟩
      · intro c hc
        split at hc
        · simp at hc
        · rename_i hbrk
          have hjr : brk d q < r := by
            have h1 := brk_le_length d q
            have h2 := hq.len
            omega
          have hsq := succAt_comb d r q hq _ rfl hjr
          have h1 := orbit_ge_head d r hr fuel (succAt (brk d q) q) hsq c hc
          have h2 := xmask_succAt_gt d r q hq _ rfl hjr
          omega
      · split
        · simp
        · rename_i hbrk
          have hjr : brk d q < r := by
            have h1 := brk_le_length d q
            have h2 := hq.len
            omega
          exact ih (succAt (brk d q) q) (succAt_comb d r q hq _ rfl hjr)

/-- The xor-toggle the first loop applies at cursor `i` when `power[i] = a`. -/
def tgl (i a : Nat) : Nat := if a = i then 1 <<< a else 3 <<< (a - 1)

/-- Accumulated toggles for cursors `0 … t`. -/
def tgls (q : List Nat) : Nat → Nat
  | 0 => tgl 0 (nth q 0)
  | t + 1 => tgls q t ^^^ tgl (t + 1) (nth q (t + 1))

theorem one_shiftLeft (a : Nat) : 1 <<< a = 2 ^ a := by
  rw [Nat.shiftLeft_eq, one_mul]

theorem tgl_self (i : Nat) : tgl i i = 2 ^ i := by
  rw [tgl, if_pos rfl, one_shiftLeft]

theorem tgl_ne (i a : Nat) (h : a ≠ i) (ha : 1 ≤ a) :
    tgl i a = 2 ^ (a - 1) ^^^ 2 ^ a := by
  rw [tgl, if_neg h, Nat.shiftLeft_eq]
  have h1 : (2 : Nat) ^ (a - 1) = 2 ^ (a - 1) * 1 := by ring
  have h2 : (2 : Nat) ^ a = 2 ^ (a - 1) * 2 := by
    conv_lhs => rw [show a = (a - 1) + 1 by omega]
    rw [pow_succ]
  rw [h1, h2, xor_pow_mul]
  have h3 : (1 : Nat) ^^^ 2 = 3 := by decide
  rw [h3]
  ring

theorem xmask_range_succ (n : Nat) : xmask (List.range (n + 1)) =
    xmask (List.range n) ^^^ 2 ^ n := by
  rw [List.range_succ, xmask_append]
  rw [show xmask [n] = 2 ^ n from by simp [xmask]]

/-- On a list whose first entries are `0, 1, 2, …`, the accumulated toggles
form the mask of an initial range. -/
theorem tgls_low (q : List Nat) : ∀ t, (∀ i, i ≤ t → nth q i = i) →
    tgls q t = xmask (List.range (t + 1)) := by
  intro t
  induction t with
  | zero =>
      intro h
      rw [tgls, h 0 (by omega), tgl_self, xmask_range_succ 0]
      simp [xmask]
  | succ t ih =>
      intro h
      rw [tgls, ih (fun i hi => h i (by omega)), h (t + 1) (by omega), tgl_self,
        xmask_range_succ (t + 1)]

/-- Generator state invariant: the next emission is the combination `q`,
the cursor stands at `t`, entries at or below the cursor hold the positions
themselves, entries above hold position + 1, and the register holds the mask
of `q` xor the toggles still pending below the cursor. -/
structure GInv (d r base : Nat) (q : List Nat) (t : Nat) (g : SigGenerator64) : Prop where
  hrad : g.radius = r
  hbase : g.base = base
  hbit : g.bit = (t : Int)
  ht : t < r
  hlow : ∀ i, i ≤ t → g.power i = nth q i
  hhigh : ∀ i, t < i → i < r → g.power i = nth q i + 1
  hsent : g.power r = d + 1
  hsig : g.sig = xmask q ^^^ tgls q t

theorem sigToggle_eq_tgl (sig : Nat) (power : Nat → Nat) (i a : Nat) (h : power i = a) :
    sigToggle sig power i = sig ^^^ tgl i a := by
  rw [sigToggle, tgl, h]
  split
  · rename_i he; rw [he]
  · rfl

theorem sigAdvance_spec (q : List Nat) : ∀ (t : Nat) (sig : Nat) (power : Nat → Nat),
    (∀ i, i ≤ t → power i = nth q i) →
    sig = xmask q ^^^ tgls q t →
    (sigAdvance (t + 1) sig power).1 = xmask q ∧
    ∀ i, (sigAdvance (t + 1) sig power).2 i = if i ≤ t then nth q i + 1 else power i := by
  intro t
  induction t with
  | zero =>
      intro sig power hlow hsig
      rw [sigAdvance, sigAdvance]
      constructor
      · rw [sigToggle_eq_tgl sig power 0 (nth q 0) (hlow 0 (by omega)), hsig]
        show xmask q ^^^ tgl 0 (nth q 0) ^^^ tgl 0 (nth q 0) = xmask q
        rw [Nat.xor_assoc, Nat.xor_self, Nat.xor_zero]
      · intro i
        rcases Nat.eq_zero_or_pos i with rfl | hpos
        · rw [if_pos (by omega)]
          show Function.update power 0 (power 0 + 1) 0 = nth q 0 + 1
          rw [Function.update_apply, if_pos rfl, hlow 0 (by omega)]
        · rw [if_neg (by omega)]
          show Function.update power 0 (power 0 + 1) i = power i
          rw [Function.update_apply, if_neg (by omega)]
  | succ t ih =>
      intro sig power hlow hsig
      rw [sigAdvance]
      have hstep : sigToggle sig power (t + 1) = xmask q ^^^ tgls q t := by
        rw [sigToggle_eq_tgl sig power (t + 1) (nth q (t + 1)) (hlow (t + 1) (by omega)), hsig]
        rw [tgls, Nat.xor_assoc, Nat.xor_assoc, Nat.xor_self, Nat.xor_zero]
      have hlow' : ∀ i, i ≤ t → Function.update power (t + 1) (power (t + 1) + 1) i = nth q i := by
        intro i hi
        rw [Function.update_apply, if_neg (by omega)]
        exact hlow i (by omega)
      obtain ⟨h1, h2⟩ := ih (sigToggle sig power (t + 1))
        (Function.update power (t + 1) (power (t + 1) + 1)) hlow' hstep
      refine ⟨h1, ?_⟩
      intro i
      rw [h2 i]
      rcases Nat.lt_trichotomy i (t + 1) with hc | hc | hc
      · rw [if_pos (by omega), if_pos (by omega)]
      · subst hc
        rw [if_neg (by omega), if_pos (by omega), Function.update_apply, if_pos rfl,
          hlow (t + 1) (by omega)]
      · rw [if_neg (by omega), if_neg (by omega), Function.update_apply, if_neg (by omega)]

theorem take_succ_nth (q : List Nat) (i : Nat) (hi : i < q.length) :
    q.take (i + 1) = q.take i ++ [nth q i] := by
  rw [List.take_succ, List.getElem?_eq_getElem hi]
  rw [nth, List.getD_eq_getElem _ _ hi]
  rfl

theorem sigRewind_spec (d r : Nat) (q : List Nat) (hq : Comb d r q) :
    ∀ (n idx sig : Nat) (power : Nat → Nat),
      brk d q - idx ≤ n → idx ≤ brk d q →
      (∀ i, i < idx → power i = i) →
      (∀ i, idx ≤ i → i < r → power i = nth q i + 1) →
      power r = d + 1 →
      sig = xmask q ^^^ xmask (q.take idx) →
      (sigRewind r idx sig power).1 = brk d q ∧
      (∀ i, i < brk d q → (sigRewind r idx sig power).2.2 i = i) ∧
      (∀ i, brk d q ≤ i → i < r → (sigRewind r idx sig power).2.2 i = nth q i + 1) ∧
      (sigRewind r idx sig power).2.2 r = d + 1 ∧
      (sigRewind r idx sig power).2.1 = xmask q ^^^ xmask (q.take (brk d q)) := by
  have hlen : q.length = r := hq.len
  have hble := brk_le_length d q
  intro n
  induction n with
  | zero =>
      intro idx sig power hn hidx hlowp hmid hsentp hsigp
      have heq : idx = brk d q := by omega
      subst heq
      rw [sigRewind_eq]
      by_cases hbr : r ≤ brk d q
      · rw [if_pos hbr]
        exact ⟨rfl, fun i hi => hlowp i hi, fun i h1 h2 => by omega, hsentp, hsigp⟩
      · rw [if_neg hbr]
        have hcond : power (brk d q) + 1 ≠ power (brk d q + 1) := by
          have hp0 : power (brk d q) = nth q (brk d q) + 1 := hmid _ (le_refl _) (by omega)
          by_cases h1 : brk d q + 1 < r
          · have hp1 : power (brk d q + 1) = nth q (brk d q + 1) + 1 :=
              hmid _ (by omega) h1
            have hgap := brk_gap_mid d q (by omega)
            omega
          · have h1' : brk d q + 1 = r := by omega
            have hgap := brk_gap_end d q (by omega) (by omega)
            rw [hp0, h1', hsentp]
            omega
        rw [if_pos hcond]
        exact ⟨rfl, fun i hi => hlowp i hi, fun i h1 h2 => hmid i h1 h2, hsentp, hsigp⟩
  | succ n ih =>
      intro idx sig power hn hidx hlowp hmid hsentp hsigp
      rcases eq_or_lt_of_le hidx with heq | hlt
      · -- same as the base case: the loop exits here
        subst heq
        rw [sigRewind_eq]
        by_cases hbr : r ≤ brk d q
        · rw [if_pos hbr]
          exact ⟨rfl, fun i hi => hlowp i hi, fun i h1 h2 => by omega, hsentp, hsigp⟩
        · rw [if_neg hbr]
          have hcond : power (brk d q) + 1 ≠ power (brk d q + 1) := by
            have hp0 : power (brk d q) = nth q (brk d q) + 1 := hmid _ (le_refl _) (by omega)
            by_cases h1 : brk d q + 1 < r
            · have hp1 : power (brk d q + 1) = nth q (brk d q + 1) + 1 := hmid _ (by omega) h1
              have hgap := brk_gap_mid d q (by omega)
              omega
            · have h1' : brk d q + 1 = r := by omega
              have hgap := brk_gap_end d q (by omega) (by omega)
              rw [hp0, h1', hsentp]
              omega
          rw [if_pos hcond]
          exact ⟨rfl, fun i hi => hlowp i hi, fun i h1 h2 => hmid i h1 h2, hsentp, hsigp⟩
      · -- the loop continues
        have hidxr : idx < r := by omega
        have hidxl : idx < q.length := by omega
        have hp0 : power idx = nth q idx + 1 := hmid _ (le_refl _) hidxr
        have hcond : power idx + 1 = power (idx + 1) := by
          by_cases h1 : idx + 1 < r
          · have hp1 : power (idx + 1) = nth q (idx + 1) + 1 := hmid _ (by omega) h1
            have hch := brk_chain d q idx (by omega) (by omega)
            omega
          · have h1' : idx + 1 = r := by omega
            have hfull : brk d q = q.length := by omega
            have hsn := brk_sent d q hfull (by omega)
            have : q.length - 1 = idx := by omega
            rw [this] at hsn
            rw [hp0, h1', hsentp]
            omega
        rw [sigRewind_eq, if_neg (by omega : ¬ r ≤ idx), if_neg (not_ne_iff.mpr hcond)]
        apply ih (idx + 1) _ _ (by omega) (by omega)
        · intro i hi
          rw [Function.update_apply]
          by_cases hii : i = idx
          · rw [if_pos hii]; omega
          · rw [if_neg hii]; exact hlowp i (by omega)
        · intro i h1 h2
          rw [Function.update_apply, if_neg (by omega)]
          exact hmid i (by omega) h2
        · rw [Function.update_apply, if_neg (by omega)]
          exact hsentp
        · rw [hp0]
          have e1 : nth q idx + 1 - 1 = nth q idx := by omega
          rw [e1, one_shiftLeft, hsigp, take_succ_nth q idx hidxl, xmask_append]
          rw [show xmask [nth q idx] = 2 ^ nth q idx from by simp [xmask]]
          rw [Nat.xor_assoc]

theorem nth_range (r i : Nat) (hi : i < r) : nth (List.range r) i = i := by
  rw [nth, List.getD_eq_getElem?_getD, List.getElem?_range hi]
  rfl

theorem tgls_succAt (d r : Nat) (q : List Nat) (hq : Comb d r q) (j : Nat)
    (hj : j = brk d q) (hjr : j < r) :
    tgls (succAt j q) j =
      xmask (List.range j) ^^^ (2 ^ nth q j ^^^ 2 ^ (nth q j + 1)) := by
  have hlen : q.length = r := hq.len
  have hjq : j < q.length := by omega
  have hge : j ≤ nth q j := nth_ge_idx q hq.asc j hjq
  have htglj : tgl j (nth q j + 1) = 2 ^ nth q j ^^^ 2 ^ (nth q j + 1) := by
    have := tgl_ne j (nth q j + 1) (by omega) (by omega)
    simpa using this
  cases j with
  | zero =>
      rw [tgls, nth_succAt_self, htglj]
      simp [xmask]
  | succ t =>
      rw [tgls, tgls_low (succAt (t + 1) q) t
        (fun i hi => nth_succAt_lt (t + 1) q i (by omega)), nth_succAt_self, htglj]

theorem sig_identity (d r : Nat) (q : List Nat) (hq : Comb d r q) (j : Nat)
    (hj : j = brk d q) (hjr : j < r) :
    xmask q ^^^ xmask (q.take j) = xmask (succAt j q) ^^^ tgls (succAt j q) j := by
  have hlen : q.length = r := hq.len
  have hjq : j < q.length := by omega
  have htks : q.take (j + 1) = q.take j ++ [nth q j] := take_succ_nth q j hjq
  have hdec : q = q.take j ++ ([nth q j] ++ q.drop (j + 1)) := by
    conv_lhs => rw [← List.take_append_drop (j + 1) q]
    rw [htks, List.append_assoc]
  have hxm1 : xmask [nth q j] = 2 ^ nth q j := by simp [xmask]
  have hq_eq : xmask q =
      xmask (q.take j) ^^^ (2 ^ nth q j ^^^ xmask (q.drop (j + 1))) := by
    conv_lhs => rw [hdec]
    rw [xmask_append, xmask_append, hxm1]
  have hs_eq : xmask (succAt j q) =
      xmask (List.range j) ^^^ (2 ^ (nth q j + 1) ^^^ xmask (q.drop (j + 1))) := by
    rw [succAt, xmask_append]
    rfl
  rw [hq_eq, hs_eq, tgls_succAt d r q hq j hj hjr]
  have key : ∀ T P P1 D R : Nat,
      (T ^^^ (P ^^^ D)) ^^^ T = (R ^^^ (P1 ^^^ D)) ^^^ (R ^^^ (P ^^^ P1)) := by
    intro T P P1 D R
    apply Nat.eq_of_testBit_eq
    intro i
    simp only [Nat.testBit_xor]
    generalize T.testBit i = a
    generalize P.testBit i = b
    generalize P1.testBit i = c
    generalize D.testBit i = e
    generalize R.testBit i = f
    revert a b c e f
    decide
  exact key _ _ _ _ _

/-- Unfolding equation for `next`. -/
theorem next_eq (g : SigGenerator64) :
    g.next = ((sigAdvance (g.bit + 1).toNat g.sig g.power).1 ^^^ g.base,
      { g with
        sig := (sigRewind g.radius 0 (sigAdvance (g.bit + 1).toNat g.sig g.power).1
                  (sigAdvance (g.bit + 1).toNat g.sig g.power).2).2.1,
        bit := ((sigRewind g.radius 0 (sigAdvance (g.bit + 1).toNat g.sig g.power).1
                  (sigAdvance (g.bit + 1).toNat g.sig g.power).2).1 : Int),
        power := (sigRewind g.radius 0 (sigAdvance (g.bit + 1).toNat g.sig g.power).1
                  (sigAdvance (g.bit + 1).toNat g.sig g.power).2).2.2 }) := rfl

theorem next_spec (d r base : Nat) (q : List Nat) (t : Nat) (g : SigGenerator64)
    (hq : Comb d r q) (hr : 1 ≤ r) (hInv : GInv d r base q t g) :
    g.next.1 = xmask q ^^^ base ∧
    (brk d q = q.length → g.next.2.has_next = false) ∧
    (brk d q < q.length → GInv d r base (succAt (brk d q) q) (brk d q) g.next.2) := by
  have hlen : q.length = r := hq.len
  have hble := brk_le_length d q
  have htoNat : (g.bit + 1).toNat = t + 1 := by
    rw [hInv.hbit]; omega
  obtain ⟨hAsig, hApow⟩ := sigAdvance_spec q t g.sig g.power hInv.hlow hInv.hsig
  have hmid2 : ∀ i, 0 ≤ i → i < r →
      (sigAdvance (t + 1) g.sig g.power).2 i = nth q i + 1 := by
    intro i _ hir
    rw [hApow i]
    by_cases hit : i ≤ t
    · rw [if_pos hit]
    · rw [if_neg hit]
      exact hInv.hhigh i (by omega) hir
  have hsent2 : (sigAdvance (t + 1) g.sig g.power).2 r = d + 1 := by
    rw [hApow r, if_neg (by have := hInv.ht; omega)]
    exact hInv.hsent
  have hsig2 : (sigAdvance (t + 1) g.sig g.power).1 = xmask q ^^^ xmask (q.take 0) := by
    rw [hAsig]
    simp [xmask]
  have hRW := sigRewind_spec d r q hq (brk d q) 0 (sigAdvance (t + 1) g.sig g.power).1
    (sigAdvance (t + 1) g.sig g.power).2 (by omega) (by omega)
    (fun i hi => by omega) hmid2 hsent2 hsig2
  obtain ⟨hcur, hlowr, hmidr, hsentr, hsigr⟩ := hRW
  rw [next_eq, htoNat, hInv.hrad, hInv.hbase]
  refine ⟨by rw [hAsig], ?_, ?_⟩
  · intro hfull
    have : brk d q = r := by omega
    rw [SigGenerator64.has_next]
    simp only [hcur, this]
    simp
  · intro hpart
    have hjr : brk d q < r := by omega
    constructor
    · rfl
    · rfl
    · simp only [hcur]
    · exact hjr
    · intro i hi
      show (sigRewind r 0 (sigAdvance (t + 1) g.sig g.power).1
        (sigAdvance (t + 1) g.sig g.power).2).2.2 i = nth (succAt (brk d q) q) i
      rcases eq_or_lt_of_le hi with rfl | hilt
      · rw [hmidr _ (le_refl _) hjr, nth_succAt_self]
      · rw [hlowr i (by omega), nth_succAt_lt _ q i (by omega)]
    · intro i h1 h2
      show (sigRewind r 0 (sigAdvance (t + 1) g.sig g.power).1
        (sigAdvance (t + 1) g.sig g.power).2).2.2 i = nth (succAt (brk d q) q) i + 1
      rw [hmidr i (by omega) h2, nth_succAt_gt _ q i (by omega)]
    · exact hsentr
    · show (sigRewind r 0 (sigAdvance (t + 1) g.sig g.power).1
        (sigAdvance (t + 1) g.sig g.power).2).2.1 =
        xmask (succAt (brk d q) q) ^^^ tgls (succAt (brk d q) q) (brk d q)
      rw [hsigr]
      exact sig_identity d r q hq (brk d q) rfl hjr

theorem init_comb (d r : Nat) (hrd : r ≤ d) : Comb d r (List.range r) := by
  constructor
  · exact List.pairwise_lt_range r
  · exact List.length_range r
  · intro x hx
    have := List.mem_range.mp hx
    omega

theorem init_GInv (d r base : Nat) (g0 : SigGenerator64) (hr : 1 ≤ r) (hrd : r ≤ d) :
    GInv d r base (List.range r) (r - 1) (g0.init base d r) := by
  constructor
  · rfl
  · rfl
  · show ((r : Int) - 1) = _
    omega
  · omega
  · intro i hi
    show (if i < r then i else if i = r then d + 1 else g0.power i) = nth (List.range r) i
    rw [if_pos (by omega), nth_range r i (by omega)]
  · intro i h1 h2
    omega
  · show (if r < r then r else if r = r then d + 1 else g0.power r) = d + 1
    rw [if_neg (by omega), if_pos rfl]
  · show (0 : Nat) = xmask (List.range r) ^^^ tgls (List.range r) (r - 1)
    rw [tgls_low (List.range r) (r - 1) (fun i hi => nth_range r i (by omega))]
    rw [show r - 1 + 1 = r by omega, Nat.xor_self]

theorem sigRun_stop (fuel : Nat) (g : SigGenerator64) (h : g.has_next = false) :
    sigRun fuel g = ([], g) := by
  cases fuel with
  | zero => rw [sigRun]
  | succ fuel => rw [sigRun, h]; rfl

theorem sigRun_orbit (d r base : Nat) (hr : 1 ≤ r) :
    ∀ (fuel : Nat) (q : List Nat) (t : Nat) (g : SigGenerator64),
      Comb d r q → GInv d r base q t g →
      (sigRun fuel g).1 = (orbit d fuel q).map (fun c => xmask c ^^^ base) ∧
      (Nat.choose d r - rank q 1 ≤ fuel → (sigRun fuel g).2.has_next = false) := by
  intro fuel
  induction fuel with
  | zero =>
      intro q t g hq hInv
      have hrlt := rank_lt q hq.asc d hq.lt
      rw [hq.len] at hrlt
      constructor
      · rw [sigRun, orbit]; rfl
      · intro hfuel; omega
  | succ fuel ih =>
      intro q t g hq hInv
      have hlen : q.length = r := hq.len
      have hble := brk_le_length d q
      have hrlt := rank_lt q hq.asc d hq.lt
      rw [hq.len] at hrlt
      have hhn : g.has_next = true := by
        rw [SigGenerator64.has_next, hInv.hbit, hInv.hrad]
        have h1 : ((t : Int)) ≠ ((r : Int)) := by
          have := hInv.ht
          omega
        simpa using h1
      obtain ⟨hemit, hterm, hcont⟩ := next_spec d r base q t g hq hr hInv
      rw [sigRun, hhn]
      simp only [if_true]
      rw [orbit]
      by_cases hbrk : brk d q = q.length
      · have hhn2 := hterm hbrk
        rw [sigRun_stop fuel g.next.2 hhn2]
        constructor
        · rw [if_pos hbrk]
          simp [hemit]
        · intro _
          exact hhn2
      · rw [if_neg hbrk]
        have hjr : brk d q < r := by omega
        have hsq := succAt_comb d r q hq _ rfl hjr
        have hGI := hcont (by omega)
        obtain ⟨ihl, ihh⟩ := ih (succAt (brk d q) q) (brk d q) g.next.2 hsq hGI
        constructor
        · simp only [List.map_cons]
          rw [← hemit, ← ihl]
        · intro hfuel
          have hrs := rank_succAt d r q hq _ rfl hjr
          have hrlt' := rank_lt (succAt (brk d q) q) hsq.asc d hsq.lt
          rw [hsq.len] at hrlt'
          have := ihh (by omega)
          show (sigRun fuel g.next.2).2.has_next = false
          exact this

theorem sigList_init_orbit (d r base fuel : Nat) (g0 : SigGenerator64)
    (hr : 1 ≤ r) (hrd : r ≤ d) :
    sigList fuel (g0.init base d r) =
      (orbit d fuel (List.range r)).map (fun c => xmask c ^^^ base) := by
  obtain ⟨h1, _⟩ := sigRun_orbit d r base hr fuel (List.range r) (r - 1) (g0.init base d r)
    (init_comb d r hrd) (init_GInv d r base g0 hr hrd)
  exact h1

theorem sigRun_init_stops (d r base fuel : Nat) (g0 : SigGenerator64)
    (hr : 1 ≤ r) (hrd : r ≤ d) (hfuel : Nat.choose d r ≤ fuel) :
    (sigRun fuel (g0.init base d r)).2.has_next = false := by
  obtain ⟨_, h2⟩ := sigRun_orbit d r base hr fuel (List.range r) (r - 1) (g0.init base d r)
    (init_comb d r hrd) (init_GInv d r base g0 hr hrd)
  exact h2 (by rw [rank_range]; omega)

theorem sigList_init_length (d r base fuel : Nat) (g0 : SigGenerator64)
    (hr : 1 ≤ r) (hrd : r ≤ d) (hfuel : Nat.choose d r ≤ fuel) :
    (sigList fuel (g0.init base d r)).length = Nat.choose d r := by
  rw [sigList_init_orbit d r base fuel g0 hr hrd, List.length_map]
  have := orbit_length d r hr fuel (List.range r) (init_comb d r hrd)
    (by rw [rank_range]; omega)
  rw [this, rank_range]
  omega

theorem sigList_init_nodup (d r base fuel : Nat) (g0 : SigGenerator64)
    (hr : 1 ≤ r) (hrd : r ≤ d) :
    (sigList fuel (g0.init base d r)).Nodup := by
  rw [sigList_init_orbit d r base fuel g0 hr hrd]
  have hsorted := orbit_masks_sorted d r hr fuel (List.range r) (init_comb d r hrd)
  refine List.Pairwise.map _ ?_ hsorted
  intro a b hab hc
  have hc' : xmask a ^^^ base = xmask b ^^^ base := hc
  have h3 : (xmask a ^^^ base) ^^^ base = (xmask b ^^^ base) ^^^ base := by rw [hc']
  rw [Nat.xor_cancel_right, Nat.xor_cancel_right] at h3
  omega

theorem sigList_init_mem (d r base fuel : Nat) (g0 : SigGenerator64)
    (hr : 1 ≤ r) (hrd : r ≤ d) (hb : base < 2 ^ d) (hfuel : Nat.choose d r ≤ fuel) :
    ∀ v, v ∈ sigList fuel (g0.init base d r) ↔ popcnt (v ^^^ base) = r ∧ v < 2 ^ d := by
  intro v
  rw [sigList_init_orbit d r base fuel g0 hr hrd]
  constructor
  · intro hv
    obtain ⟨c, hc, rfl⟩ := List.mem_map.mp hv
    have hcomb := orbit_mem_comb d r hr fuel (List.range r) (init_comb d r hrd) c hc
    constructor
    · rw [Nat.xor_cancel_right, popcnt_xmask c hcomb.asc, hcomb.len]
    · exact Nat.xor_lt_two_pow (xmask_lt c d hcomb.lt) hb
  · rintro ⟨hpc, hvd⟩
    have hxlt : v ^^^ base < 2 ^ d := Nat.xor_lt_two_pow hvd hb
    have hcomb : Comb d r (bitsList (v ^^^ base)) := by
      constructor
      · exact asc_bitsList (v ^^^ base)
      · rw [length_bitsList, hpc]
      · exact mem_bitsList_lt (v ^^^ base) d hxlt
    have hmem := orbit_complete d r hr fuel (List.range r) (init_comb d r hrd)
      (bitsList (v ^^^ base)) hcomb (by rw [rank_range]; omega)
      (by rw [rank_range]; omega)
    apply List.mem_map.mpr
    refine ⟨bitsList (v ^^^ base), hmem, ?_⟩
    rw [xmask_bitsList, Nat.xor_cancel_right]

/-- With radius `0`, `next()` emits the base and terminates. -/
theorem next_radius_zero (g : SigGenerator64) (h : g.radius = 0) (hbit : g.bit = -1) :
    g.next = (g.sig ^^^ g.base,
      { g with sig := g.sig, bit := (0 : Int), power := g.power }) := by
  rw [next_eq, hbit, h]
  have h1 : ((-1 : Int) + 1).toNat = 0 := by decide
  rw [h1]
  show (g.sig ^^^ g.base, _) = _
  rw [sigRewind_eq]
  rfl

theorem sigList_radius_zero (d base fuel : Nat) (g0 : SigGenerator64) :
    sigList (fuel + 1) (g0.init base d 0) = [base] ∧
    (sigRun (fuel + 1) (g0.init base d 0)).2.has_next = false := by
  have hrad : (g0.init base d 0).radius = 0 := rfl
  have hbit : (g0.init base d 0).bit = -1 := by
    show (0 : Int) - 1 = -1
    decide
  have hhn : (g0.init base d 0).has_next = true := by
    rw [SigGenerator64.has_next, hbit, hrad]
    decide
  have hnext := next_radius_zero (g0.init base d 0) hrad hbit
  have hsig0 : (g0.init base d 0).sig = 0 := rfl
  have hstopped : (g0.init base d 0).next.2.has_next = false := by
    rw [hnext, SigGenerator64.has_next]
    show ((0 : Int) != ((g0.init base d 0).radius : Int)) = false
    rw [hrad]
    decide
  constructor
  · rw [sigList, sigRun, hhn]
    simp only [if_true]
    rw [sigRun_stop fuel _ hstopped]
    show [(g0.init base d 0).next.1] = [base]
    rw [hnext]
    show [(0 : Nat) ^^^ base] = [base]
    rw [Nat.zero_xor]
  · rw [sigRun, hhn]
    simp only [if_true]
    show (sigRun fuel (g0.init base d 0).next.2).2.has_next = false
    rw [sigRun_stop fuel _ hstopped]
    exact hstopped

/-- C3: for `1 ≤ r < d ≤ 64` and any base, the sequence emitted by
`SigGenerator64` after `init(base, d, r)` (running `next()` while
`has_next()`, here with any sufficient fuel) has exactly `choose d r`
elements, all pairwise distinct, and every element xor the base has
population count exactly `r`, after which `has_next()` is false; for
`r = 0` the generator emits the single value `base` and then `has_next()`
is false. -/
theorem siggen_C3 :
    (∀ d r base fuel : Nat, 1 ≤ r → r < d → d ≤ 64 → Nat.choose d r ≤ fuel →
      (sigList fuel (SigGenerator64.new.init base d r)).length = Nat.choose d r ∧
      (sigList fuel (SigGenerator64.new.init base d r)).Nodup ∧
      (∀ v ∈ sigList fuel (SigGenerator64.new.init base d r), popcnt (v ^^^ base) = r) ∧
      (sigRun fuel (SigGenerator64.new.init base d r)).2.has_next = false) ∧
    (∀ d base fuel : Nat, 1 ≤ d →
      sigList (fuel + 1) (SigGenerator64.new.init base d 0) = [base] ∧
      (sigRun (fuel + 1) (SigGenerator64.new.init base d 0)).2.has_next = false) := by
  constructor
  · intro d r base fuel h1 h2 h3 hfuel
    refine ⟨sigList_init_length d r base fuel _ h1 (by omega) hfuel,
      sigList_init_nodup d r base fuel _ h1 (by omega), ?_,
      sigRun_init_stops d r base fuel _ h1 (by omega) hfuel⟩
    intro v hv
    rw [sigList_init_orbit d r base fuel _ h1 (by omega)] at hv
    obtain ⟨c, hc, rfl⟩ := List.mem_map.mp hv
    have hcomb := orbit_mem_comb d r h1 fuel (List.range r)
      (init_comb d r (by omega)) c hc
    rw [Nat.xor_cancel_right, popcnt_xmask c hcomb.asc, hcomb.len]
  · intro d base fuel _
    exact sigList_radius_zero d base fuel _

theorem siggen_C3_witness :
    ((1 ≤ 2 ∧ 2 < 4 ∧ 4 ≤ 64 ∧ Nat.choose 4 2 ≤ 6) ∧
      (sigList 6 (SigGenerator64.new.init 5 4 2)).length = Nat.choose 4 2 ∧
      (sigList 6 (SigGenerator64.new.init 5 4 2)).Nodup ∧
      (∀ v ∈ sigList 6 (SigGenerator64.new.init 5 4 2), popcnt (v ^^^ 5) = 2) ∧
      (sigRun 6 (SigGenerator64.new.init 5 4 2)).2.has_next = false) ∧
    ((1 ≤ 3) ∧ sigList 8 (SigGenerator64.new.init 9 3 0) = [9] ∧
      (sigRun 8 (SigGenerator64.new.init 9 3 0)).2.has_next = false) := by
  constructor
  · exact ⟨⟨by decide, by decide, by decide, by decide⟩,
      siggen_C3.1 4 2 5 6 (by decide) (by decide) (by decide) (by decide)⟩
  · exact ⟨by decide, siggen_C3.2 3 9 7 (by decide)⟩

/-! ### Sparse hash table (`src/index/sparsehash.rs`)

`u32` cell values are modeled as `Nat`: every count and offset stored in
a group's array is bounded by the number of inserted elements, which the
index construction caps at `2^32 - 1`, so the `u32` arithmetic in
`count_insert`, `data_insert` and `allocate_mem_based_on_counts` cannot
wrap in any reachable build.  `COUNT_FLAG = u32::MAX` is representable
exactly.  Out-of-bounds `Vec` accesses (which panic in Rust) are modeled
by `List.getD`/`List.set`; every build-phase access is proved in bounds. -/

def GROUP_SIZE : Nat := 64

def COUNT_FLAG : Nat := 2 ^ 32 - 1

/-- `get` from `sparsehash.rs`: test bit `i` of `x`. -/
def bit_get (x i : Nat) : Bool := x &&& (1 <<< i) != 0

/-- `set` from `sparsehash.rs`: set bit `i` of `x`. -/
def bit_set (x i : Nat) : Nat := x ||| (1 <<< i)

/-- `popcnt_mask` from `sparsehash.rs`: popcount of the low `i` bits. -/
def popcnt_mask (x i : Nat) : Nat := popcnt (x &&& ((1 <<< i) - 1))

/-- `struct Group`: a 64-slot bitmap plus a packed array. -/
structure Group where
  bitmap : Nat
  array : List Nat
deriving DecidableEq

/-- `Group::default()`. -/
instance : Inhabited Group := ⟨⟨0, []⟩⟩

/-- `Group::access`. -/
def Group.access (g : Group) (idx : Nat) : Option (List Nat) :=
  if bit_get g.bitmap idx = false then none
  else
    let howmany := popcnt_mask g.bitmap idx
    let totones := popcnt g.bitmap
    let bpos := totones + 1 + g.array.getD howmany 0
    let epos := bpos + (g.array.getD (howmany + 1) 0 - g.array.getD howmany 0)
    some ((g.array.drop bpos).take (epos - bpos))

/-- `Group::count_insert`. -/
def Group.count_insert (g : Group) (idx : Nat) : Group :=
  let arr := if g.bitmap = 0 then g.array ++ [COUNT_FLAG] else g.array
  let howmany := popcnt_mask g.bitmap idx
  if bit_get g.bitmap idx = false then
    { bitmap := bit_set g.bitmap idx, array := List.insertIdx (howmany + 1) 1 arr }
  else
    { bitmap := g.bitmap, array := arr.set (howmany + 1) (arr.getD (howmany + 1) 0 + 1) }

/-- The loop `for i in 0..n { a[i+1] += a[i] }` of
`allocate_mem_based_on_counts`, unrolled from position `i` for `n` steps. -/
def accumFrom (a : List Nat) (i : Nat) : Nat → List Nat
  | 0 => a
  | n + 1 => accumFrom (a.set (i + 1) (a.getD (i + 1) 0 + a.getD i 0)) (i + 1) n

/-- The loop `for i in (0..n).rev() { a[i+1] = a[i] }` of
`allocate_mem_based_on_counts`. -/
def shiftDesc (a : List Nat) : Nat → List Nat
  | 0 => a
  | i + 1 => shiftDesc (a.set (i + 1) (a.getD i 0)) i

/-- `Vec::resize(n, 0)`. -/
def resizeTo (a : List Nat) (n : Nat) : List Nat :=
  if n ≤ a.length then a.take n else a ++ List.replicate (n - a.length) 0

/-- `Group::allocate_mem_based_on_counts`. -/
def Group.allocate_mem_based_on_counts (g : Group) : Group :=
  let totones := popcnt g.bitmap
  let a0 := g.array.set 0 0
  let a1 := accumFrom a0 0 totones
  let newSize := a1.length + a1.getD totones 0
  let a2 := resizeTo a1 newSize
  { bitmap := g.bitmap, array := shiftDesc a2 totones }

/-- `Group::data_insert`. -/
def Group.data_insert (g : Group) (idx dat : Nat) : Group :=
  let g1 := if g.array.getD 0 0 = COUNT_FLAG then g.allocate_mem_based_on_counts else g
  let totones := popcnt g1.bitmap
  let howmany := popcnt_mask g1.bitmap idx
  let offset := g1.array.getD (howmany + 1) 0
  let a1 := g1.array.set (totones + 1 + offset) dat
  { bitmap := g1.bitmap, array := a1.set (howmany + 1) (a1.getD (howmany + 1) 0 + 1) }

/-- Build errors (`anyhow` messages in the source). -/
inductive MihError where
  | emptyCodes
  | tooManyCodes
  | invalidBlocks
  | zeroTableBits
deriving DecidableEq

/-- `struct Table`. -/
structure Table where
  num_bits : Nat
  groups : List Group
deriving DecidableEq

/-- `Table::new`. -/
def Table.new (num_bits : Nat) : Except MihError Table :=
  if num_bits = 0 then .error .zeroTableBits
  else
    let len := 1 <<< num_bits
    let num_groups := if GROUP_SIZE ≤ len then len / GROUP_SIZE else 1
    .ok { num_bits := num_bits, groups := List.replicate num_groups default }

/-- `Table::access`. -/
def Table.access (t : Table) (idx : Nat) : Option (List Nat) :=
  (t.groups.getD (idx / GROUP_SIZE) default).access (idx % GROUP_SIZE)

/-- `Table::count_insert`. -/
def Table.count_insert (t : Table) (idx : Nat) : Table :=
  let g := (t.groups.getD (idx / GROUP_SIZE) default).count_insert (idx % GROUP_SIZE)
  { t with groups := t.groups.set (idx / GROUP_SIZE) g }

/-- `Table::data_insert`. -/
def Table.data_insert (t : Table) (idx dat : Nat) : Table :=
  let g := (t.groups.getD (idx / GROUP_SIZE) default).data_insert (idx % GROUP_SIZE) dat
  { t with groups := t.groups.set (idx / GROUP_SIZE) g }

/-- `Table::len`. -/
def Table.len (t : Table) : Nat := 1 <<< t.num_bits

/-! #### List surgery helpers -/

theorem getD_append_left (l1 l2 : List Nat) (k : Nat) (hk : k < l1.length) :
    (l1 ++ l2).getD k 0 = l1.getD k 0 := by
  rw [List.getD_eq_getElem?_getD, List.getD_eq_getElem?_getD, List.getElem?_append_left hk]

theorem getD_append_mid (l1 l2 : List Nat) (x : Nat) :
    (l1 ++ x :: l2).getD l1.length 0 = x := by
  rw [List.getD_eq_getElem?_getD, List.getElem?_append_right (le_refl _)]
  simp

theorem getD_append_add (l1 l2 : List Nat) (x k : Nat) :
    (l1 ++ x :: l2).getD (l1.length + 1 + k) 0 = l2.getD k 0 := by
  rw [List.getD_eq_getElem?_getD, List.getD_eq_getElem?_getD,
    List.getElem?_append_right (by omega)]
  have h : l1.length + 1 + k - l1.length = k + 1 := by omega
  rw [h, List.getElem?_cons_succ]

theorem getD_take (l : List Nat) (n k : Nat) (hk : k < n) :
    (l.take n).getD k 0 = l.getD k 0 := by
  rw [List.getD_eq_getElem?_getD, List.getD_eq_getElem?_getD, List.getElem?_take,
    if_pos hk]

theorem getD_set_self (l : List Nat) (i v : Nat) (h : i < l.length) :
    (l.set i v).getD i 0 = v := by
  rw [List.getD_eq_getElem?_getD, List.getElem?_set_self h]
  rfl

theorem getD_set_ne (l : List Nat) (i j v : Nat) (h : i ≠ j) :
    (l.set i v).getD j 0 = l.getD j 0 := by
  rw [List.getD_eq_getElem?_getD, List.getD_eq_getElem?_getD, List.getElem?_set_ne h]

theorem set_append_mid (l1 l2 : List Nat) (x v : Nat) :
    (l1 ++ x :: l2).set l1.length v = l1 ++ v :: l2 := by
  induction l1 with
  | nil => rfl
  | cons a t ih =>
      show (a :: (t ++ x :: l2)).set (t.length + 1) v = a :: (t ++ v :: l2)
      rw [List.set_cons_succ, ih]

theorem insertIdx_append_mid (l1 l2 : List Nat) (x : Nat) :
    List.insertIdx l1.length x (l1 ++ l2) = l1 ++ x :: l2 := by
  induction l1 with
  | nil => rfl
  | cons a t ih =>
      show List.insertIdx (t.length + 1) x (a :: (t ++ l2)) = a :: (t ++ x :: l2)
      rw [List.insertIdx_succ_cons, ih]

/-! #### Bit-level bridges for the sparse hash table -/

theorem bit_get_testBit (x i : Nat) : bit_get x i = x.testBit i := by
  rw [bit_get, one_shiftLeft, Nat.and_two_pow]
  cases h : x.testBit i
  · simp
  · simp [Nat.pos_iff_ne_zero, Nat.pos_pow_of_pos i (by norm_num : 0 < 2)]

theorem bit_get_zero (i : Nat) : bit_get 0 i = false := by
  rw [bit_get_testBit, Nat.zero_testBit]

theorem bit_get_bit_set_self (x i : Nat) : bit_get (bit_set x i) i = true := by
  rw [bit_get_testBit, bit_set, one_shiftLeft, Nat.testBit_or, Nat.testBit_two_pow]
  simp

theorem bit_get_bit_set_ne (x i j : Nat) (h : j ≠ i) :
    bit_get (bit_set x i) j = bit_get x j := by
  rw [bit_get_testBit, bit_get_testBit, bit_set, one_shiftLeft, Nat.testBit_or,
    Nat.testBit_two_pow]
  simp [Ne.symm h]

theorem bit_set_ne_zero (x i : Nat) : bit_set x i ≠ 0 := by
  intro h
  have hb := bit_get_bit_set_self x i
  rw [h, bit_get_zero] at hb
  exact Bool.noConfusion hb

theorem bit_set_lt (x i : Nat) (hx : x < 2 ^ 64) (hi : i < 64) : bit_set x i < 2 ^ 64 := by
  rw [bit_set, one_shiftLeft]
  exact Nat.or_lt_two_pow hx (Nat.pow_lt_pow_right (by norm_num) hi)

/-- `popcnt` counts the set bits below any bound on the value. -/
theorem popcnt_countP (k : Nat) : ∀ x : Nat, x < 2 ^ k →
    popcnt x = (List.range k).countP (fun j => x.testBit j) := by
  induction k with
  | zero =>
      intro x hx
      interval_cases x
      simp [popcnt_zero]
  | succ k ih =>
      intro x hx
      rw [List.range_succ, List.countP_append]
      have hcntlow : (List.range k).countP (fun j => (x % 2 ^ k).testBit j)
          = (List.range k).countP (fun j => x.testBit j) := by
        refine List.countP_congr ?_
        intro a ha
        rw [List.mem_range] at ha
        rw [Nat.testBit_mod_two_pow]
        simp [ha]
      rw [← hcntlow, ← ih (x % 2 ^ k) (Nat.mod_lt _ (by positivity))]
      have hone : List.countP (fun j => x.testBit j) [k]
          = if x.testBit k then 1 else 0 := by
        rw [List.countP_cons]
        simp
      have hdiv : x / 2 ^ k < 2 := by
        rw [Nat.div_lt_iff_lt_mul (by positivity)]
        have h2 : (2 : Nat) ^ (k + 1) = 2 ^ k * 2 := by ring
        omega
      have hdm : x / 2 ^ k % 2 = x / 2 ^ k := Nat.mod_eq_of_lt hdiv
      have hsplit := popcnt_split k x
      cases hb : x.testBit k
      · have h0 : x / 2 ^ k = 0 := by
          rw [Nat.testBit_to_div_mod, hdm] at hb
          simp at hb
          omega
        rw [hsplit, h0, popcnt_zero, hone, hb]
        simp
      · have h1 : x / 2 ^ k = 1 := by
          rw [Nat.testBit_to_div_mod, hdm] at hb
          simp at hb
          exact hb
        rw [hsplit, h1, popcnt_one, hone, hb]
        simp [Nat.add_comm]

/-! #### Occupancy lists of a group bitmap -/

/-- The occupied slots of a bitmap, ascending. -/
def occList (bm : Nat) : List Nat := (List.range 64).filter (fun j => bit_get bm j)

/-- The occupied slots below `idx`. -/
def lowOcc (bm idx : Nat) : List Nat := (List.range idx).filter (fun j => bit_get bm j)

/-- The occupied slots above `idx` (within the 64 slots). -/
def highOcc (bm idx : Nat) : List Nat :=
  (List.range' (idx + 1) (63 - idx)).filter (fun j => bit_get bm j)

theorem occList_split (bm idx : Nat) (h : idx < 64) :
    occList bm = lowOcc bm idx ++
      (if bit_get bm idx then [idx] else []) ++ highOcc bm idx := by
  have hsplit : List.range' 0 64 = List.range' 0 idx ++ List.range' idx ((63 - idx) + 1) := by
    have happ := List.range'_append 0 idx ((63 - idx) + 1) 1
    simp at happ
    have h64 : 63 - idx + 1 + idx = 64 := by omega
    rw [h64] at happ
    exact happ.symm
  rw [occList, List.range_eq_range', hsplit, List.filter_append, List.range'_succ,
    List.filter_cons]
  rw [lowOcc, List.range_eq_range', highOcc]
  cases hb : bit_get bm idx <;> simp

theorem popcnt_mask_length (bm idx : Nat) :
    popcnt_mask bm idx = (lowOcc bm idx).length := by
  rw [popcnt_mask, one_shiftLeft, Nat.and_pow_two_sub_one_eq_mod, lowOcc,
    ← List.countP_eq_length_filter]
  rw [popcnt_countP idx (bm % 2 ^ idx) (Nat.mod_lt _ (by positivity))]
  refine List.countP_congr ?_
  intro a ha
  rw [List.mem_range] at ha
  rw [bit_get_testBit, Nat.testBit_mod_two_pow]
  simp [ha]

theorem popcnt_occList (bm : Nat) (h : bm < 2 ^ 64) :
    popcnt bm = (occList bm).length := by
  rw [occList, ← List.countP_eq_length_filter, popcnt_countP 64 bm h]
  refine List.countP_congr ?_
  intro a _
  rw [bit_get_testBit]

theorem mem_lowOcc (bm idx a : Nat) (h : a ∈ lowOcc bm idx) :
    a < idx ∧ bit_get bm a = true := by
  rw [lowOcc, List.mem_filter, List.mem_range] at h
  exact h

theorem mem_highOcc (bm idx a : Nat) (h : a ∈ highOcc bm idx) :
    idx < a ∧ a < 64 ∧ bit_get bm a = true := by
  rw [highOcc, List.mem_filter, List.mem_range'] at h
  obtain ⟨⟨i, hi, rfl⟩, hb⟩ := h
  exact ⟨by omega, by omega, hb⟩

theorem mem_occList (bm a : Nat) : a ∈ occList bm ↔ a < 64 ∧ bit_get bm a = true := by
  rw [occList, List.mem_filter, List.mem_range]

theorem occList_pairwise (bm : Nat) : List.Pairwise (· < ·) (occList bm) :=
  List.Pairwise.filter _ (List.pairwise_lt_range 64)

theorem occList_zero : occList 0 = [] := by
  rw [occList, List.filter_eq_nil_iff]
  intro a _
  rw [bit_get_zero]
  exact Bool.noConfusion

theorem lowOcc_bit_set (bm idx : Nat) : lowOcc (bit_set bm idx) idx = lowOcc bm idx := by
  rw [lowOcc, lowOcc]
  refine List.filter_congr ?_
  intro a ha
  rw [List.mem_range] at ha
  exact bit_get_bit_set_ne bm idx a (by omega)

theorem highOcc_bit_set (bm idx : Nat) : highOcc (bit_set bm idx) idx = highOcc bm idx := by
  rw [highOcc, highOcc]
  refine List.filter_congr ?_
  intro a ha
  rw [List.mem_range'] at ha
  obtain ⟨i, hi, rfl⟩ := ha
  exact bit_get_bit_set_ne bm idx _ (by omega)

theorem lowOcc_zero (idx : Nat) : lowOcc 0 idx = [] := by
  rw [lowOcc, List.filter_eq_nil_iff]
  intro a _
  rw [bit_get_zero]
  exact Bool.noConfusion

theorem highOcc_zero (idx : Nat) : highOcc 0 idx = [] := by
  rw [highOcc, List.filter_eq_nil_iff]
  intro a _
  rw [bit_get_zero]
  exact Bool.noConfusion

theorem bitmap_ne_zero_of_bit (bm j : Nat) (h : bit_get bm j = true) : bm ≠ 0 := by
  intro h0
  rw [h0, bit_get_zero] at h
  exact Bool.noConfusion h

theorem count_insert_eq_false (g : Group) (idx : Nat) (hb : bit_get g.bitmap idx = false) :
    g.count_insert idx =
      { bitmap := bit_set g.bitmap idx,
        array := List.insertIdx (popcnt_mask g.bitmap idx + 1) 1
          (if g.bitmap = 0 then g.array ++ [COUNT_FLAG] else g.array) } := by
  rw [Group.count_insert]
  simp [hb]

theorem count_insert_eq_true (g : Group) (idx : Nat) (hb : bit_get g.bitmap idx = true) :
    g.count_insert idx =
      { bitmap := g.bitmap,
        array := g.array.set (popcnt_mask g.bitmap idx + 1)
          (g.array.getD (popcnt_mask g.bitmap idx + 1) 0 + 1) } := by
  have hbm := bitmap_ne_zero_of_bit _ _ hb
  rw [Group.count_insert]
  simp [hb, hbm]

/-! #### Count-phase invariant -/

/-- State of a group during the counting phase: the bitmap marks the slots
with a nonzero count and the array (when nonempty) is the `COUNT_FLAG`
header followed by the per-slot counts in ascending slot order. -/
structure CState (cnt : Nat → Nat) (g : Group) : Prop where
  hlt : g.bitmap < 2 ^ 64
  hbit : ∀ j, j < 64 → (bit_get g.bitmap j = true ↔ cnt j ≠ 0)
  harr : g.array = if g.bitmap = 0 then [] else COUNT_FLAG :: (occList g.bitmap).map cnt

theorem CState_init : CState (fun _ => 0) default := by
  refine ⟨?_, ?_, ?_⟩
  · show (0 : Nat) < 2 ^ 64
    positivity
  · intro j _
    show bit_get 0 j = true ↔ (0 : Nat) ≠ 0
    rw [bit_get_zero]
    simp
  · show ([] : List Nat) = if (0 : Nat) = 0 then [] else _
    rw [if_pos rfl]


theorem CState_count_insert (cnt : Nat → Nat) (g : Group) (idx : Nat) (hidx : idx < 64)
    (hs : CState cnt g) :
    CState (Function.update cnt idx (cnt idx + 1)) (g.count_insert idx) := by
  have hsplit := occList_split g.bitmap idx hidx
  have hlowmap : (lowOcc g.bitmap idx).map (Function.update cnt idx (cnt idx + 1)) =
      (lowOcc g.bitmap idx).map cnt := by
    refine List.map_congr_left ?_
    intro a ha
    have h1 := (mem_lowOcc _ _ _ ha).1
    rw [Function.update_apply, if_neg (by omega)]
  have hhighmap : (highOcc g.bitmap idx).map (Function.update cnt idx (cnt idx + 1)) =
      (highOcc g.bitmap idx).map cnt := by
    refine List.map_congr_left ?_
    intro a ha
    have h1 := (mem_highOcc _ _ _ ha).1
    rw [Function.update_apply, if_neg (by omega)]
  cases hb : bit_get g.bitmap idx
  · -- the slot was empty: a fresh count cell is inserted
    rw [hb] at hsplit
    simp at hsplit
    have hcnt0 : cnt idx = 0 := by
      have hiff := hs.hbit idx hidx
      rw [hb] at hiff
      by_contra hne
      exact Bool.noConfusion (hiff.mpr hne)
    have hsplit' : occList (bit_set g.bitmap idx) =
        lowOcc g.bitmap idx ++ idx :: highOcc g.bitmap idx := by
      rw [occList_split (bit_set g.bitmap idx) idx hidx, bit_get_bit_set_self,
        lowOcc_bit_set, highOcc_bit_set, if_pos rfl]
      simp
    rw [count_insert_eq_false g idx hb]
    refine ⟨bit_set_lt _ _ hs.hlt hidx, ?_, ?_⟩
    · intro j hj
      show bit_get (bit_set g.bitmap idx) j = true ↔
        Function.update cnt idx (cnt idx + 1) j ≠ 0
      rcases eq_or_ne j idx with rfl | hne
      · rw [bit_get_bit_set_self, Function.update_apply, if_pos rfl]
        simp
      · rw [bit_get_bit_set_ne _ _ _ hne, Function.update_apply, if_neg hne]
        exact hs.hbit j hj
    · show List.insertIdx (popcnt_mask g.bitmap idx + 1) 1
          (if g.bitmap = 0 then g.array ++ [COUNT_FLAG] else g.array) =
        if bit_set g.bitmap idx = 0 then [] else
          COUNT_FLAG ::
            (occList (bit_set g.bitmap idx)).map (Function.update cnt idx (cnt idx + 1))
      rw [if_neg (bit_set_ne_zero g.bitmap idx), hsplit', List.map_append, List.map_cons,
        hlowmap, hhighmap, Function.update_apply, if_pos rfl, hcnt0]
      rcases eq_or_ne g.bitmap 0 with h0 | h0
      · have harr : g.array = [] := by
          have h := hs.harr
          rw [if_pos h0] at h
          exact h
        rw [if_pos h0, harr, h0, popcnt_mask_length, lowOcc_zero, highOcc_zero]
        rfl
      · have harr : g.array = COUNT_FLAG :: (occList g.bitmap).map cnt := by
          have h := hs.harr
          rw [if_neg h0] at h
          exact h
        rw [if_neg h0, harr, hsplit, List.map_append, popcnt_mask_length,
          List.insertIdx_succ_cons]
        have hlen : (lowOcc g.bitmap idx).length = ((lowOcc g.bitmap idx).map cnt).length :=
          (List.length_map _ _).symm
        rw [hlen, insertIdx_append_mid]
  · -- the slot already had a count: it is incremented in place
    rw [hb] at hsplit
    simp at hsplit
    have h0 := bitmap_ne_zero_of_bit _ _ hb
    have harr : g.array = COUNT_FLAG :: (occList g.bitmap).map cnt := by
      have h := hs.harr
      rw [if_neg h0] at h
      exact h
    have hcntne : cnt idx ≠ 0 := by
      have hiff := hs.hbit idx hidx
      exact hiff.mp hb
    rw [count_insert_eq_true g idx hb]
    refine ⟨hs.hlt, ?_, ?_⟩
    · intro j hj
      show bit_get g.bitmap j = true ↔ Function.update cnt idx (cnt idx + 1) j ≠ 0
      rcases eq_or_ne j idx with rfl | hne
      · rw [Function.update_apply, if_pos rfl, hb]
        simp
      · rw [Function.update_apply, if_neg hne]
        exact hs.hbit j hj
    · show g.array.set (popcnt_mask g.bitmap idx + 1)
          (g.array.getD (popcnt_mask g.bitmap idx + 1) 0 + 1) =
        if g.bitmap = 0 then [] else
          COUNT_FLAG :: (occList g.bitmap).map (Function.update cnt idx (cnt idx + 1))
      rw [if_neg h0, harr, hsplit, popcnt_mask_length, List.map_append, List.map_cons,
        List.getD_cons_succ]
      have hlen : (lowOcc g.bitmap idx).length = ((lowOcc g.bitmap idx).map cnt).length :=
        (List.length_map _ _).symm
      rw [hlen, getD_append_mid, List.set_cons_succ, set_append_mid]
      rw [List.map_append, List.map_cons, hlowmap, hhighmap, Function.update_apply,
        if_pos rfl]

/-! #### Characterization of the allocation loops -/

theorem scanl_getD (cs : List Nat) : ∀ x h : Nat, h ≤ cs.length →
    (cs.scanl (· + ·) x).getD h 0 = x + (cs.take h).sum := by
  induction cs with
  | nil =>
      intro x h hh
      have h0 : h = 0 := by simpa using hh
      subst h0
      simp
  | cons c t ih =>
      intro x h hh
      rw [List.scanl_cons, List.singleton_append]
      cases h with
      | zero => simp
      | succ h =>
          rw [List.getD_cons_succ, List.take_succ_cons, List.sum_cons]
          have := ih (x + c) h (by simpa using hh)
          rw [this]
          omega

theorem accumFrom_spec (suf : List Nat) : ∀ (pre : List Nat) (x : Nat),
    accumFrom (pre ++ x :: suf) pre.length suf.length = pre ++ suf.scanl (· + ·) x := by
  induction suf with
  | nil => intro pre x; rfl
  | cons c t ih =>
      intro pre x
      show accumFrom (pre ++ x :: c :: t) pre.length (t.length + 1) = _
      simp only [accumFrom]
      have h1 : (pre ++ x :: c :: t).getD pre.length 0 = x := getD_append_mid _ _ _
      have h2 : (pre ++ x :: c :: t).getD (pre.length + 1) 0 = c := by
        have h := getD_append_add pre (c :: t) x 0
        simpa using h
      rw [h1, h2]
      have hassoc : pre ++ x :: c :: t = (pre ++ [x]) ++ c :: t := by simp
      have hlen : pre.length + 1 = (pre ++ [x]).length := by simp
      have h3 : (pre ++ x :: c :: t).set (pre.length + 1) (c + x) =
          (pre ++ [x]) ++ (c + x) :: t := by
        rw [hassoc, hlen, set_append_mid]
      rw [h3, hlen, ih (pre ++ [x]) (c + x)]
      rw [List.scanl_cons, List.singleton_append, Nat.add_comm x c]
      simp

theorem shiftDesc_spec : ∀ (n : Nat) (a : List Nat), n + 1 ≤ a.length →
    shiftDesc a n = a.getD 0 0 :: (a.take n ++ a.drop (n + 1)) := by
  intro n
  induction n with
  | zero =>
      intro a ha
      cases a with
      | nil => simp at ha
      | cons x t => simp [shiftDesc]
  | succ n ih =>
      intro a ha
      simp only [shiftDesc]
      rw [ih _ (by rw [List.length_set]; omega)]
      have hb0 : (a.set (n + 1) (a.getD n 0)).getD 0 0 = a.getD 0 0 :=
        getD_set_ne _ _ _ _ (by omega)
      have hbtake : (a.set (n + 1) (a.getD n 0)).take n = a.take n := by
        refine List.ext_getElem? ?_
        intro i
        rw [List.getElem?_take, List.getElem?_take]
        rcases lt_or_ge i n with hi | hi
        · rw [if_pos hi, if_pos hi, List.getElem?_set_ne (by omega)]
        · rw [if_neg (by omega), if_neg (by omega)]
      have hbdrop : (a.set (n + 1) (a.getD n 0)).drop (n + 1) =
          a.getD n 0 :: a.drop (n + 2) := by
        rw [List.drop_set, if_neg (by omega)]
        have hlt : n + 1 < a.length := by omega
        rw [List.drop_eq_getElem_cons hlt]
        have hsub : n + 1 - (n + 1) = 0 := by omega
        rw [hsub, List.set_cons_zero]
      rw [hb0, hbtake, hbdrop]
      have htk : a.take (n + 1) = a.take n ++ [nth a n] := take_succ_nth a n (by omega)
      rw [htk, nth]
      simp

theorem resizeTo_add (a : List Nat) (k : Nat) :
    resizeTo a (a.length + k) = a ++ List.replicate k 0 := by
  rw [resizeTo]
  cases k with
  | zero => rw [if_pos (by omega)]; simp
  | succ k =>
      rw [if_neg (by omega)]
      have h : a.length + (k + 1) - a.length = k + 1 := by omega
      rw [h]

/-! #### Filling-phase invariant -/

/-- Sum of the per-slot counts over a list of slots. -/
def sumCnt (cnt : Nat → Nat) (l : List Nat) : Nat := (l.map cnt).sum

/-- State of a group during the filling phase: `cnt` are the final counts
from the counting phase, `fil j` is the list of data values inserted so far
at slot `j`.  The array is `[0]`, then one header cell per occupied slot
holding the slot's start offset plus its current fill, then the payload
area holding each slot's values at its exclusive-prefix-sum offset. -/
structure FState (cnt : Nat → Nat) (fil : Nat → List Nat) (g : Group) : Prop where
  hlt : g.bitmap < 2 ^ 64
  hbm0 : g.bitmap ≠ 0
  hbit : ∀ j, j < 64 → (bit_get g.bitmap j = true ↔ cnt j ≠ 0)
  hfil : ∀ j, (fil j).length ≤ cnt j
  hlen : g.array.length = (occList g.bitmap).length + 1 + sumCnt cnt (occList g.bitmap)
  hhd0 : g.array.getD 0 0 = 0
  hhd : ∀ h, h < (occList g.bitmap).length →
      g.array.getD (h + 1) 0 =
        sumCnt cnt ((occList g.bitmap).take h) + (fil ((occList g.bitmap).getD h 0)).length
  hpay : ∀ h, h < (occList g.bitmap).length →
      ∀ l, l < (fil ((occList g.bitmap).getD h 0)).length →
        g.array.getD
            ((occList g.bitmap).length + 1 + sumCnt cnt ((occList g.bitmap).take h) + l) 0 =
          (fil ((occList g.bitmap).getD h 0)).getD l 0

theorem allocate_eq (bm : Nat) (cs : List Nat) (hbm : popcnt bm = cs.length) :
    Group.allocate_mem_based_on_counts ⟨bm, COUNT_FLAG :: cs⟩ =
      ⟨bm, 0 :: ((cs.scanl (· + ·) 0).take cs.length ++ List.replicate cs.sum 0)⟩ := by
  simp only [Group.allocate_mem_based_on_counts]
  rw [hbm, List.set_cons_zero]
  have hacc : accumFrom (0 :: cs) 0 cs.length = cs.scanl (· + ·) 0 := by
    have h := accumFrom_spec cs [] 0
    simpa using h
  rw [hacc, List.length_scanl]
  have hK : (cs.scanl (· + ·) 0).getD cs.length 0 = cs.sum := by
    have h := scanl_getD cs 0 cs.length (le_refl _)
    rw [List.take_length] at h
    simpa using h
  rw [hK]
  have hres : resizeTo (cs.scanl (· + ·) 0) (cs.length + 1 + cs.sum) =
      cs.scanl (· + ·) 0 ++ List.replicate cs.sum 0 := by
    have h := resizeTo_add (cs.scanl (· + ·) 0) cs.sum
    rw [List.length_scanl] at h
    exact h
  rw [hres]
  have hlen2 : cs.length + 1 ≤ (cs.scanl (· + ·) 0 ++ List.replicate cs.sum 0).length := by
    rw [List.length_append, List.length_scanl]
    omega
  rw [shiftDesc_spec cs.length _ hlen2]
  have hg0 : (cs.scanl (· + ·) 0 ++ List.replicate cs.sum 0).getD 0 0 = 0 := by
    rw [getD_append_left _ _ 0 (by rw [List.length_scanl]; omega)]
    have h := scanl_getD cs 0 0 (by omega)
    simpa using h
  have htk : (cs.scanl (· + ·) 0 ++ List.replicate cs.sum 0).take cs.length =
      (cs.scanl (· + ·) 0).take cs.length :=
    List.take_append_of_le_length (by rw [List.length_scanl]; omega)
  have hdr : (cs.scanl (· + ·) 0 ++ List.replicate cs.sum 0).drop (cs.length + 1) =
      List.replicate cs.sum 0 := by
    have h := List.drop_left (cs.scanl (· + ·) 0) (List.replicate cs.sum 0)
    rw [List.length_scanl] at h
    exact h
  rw [hg0, htk, hdr]

theorem FState_allocate (cnt : Nat → Nat) (g : Group) (hs : CState cnt g)
    (h0 : g.bitmap ≠ 0) :
    FState cnt (fun _ => []) g.allocate_mem_based_on_counts := by
  obtain ⟨bm, arr⟩ := g
  have hlt : bm < 2 ^ 64 := hs.hlt
  have hbit : ∀ j, j < 64 → (bit_get bm j = true ↔ cnt j ≠ 0) := hs.hbit
  have h0' : bm ≠ 0 := h0
  have harr : arr = COUNT_FLAG :: (occList bm).map cnt := by
    have h := hs.harr
    rw [if_neg h0'] at h
    exact h
  subst harr
  have hplen : popcnt bm = ((occList bm).map cnt).length := by
    rw [popcnt_occList _ hlt, List.length_map]
  rw [allocate_eq bm _ hplen]
  refine ⟨hlt, h0', hbit, ?_, ?_, ?_, ?_, ?_⟩
  · intro j
    simp
  · show (0 :: ((((occList bm).map cnt).scanl (· + ·) 0).take ((occList bm).map cnt).length
        ++ List.replicate ((occList bm).map cnt).sum 0)).length = _
    simp only [List.length_cons, List.length_append, List.length_take, List.length_scanl,
      List.length_replicate, List.length_map, sumCnt]
    omega
  · exact List.getD_cons_zero
  · intro h hh
    have hh' : h < ((occList bm).map cnt).length := by
      rw [List.length_map]
      exact hh
    show (0 :: ((((occList bm).map cnt).scanl (· + ·) 0).take ((occList bm).map cnt).length
        ++ List.replicate ((occList bm).map cnt).sum 0)).getD (h + 1) 0 = _
    rw [List.getD_cons_succ,
      getD_append_left _ _ h (by
        simp only [List.length_take, List.length_scanl]
        omega),
      getD_take _ _ _ hh', scanl_getD _ 0 h (by omega), sumCnt, List.map_take]
    simp
  · intro h hh l hl
    exact absurd hl (by simp)

theorem sumCnt_append (cnt : Nat → Nat) (l1 l2 : List Nat) :
    sumCnt cnt (l1 ++ l2) = sumCnt cnt l1 + sumCnt cnt l2 := by
  simp [sumCnt]

theorem sumCnt_take_le (cnt : Nat → Nat) (l : List Nat) (h1 h2 : Nat) (h : h1 ≤ h2) :
    sumCnt cnt (l.take h1) ≤ sumCnt cnt (l.take h2) := by
  obtain ⟨k, rfl⟩ := Nat.exists_eq_add_of_le h
  rw [List.take_add, sumCnt_append]
  omega

theorem sumCnt_take_succ (cnt : Nat → Nat) (l : List Nat) (h : Nat) (hh : h < l.length) :
    sumCnt cnt (l.take (h + 1)) = sumCnt cnt (l.take h) + cnt (l.getD h 0) := by
  rw [take_succ_nth l h hh, sumCnt_append, nth]
  simp [sumCnt]

theorem data_insert_eq_filled (g : Group) (idx dat : Nat)
    (hne : g.array.getD 0 0 ≠ COUNT_FLAG) :
    g.data_insert idx dat =
      { bitmap := g.bitmap,
        array :=
          (g.array.set (popcnt g.bitmap + 1 + g.array.getD (popcnt_mask g.bitmap idx + 1) 0)
              dat).set
            (popcnt_mask g.bitmap idx + 1)
            ((g.array.set (popcnt g.bitmap + 1 + g.array.getD (popcnt_mask g.bitmap idx + 1) 0)
                dat).getD (popcnt_mask g.bitmap idx + 1) 0 + 1) } := by
  rw [Group.data_insert, if_neg hne]

theorem FState_data_insert (cnt : Nat → Nat) (fil : Nat → List Nat) (g : Group)
    (hs : FState cnt fil g) (idx dat : Nat) (hidx : idx < 64)
    (hroom : (fil idx).length < cnt idx) :
    FState cnt (Function.update fil idx (fil idx ++ [dat])) (g.data_insert idx dat) := by
  have hcnt : cnt idx ≠ 0 := by omega
  have hbit : bit_get g.bitmap idx = true := (hs.hbit idx hidx).mpr hcnt
  have hsplit := occList_split g.bitmap idx hidx
  rw [hbit] at hsplit
  simp at hsplit
  have hp : popcnt g.bitmap = (occList g.bitmap).length := popcnt_occList _ hs.hlt
  have hpm : popcnt_mask g.bitmap idx = (lowOcc g.bitmap idx).length :=
    popcnt_mask_length _ _
  have hP : (occList g.bitmap).length =
      (lowOcc g.bitmap idx).length + 1 + (highOcc g.bitmap idx).length := by
    rw [hsplit]
    simp
    omega
  have hlowP : (lowOcc g.bitmap idx).length < (occList g.bitmap).length := by omega
  have hgetD_mid : (occList g.bitmap).getD (lowOcc g.bitmap idx).length 0 = idx := by
    rw [hsplit]
    exact getD_append_mid _ _ _
  have hne_idx : ∀ h, h < (occList g.bitmap).length → h ≠ (lowOcc g.bitmap idx).length →
      (occList g.bitmap).getD h 0 ≠ idx := by
    intro h hh hne
    rcases Nat.lt_or_ge h (lowOcc g.bitmap idx).length with hlt | hge
    · rw [hsplit, getD_append_left _ _ _ hlt]
      have hmem : (lowOcc g.bitmap idx).getD h 0 ∈ lowOcc g.bitmap idx := by
        rw [List.getD_eq_getElem _ _ hlt]
        exact List.getElem_mem _
      have hlow := (mem_lowOcc _ _ _ hmem).1
      omega
    · have hgt : (lowOcc g.bitmap idx).length < h := by omega
      have hk : h =
          (lowOcc g.bitmap idx).length + 1 + (h - (lowOcc g.bitmap idx).length - 1) := by
        omega
      rw [hsplit, hk, getD_append_add]
      have hkb : h - (lowOcc g.bitmap idx).length - 1 < (highOcc g.bitmap idx).length := by
        omega
      have hmem : (highOcc g.bitmap idx).getD (h - (lowOcc g.bitmap idx).length - 1) 0 ∈
          highOcc g.bitmap idx := by
        rw [List.getD_eq_getElem _ _ hkb]
        exact List.getElem_mem _
      have hhigh := (mem_highOcc _ _ _ hmem).1
      omega
  have hSsucc : ∀ h, h < (occList g.bitmap).length →
      sumCnt cnt ((occList g.bitmap).take (h + 1)) =
        sumCnt cnt ((occList g.bitmap).take h) + cnt ((occList g.bitmap).getD h 0) :=
    fun h hh => sumCnt_take_succ cnt _ h hh
  have hSmono : ∀ h1 h2, h1 ≤ h2 →
      sumCnt cnt ((occList g.bitmap).take h1) ≤ sumCnt cnt ((occList g.bitmap).take h2) :=
    fun h1 h2 h => sumCnt_take_le cnt _ h1 h2 h
  have htotal : sumCnt cnt ((occList g.bitmap).take ((lowOcc g.bitmap idx).length + 1)) ≤
      sumCnt cnt (occList g.bitmap) := by
    conv_rhs =>
      rw [← List.take_append_drop ((lowOcc g.bitmap idx).length + 1) (occList g.bitmap)]
    rw [sumCnt_append]
    omega
  have hSstar := hSsucc _ hlowP
  rw [hgetD_mid] at hSstar
  have hoffset : g.array.getD ((lowOcc g.bitmap idx).length + 1) 0 =
      sumCnt cnt ((occList g.bitmap).take (lowOcc g.bitmap idx).length) +
        (fil idx).length := by
    have h := hs.hhd _ hlowP
    rw [hgetD_mid] at h
    exact h
  have hSF : sumCnt cnt ((occList g.bitmap).take (lowOcc g.bitmap idx).length) +
      (fil idx).length < sumCnt cnt (occList g.bitmap) := by
    omega
  have hWlt : (occList g.bitmap).length + 1 +
      (sumCnt cnt ((occList g.bitmap).take (lowOcc g.bitmap idx).length) + (fil idx).length)
      < g.array.length := by
    rw [hs.hlen]
    omega
  have hpm1lt : (lowOcc g.bitmap idx).length + 1 < g.array.length := by
    rw [hs.hlen]
    omega
  have hne0 : g.array.getD 0 0 ≠ COUNT_FLAG := by
    rw [hs.hhd0, COUNT_FLAG]
    norm_num
  rw [data_insert_eq_filled g idx dat hne0, hp, hpm, hoffset]
  have hVal : ((g.array.set ((occList g.bitmap).length + 1 +
        (sumCnt cnt ((occList g.bitmap).take (lowOcc g.bitmap idx).length) +
          (fil idx).length)) dat).getD ((lowOcc g.bitmap idx).length + 1) 0) =
      sumCnt cnt ((occList g.bitmap).take (lowOcc g.bitmap idx).length) +
        (fil idx).length := by
    rw [getD_set_ne _ _ _ _ (by omega), hoffset]
  rw [hVal]
  refine ⟨hs.hlt, hs.hbm0, hs.hbit, ?_, ?_, ?_, ?_, ?_⟩
  · intro j
    rcases eq_or_ne j idx with rfl | hne
    · rw [Function.update_apply, if_pos rfl, List.length_append, List.length_singleton]
      omega
    · rw [Function.update_apply, if_neg hne]
      exact hs.hfil j
  · dsimp only
    rw [List.length_set, List.length_set]
    exact hs.hlen
  · dsimp only
    rw [getD_set_ne _ _ _ _ (by omega), getD_set_ne _ _ _ _ (by omega)]
    exact hs.hhd0
  · intro h hh
    dsimp only at hh ⊢
    rcases eq_or_ne h (lowOcc g.bitmap idx).length with rfl | hneh
    · rw [getD_set_self _ _ _ (by rw [List.length_set]; omega)]
      rw [hgetD_mid, Function.update_apply, if_pos rfl, List.length_append,
        List.length_singleton]
      omega
    · rw [getD_set_ne _ _ _ _ (by omega), getD_set_ne _ _ _ _ (by omega)]
      rw [hs.hhd h hh, Function.update_apply, if_neg (hne_idx h hh hneh)]
  · intro h hh l hl
    dsimp only at hh hl ⊢
    rcases eq_or_ne h (lowOcc g.bitmap idx).length with rfl | hneh
    · rw [hgetD_mid, Function.update_apply, if_pos rfl, List.length_append,
        List.length_singleton] at hl
      rw [hgetD_mid, Function.update_apply, if_pos rfl]
      rw [getD_set_ne _ _ _ _ (by omega)]
      rcases Nat.lt_or_ge l (fil idx).length with hlF | hgeF
      · rw [getD_set_ne _ _ _ _ (by omega)]
        have hp2 := hs.hpay (lowOcc g.bitmap idx).length hlowP l
          (by rw [hgetD_mid]; exact hlF)
        rw [hgetD_mid] at hp2
        rw [getD_append_left _ _ _ hlF]
        exact hp2
      · have hlF : l = (fil idx).length := by omega
        subst hlF
        have hPos : (occList g.bitmap).length + 1 +
            sumCnt cnt ((occList g.bitmap).take (lowOcc g.bitmap idx).length) +
              (fil idx).length =
            (occList g.bitmap).length + 1 +
            (sumCnt cnt ((occList g.bitmap).take (lowOcc g.bitmap idx).length) +
              (fil idx).length) := by
          omega
        rw [hPos, getD_set_self _ _ _ (by omega)]
        rw [getD_append_mid]
    · have hnei := hne_idx h hh hneh
      rw [Function.update_apply, if_neg hnei] at hl ⊢
      have hcnth : (fil ((occList g.bitmap).getD h 0)).length ≤
          cnt ((occList g.bitmap).getD h 0) := hs.hfil _
      rw [getD_set_ne _ _ _ _ (by omega)]
      have hdisj : (occList g.bitmap).length + 1 +
          (sumCnt cnt ((occList g.bitmap).take (lowOcc g.bitmap idx).length) +
            (fil idx).length) ≠
          (occList g.bitmap).length + 1 + sumCnt cnt ((occList g.bitmap).take h) + l := by
        rcases Nat.lt_or_ge h (lowOcc g.bitmap idx).length with hlt | hge
        · have h1 := hSsucc h hh
          have h2 := hSmono (h + 1) (lowOcc g.bitmap idx).length hlt
          omega
        · have hgt : (lowOcc g.bitmap idx).length < h := by omega
          have h2 := hSmono ((lowOcc g.bitmap idx).length + 1) h hgt
          omega
      rw [getD_set_ne _ _ _ _ hdisj]
      exact hs.hpay h hh l hl

theorem getElem?_eq_some_getD (l : List Nat) (p : Nat) (h : p < l.length) :
    l[p]? = some (l.getD p 0) := by
  rw [List.getElem?_eq_getElem h, List.getD_eq_getElem _ _ h]

theorem access_eq_false (g : Group) (idx : Nat) (hb : bit_get g.bitmap idx = false) :
    g.access idx = none := by
  rw [Group.access, if_pos hb]

theorem access_eq_true (g : Group) (idx : Nat) (hb : bit_get g.bitmap idx = true) :
    g.access idx =
      some ((g.array.drop
          (popcnt g.bitmap + 1 + g.array.getD (popcnt_mask g.bitmap idx) 0)).take
        ((popcnt g.bitmap + 1 + g.array.getD (popcnt_mask g.bitmap idx) 0 +
            (g.array.getD (popcnt_mask g.bitmap idx + 1) 0 -
              g.array.getD (popcnt_mask g.bitmap idx) 0)) -
          (popcnt g.bitmap + 1 + g.array.getD (popcnt_mask g.bitmap idx) 0))) := by
  rw [Group.access, if_neg (by simp [hb])]

theorem FState_access (cnt : Nat → Nat) (fil : Nat → List Nat) (g : Group)
    (hs : FState cnt fil g) (hfull : ∀ j, (fil j).length = cnt j) (idx : Nat)
    (hidx : idx < 64) :
    g.access idx = if cnt idx = 0 then none else some (fil idx) := by
  cases hb : bit_get g.bitmap idx
  · have hc0 : cnt idx = 0 := by
      have hiff := hs.hbit idx hidx
      rw [hb] at hiff
      by_contra hne
      exact Bool.noConfusion (hiff.mpr hne)
    rw [access_eq_false g idx hb, if_pos hc0]
  · have hcne : cnt idx ≠ 0 := (hs.hbit idx hidx).mp hb
    rw [access_eq_true g idx hb, if_neg hcne]
    have hsplit := occList_split g.bitmap idx hidx
    rw [hb] at hsplit
    simp at hsplit
    have hp : popcnt g.bitmap = (occList g.bitmap).length := popcnt_occList _ hs.hlt
    have hpm : popcnt_mask g.bitmap idx = (lowOcc g.bitmap idx).length :=
      popcnt_mask_length _ _
    have hP : (occList g.bitmap).length =
        (lowOcc g.bitmap idx).length + 1 + (highOcc g.bitmap idx).length := by
      rw [hsplit]
      simp
      omega
    have hlowP : (lowOcc g.bitmap idx).length < (occList g.bitmap).length := by omega
    have hgetD_mid : (occList g.bitmap).getD (lowOcc g.bitmap idx).length 0 = idx := by
      rw [hsplit]
      exact getD_append_mid _ _ _
    have hbposv : g.array.getD (lowOcc g.bitmap idx).length 0 =
        sumCnt cnt ((occList g.bitmap).take (lowOcc g.bitmap idx).length) := by
      rcases Nat.eq_zero_or_pos (lowOcc g.bitmap idx).length with h0 | hpos
      · rw [h0, hs.hhd0]
        simp [sumCnt]
      · have heq : (lowOcc g.bitmap idx).length = ((lowOcc g.bitmap idx).length - 1) + 1 := by
          omega
        rw [heq, hs.hhd _ (by omega), hfull, sumCnt_take_succ cnt _ _ (by omega)]
    have hhd1 : g.array.getD ((lowOcc g.bitmap idx).length + 1) 0 =
        sumCnt cnt ((occList g.bitmap).take (lowOcc g.bitmap idx).length) + cnt idx := by
      have h := hs.hhd _ hlowP
      rw [hgetD_mid, hfull] at h
      exact h
    have hSstar : sumCnt cnt ((occList g.bitmap).take ((lowOcc g.bitmap idx).length + 1)) =
        sumCnt cnt ((occList g.bitmap).take (lowOcc g.bitmap idx).length) + cnt idx := by
      rw [sumCnt_take_succ cnt _ _ hlowP, hgetD_mid]
    have htotal : sumCnt cnt ((occList g.bitmap).take ((lowOcc g.bitmap idx).length + 1)) ≤
        sumCnt cnt (occList g.bitmap) := by
      conv_rhs =>
        rw [← List.take_append_drop ((lowOcc g.bitmap idx).length + 1) (occList g.bitmap)]
      rw [sumCnt_append]
      omega
    rw [hp, hpm, hbposv, hhd1]
    have harith : (occList g.bitmap).length + 1 +
          sumCnt cnt ((occList g.bitmap).take (lowOcc g.bitmap idx).length) +
          (sumCnt cnt ((occList g.bitmap).take (lowOcc g.bitmap idx).length) + cnt idx -
            sumCnt cnt ((occList g.bitmap).take (lowOcc g.bitmap idx).length)) -
        ((occList g.bitmap).length + 1 +
          sumCnt cnt ((occList g.bitmap).take (lowOcc g.bitmap idx).length)) = cnt idx := by
      omega
    rw [harith]
    congr 1
    refine List.ext_getElem? ?_
    intro i
    rw [List.getElem?_take]
    rcases Nat.lt_or_ge i (cnt idx) with hi | hi
    · rw [if_pos hi, List.getElem?_drop]
      have hpay := hs.hpay (lowOcc g.bitmap idx).length hlowP i
        (by rw [hgetD_mid, hfull]; exact hi)
      rw [hgetD_mid] at hpay
      have hposlt : (occList g.bitmap).length + 1 +
          sumCnt cnt ((occList g.bitmap).take (lowOcc g.bitmap idx).length) + i <
          g.array.length := by
        rw [hs.hlen]
        omega
      have hfillt : i < (fil idx).length := by
        rw [hfull]
        exact hi
      rw [getElem?_eq_some_getD _ _ hposlt, getElem?_eq_some_getD _ _ hfillt, hpay]
    · rw [if_neg (by omega)]
      symm
      rw [List.getElem?_eq_none_iff, hfull]
      omega

theorem FState_congr (cnt : Nat → Nat) (fil1 fil2 : Nat → List Nat) (g : Group)
    (h : ∀ j, fil1 j = fil2 j) (hs : FState cnt fil1 g) : FState cnt fil2 g := by
  have hfe : fil1 = fil2 := funext h
  rw [← hfe]
  exact hs

/-- Combined state of a group during the data phase: either no value has
been inserted yet (the group still carries the counting-phase layout), or
the group has been allocated and partially filled. -/
def DState (cnt : Nat → Nat) (fil : Nat → List Nat) (g : Group) : Prop :=
  ((∀ j, fil j = []) ∧ CState cnt g) ∨ FState cnt fil g

theorem data_insert_allocate (g : Group) (idx dat : Nat)
    (hflag : g.array.getD 0 0 = COUNT_FLAG)
    (hne : (g.allocate_mem_based_on_counts).array.getD 0 0 ≠ COUNT_FLAG) :
    g.data_insert idx dat = (g.allocate_mem_based_on_counts).data_insert idx dat := by
  conv_lhs => rw [Group.data_insert, if_pos hflag]
  conv_rhs => rw [Group.data_insert, if_neg hne]

theorem DState_data_insert (cnt : Nat → Nat) (fil : Nat → List Nat) (g : Group)
    (hs : DState cnt fil g) (idx dat : Nat) (hidx : idx < 64)
    (hroom : (fil idx).length < cnt idx) :
    DState cnt (Function.update fil idx (fil idx ++ [dat])) (g.data_insert idx dat) := by
  rcases hs with ⟨hfil0, hcs⟩ | hfs
  · have hcnt : cnt idx ≠ 0 := by omega
    have hbit : bit_get g.bitmap idx = true := (hcs.hbit idx hidx).mpr hcnt
    have hbm : g.bitmap ≠ 0 := bitmap_ne_zero_of_bit _ _ hbit
    have harr : g.array = COUNT_FLAG :: (occList g.bitmap).map cnt := by
      have h := hcs.harr
      rw [if_neg hbm] at h
      exact h
    have hfs0 := FState_allocate cnt g hcs hbm
    have hne : (g.allocate_mem_based_on_counts).array.getD 0 0 ≠ COUNT_FLAG := by
      rw [hfs0.hhd0, COUNT_FLAG]
      norm_num
    have hflag : g.array.getD 0 0 = COUNT_FLAG := by
      rw [harr, List.getD_cons_zero]
    rw [data_insert_allocate g idx dat hflag hne]
    right
    have hroom0 : ((fun _ => ([] : List Nat)) idx).length < cnt idx := by
      simp
      omega
    have hstep := FState_data_insert cnt (fun _ => []) _ hfs0 idx dat hidx hroom0
    refine FState_congr _ _ _ _ ?_ hstep
    intro j
    rcases eq_or_ne j idx with rfl | hne2
    · rw [Function.update_apply, if_pos rfl, Function.update_apply, if_pos rfl, hfil0 j]
    · rw [Function.update_apply, if_neg hne2, Function.update_apply, if_neg hne2, hfil0 j]
  · right
    exact FState_data_insert cnt fil g hfs idx dat hidx hroom

theorem DState_access (cnt : Nat → Nat) (fil : Nat → List Nat) (g : Group)
    (hs : DState cnt fil g) (hfull : ∀ j, (fil j).length = cnt j) (idx : Nat)
    (hidx : idx < 64) :
    g.access idx = if cnt idx = 0 then none else some (fil idx) := by
  rcases hs with ⟨hfil0, hcs⟩ | hfs
  · have hc : cnt idx = 0 := by
      have h := hfull idx
      rw [hfil0 idx] at h
      simpa using h.symm
    have hb : bit_get g.bitmap idx = false := by
      cases hbv : bit_get g.bitmap idx
      · rfl
      · exact absurd ((hcs.hbit idx hidx).mp hbv) (by simp [hc])
    rw [access_eq_false g idx hb, if_pos hc]
  · exact FState_access cnt fil g hfs hfull idx hidx

/-! #### Table level: localized slot functions per group -/

theorem getDP_set_self (l : List Group) (i : Nat) (v d : Group) (h : i < l.length) :
    (l.set i v).getD i d = v := by
  rw [List.getD_eq_getElem?_getD, List.getElem?_set_self h]
  rfl

theorem getDP_set_ne (l : List Group) (i j : Nat) (v d : Group) (h : i ≠ j) :
    (l.set i v).getD j d = l.getD j d := by
  rw [List.getD_eq_getElem?_getD, List.getD_eq_getElem?_getD, List.getElem?_set_ne h]

theorem getDP_replicate (n i : Nat) (a d : Group) (h : i < n) :
    (List.replicate n a).getD i d = a := by
  rw [List.getD_eq_getElem?_getD, List.getElem?_replicate, if_pos h]
  rfl

/-- Number of groups a table with `d` index bits allocates. -/
def numGroups (d : Nat) : Nat :=
  if GROUP_SIZE ≤ 1 <<< d then (1 <<< d) / GROUP_SIZE else 1

/-- The per-group slot counts induced by table-level counts. -/
def localCnt (tcnt : Nat → Nat) (gi j : Nat) : Nat :=
  if j < 64 then tcnt (gi * GROUP_SIZE + j) else 0

/-- The per-group slot fills induced by table-level fills. -/
def localFil (tfil : Nat → List Nat) (gi j : Nat) : List Nat :=
  if j < 64 then tfil (gi * GROUP_SIZE + j) else []

theorem localCnt_apply (tcnt : Nat → Nat) (gi j : Nat) (hj : j < 64) :
    localCnt tcnt gi j = tcnt (gi * GROUP_SIZE + j) := by
  rw [localCnt, if_pos hj]

theorem localCnt_apply_ge (tcnt : Nat → Nat) (gi j : Nat) (hj : 64 ≤ j) :
    localCnt tcnt gi j = 0 := by
  rw [localCnt, if_neg (by omega)]

theorem localFil_apply (tfil : Nat → List Nat) (gi j : Nat) (hj : j < 64) :
    localFil tfil gi j = tfil (gi * GROUP_SIZE + j) := by
  rw [localFil, if_pos hj]

theorem localFil_apply_ge (tfil : Nat → List Nat) (gi j : Nat) (hj : 64 ≤ j) :
    localFil tfil gi j = [] := by
  rw [localFil, if_neg (by omega)]

theorem localCnt_update_self (tcnt : Nat → Nat) (idx : Nat) :
    localCnt (Function.update tcnt idx (tcnt idx + 1)) (idx / GROUP_SIZE) =
      Function.update (localCnt tcnt (idx / GROUP_SIZE)) (idx % GROUP_SIZE)
        (localCnt tcnt (idx / GROUP_SIZE) (idx % GROUP_SIZE) + 1) := by
  have hm : idx % GROUP_SIZE < 64 := by
    simp only [GROUP_SIZE]
    omega
  have hkey : idx / GROUP_SIZE * GROUP_SIZE + idx % GROUP_SIZE = idx := by
    simp only [GROUP_SIZE]
    omega
  funext j
  rcases Nat.lt_or_ge j 64 with hj | hj
  · rw [localCnt_apply _ _ _ hj, Function.update_apply, Function.update_apply]
    rcases eq_or_ne j (idx % GROUP_SIZE) with rfl | hne
    · rw [if_pos rfl, if_pos hkey, localCnt_apply _ _ _ hm, hkey]
    · rw [if_neg hne, if_neg (by simp only [GROUP_SIZE] at hne ⊢; omega),
        localCnt_apply _ _ _ hj]
  · rw [localCnt_apply_ge _ _ _ hj, Function.update_apply, if_neg (by omega),
      localCnt_apply_ge _ _ _ hj]

theorem localCnt_update_ne (tcnt : Nat → Nat) (idx v gi : Nat) (h : gi ≠ idx / GROUP_SIZE) :
    localCnt (Function.update tcnt idx v) gi = localCnt tcnt gi := by
  funext j
  rcases Nat.lt_or_ge j 64 with hj | hj
  · rw [localCnt_apply _ _ _ hj, localCnt_apply _ _ _ hj, Function.update_apply,
      if_neg (by simp only [GROUP_SIZE] at h ⊢; omega)]
  · rw [localCnt_apply_ge _ _ _ hj, localCnt_apply_ge _ _ _ hj]

theorem localFil_update_self (tfil : Nat → List Nat) (idx : Nat) (v : List Nat) :
    localFil (Function.update tfil idx v) (idx / GROUP_SIZE) =
      Function.update (localFil tfil (idx / GROUP_SIZE)) (idx % GROUP_SIZE) v := by
  have hm : idx % GROUP_SIZE < 64 := by
    simp only [GROUP_SIZE]
    omega
  have hkey : idx / GROUP_SIZE * GROUP_SIZE + idx % GROUP_SIZE = idx := by
    simp only [GROUP_SIZE]
    omega
  funext j
  rcases Nat.lt_or_ge j 64 with hj | hj
  · rw [localFil_apply _ _ _ hj, Function.update_apply, Function.update_apply]
    rcases eq_or_ne j (idx % GROUP_SIZE) with rfl | hne
    · rw [if_pos rfl, if_pos hkey]
    · rw [if_neg hne, if_neg (by simp only [GROUP_SIZE] at hne ⊢; omega),
        localFil_apply _ _ _ hj]
  · rw [localFil_apply_ge _ _ _ hj, Function.update_apply, if_neg (by omega),
      localFil_apply_ge _ _ _ hj]

theorem localFil_update_ne (tfil : Nat → List Nat) (idx : Nat) (v : List Nat) (gi : Nat)
    (h : gi ≠ idx / GROUP_SIZE) :
    localFil (Function.update tfil idx v) gi = localFil tfil gi := by
  funext j
  rcases Nat.lt_or_ge j 64 with hj | hj
  · rw [localFil_apply _ _ _ hj, localFil_apply _ _ _ hj, Function.update_apply,
      if_neg (by simp only [GROUP_SIZE] at h ⊢; omega)]
  · rw [localFil_apply_ge _ _ _ hj, localFil_apply_ge _ _ _ hj]

theorem idx_div_lt (d idx : Nat) (hidx : idx < 1 <<< d) : idx / GROUP_SIZE < numGroups d := by
  rw [one_shiftLeft] at hidx
  simp only [numGroups, GROUP_SIZE, one_shiftLeft]
  rcases Nat.lt_or_ge (2 ^ d) 64 with hsm | hlg
  · rw [if_neg (by omega)]
    omega
  · rw [if_pos (by omega)]
    have h6 : 6 ≤ d := by
      by_contra hlt
      have h2 : (2 : Nat) ^ d < 2 ^ 6 := Nat.pow_lt_pow_right (by norm_num) (by omega)
      norm_num at h2
      omega
    have hdvd : (64 : Nat) ∣ 2 ^ d := by
      have h := pow_dvd_pow 2 h6
      simpa using h
    obtain ⟨k, hk⟩ := hdvd
    rw [hk] at hidx ⊢
    omega

/-- Table-level counting-phase invariant. -/
def TCount (d : Nat) (tcnt : Nat → Nat) (t : Table) : Prop :=
  t.num_bits = d ∧ t.groups.length = numGroups d ∧
    ∀ gi, gi < numGroups d → CState (localCnt tcnt gi) (t.groups.getD gi default)

/-- Table-level filling-phase invariant. -/
def TFill (d : Nat) (tcnt : Nat → Nat) (tfil : Nat → List Nat) (t : Table) : Prop :=
  t.num_bits = d ∧ t.groups.length = numGroups d ∧
    ∀ gi, gi < numGroups d → DState (localCnt tcnt gi) (localFil tfil gi)
      (t.groups.getD gi default)

theorem TCount_new (d : Nat) (hd : d ≠ 0) (t0 : Table) (h0 : Table.new d = Except.ok t0) :
    TCount d (fun _ => 0) t0 := by
  rw [Table.new, if_neg hd] at h0
  have ht : t0 = { num_bits := d, groups := List.replicate (numGroups d) default } := by
    cases h0
    rfl
  subst ht
  refine ⟨rfl, ?_, ?_⟩
  · show (List.replicate (numGroups d) default).length = numGroups d
    rw [List.length_replicate]
  · intro gi hgi
    show CState (localCnt (fun _ => 0) gi) ((List.replicate (numGroups d) default).getD gi default)
    rw [getDP_replicate _ _ _ _ hgi]
    have hloc : localCnt (fun _ => 0) gi = fun _ => 0 := by
      funext j
      simp [localCnt]
    rw [hloc]
    exact CState_init

theorem TCount_insert (d : Nat) (tcnt : Nat → Nat) (t : Table) (hs : TCount d tcnt t)
    (idx : Nat) (hidx : idx < 1 <<< d) :
    TCount d (Function.update tcnt idx (tcnt idx + 1)) (t.count_insert idx) := by
  obtain ⟨hnb, hlen, hgs⟩ := hs
  have hgi := idx_div_lt d idx hidx
  have hmod : idx % GROUP_SIZE < 64 := by
    simp only [GROUP_SIZE]
    omega
  refine ⟨hnb, ?_, ?_⟩
  · show (t.groups.set (idx / GROUP_SIZE) _).length = numGroups d
    rw [List.length_set]
    exact hlen
  · intro gi hgilt
    show CState (localCnt (Function.update tcnt idx (tcnt idx + 1)) gi)
      ((t.groups.set (idx / GROUP_SIZE)
        ((t.groups.getD (idx / GROUP_SIZE) default).count_insert (idx % GROUP_SIZE))).getD
        gi default)
    rcases eq_or_ne gi (idx / GROUP_SIZE) with rfl | hne
    · rw [getDP_set_self _ _ _ _ (by rw [hlen]; exact hgi), localCnt_update_self]
      exact CState_count_insert _ _ _ hmod (hgs _ hgi)
    · rw [getDP_set_ne _ _ _ _ _ (Ne.symm hne), localCnt_update_ne _ _ _ _ hne]
      exact hgs gi hgilt

theorem TFill_of_TCount (d : Nat) (tcnt : Nat → Nat) (t : Table) (hs : TCount d tcnt t) :
    TFill d tcnt (fun _ => []) t := by
  obtain ⟨hnb, hlen, hgs⟩ := hs
  refine ⟨hnb, hlen, ?_⟩
  intro gi hgi
  left
  refine ⟨?_, hgs gi hgi⟩
  intro j
  simp [localFil]

theorem TFill_insert (d : Nat) (tcnt : Nat → Nat) (tfil : Nat → List Nat) (t : Table)
    (hs : TFill d tcnt tfil t) (idx dat : Nat) (hidx : idx < 1 <<< d)
    (hroom : (tfil idx).length < tcnt idx) :
    TFill d tcnt (Function.update tfil idx (tfil idx ++ [dat])) (t.data_insert idx dat) := by
  obtain ⟨hnb, hlen, hgs⟩ := hs
  have hgi := idx_div_lt d idx hidx
  have hmod : idx % GROUP_SIZE < 64 := by
    simp only [GROUP_SIZE]
    omega
  have hkey : idx / GROUP_SIZE * GROUP_SIZE + idx % GROUP_SIZE = idx := by
    simp only [GROUP_SIZE]
    omega
  have hroom' : (localFil tfil (idx / GROUP_SIZE) (idx % GROUP_SIZE)).length <
      localCnt tcnt (idx / GROUP_SIZE) (idx % GROUP_SIZE) := by
    rw [localFil_apply _ _ _ hmod, localCnt_apply _ _ _ hmod, hkey]
    exact hroom
  refine ⟨hnb, ?_, ?_⟩
  · show (t.groups.set (idx / GROUP_SIZE) _).length = numGroups d
    rw [List.length_set]
    exact hlen
  · intro gi hgilt
    show DState (localCnt tcnt gi)
      (localFil (Function.update tfil idx (tfil idx ++ [dat])) gi)
      ((t.groups.set (idx / GROUP_SIZE)
        ((t.groups.getD (idx / GROUP_SIZE) default).data_insert (idx % GROUP_SIZE) dat)).getD
        gi default)
    rcases eq_or_ne gi (idx / GROUP_SIZE) with rfl | hne
    · rw [getDP_set_self _ _ _ _ (by rw [hlen]; exact hgi), localFil_update_self]
      have hstep := DState_data_insert _ _ _ (hgs _ hgi) (idx % GROUP_SIZE) dat hmod hroom'
      have hv : localFil tfil (idx / GROUP_SIZE) (idx % GROUP_SIZE) ++ [dat] =
          tfil idx ++ [dat] := by
        rw [localFil_apply _ _ _ hmod, hkey]
      rw [hv] at hstep
      exact hstep
    · rw [getDP_set_ne _ _ _ _ _ (Ne.symm hne), localFil_update_ne _ _ _ _ hne]
      exact hgs gi hgilt

/-- The counting pass of the build loop (`count_insert` for every sub-code,
in database order). -/
def countAll (t : Table) (cs : List Nat) : Table := cs.foldl Table.count_insert t

/-- The data pass of the build loop (`data_insert` for every (sub-code, id)
pair, in database order). -/
def dataAll (t : Table) (ps : List (Nat × Nat)) : Table :=
  ps.foldl (fun t p => t.data_insert p.1 p.2) t

theorem count_map_fst (ps : List (Nat × Nat)) (w : Nat) :
    (ps.map Prod.fst).count w = (ps.filter (fun p => p.1 = w)).length := by
  rw [← List.countP_eq_length_filter, List.count, List.countP_map]
  refine List.countP_congr ?_
  intro q _
  simp

theorem TCount_fold (d : Nat) :
    ∀ (cs : List Nat) (tcnt : Nat → Nat) (t : Table), TCount d tcnt t →
      (∀ c ∈ cs, c < 1 <<< d) →
      TCount d (fun v => tcnt v + cs.count v) (countAll t cs) := by
  intro cs
  induction cs with
  | nil =>
      intro tcnt t hs _
      have he : (fun v => tcnt v + List.count v []) = tcnt := by
        funext v
        simp
      rw [he]
      exact hs
  | cons c cs ih =>
      intro tcnt t hs hmem
      show TCount d _ (countAll (t.count_insert c) cs)
      have hstep := TCount_insert d tcnt t hs c (hmem c (List.mem_cons_self _ _))
      have hrec := ih (Function.update tcnt c (tcnt c + 1)) _ hstep
        (fun x hx => hmem x (List.mem_cons_of_mem _ hx))
      have he : (fun v => tcnt v + List.count v (c :: cs)) =
          (fun v => Function.update tcnt c (tcnt c + 1) v + List.count v cs) := by
        funext v
        rw [List.count_cons, Function.update_apply]
        rcases eq_or_ne v c with rfl | hne
        · rw [if_pos rfl]
          simp
          omega
        · rw [if_neg hne, if_neg (by simp [Ne.symm hne])]
          omega
      rw [he]
      exact hrec

theorem TFill_fold (d : Nat) (tcnt : Nat → Nat) :
    ∀ (ps : List (Nat × Nat)) (tfil : Nat → List Nat) (t : Table),
      TFill d tcnt tfil t →
      (∀ p ∈ ps, p.1 < 1 <<< d) →
      (∀ v, (tfil v).length + (ps.map Prod.fst).count v ≤ tcnt v) →
      TFill d tcnt (fun v => tfil v ++ (ps.filter (fun p => p.1 = v)).map Prod.snd)
        (dataAll t ps) := by
  intro ps
  induction ps with
  | nil =>
      intro tfil t hs _ _
      have he : (fun v => tfil v ++ (List.filter (fun p => p.1 = v) []).map Prod.snd) =
          tfil := by
        funext v
        simp
      rw [he]
      exact hs
  | cons p ps ih =>
      intro tfil t hs hmem hbound
      show TFill d tcnt _ (dataAll (t.data_insert p.1 p.2) ps)
      have hcnt1 : ((p :: ps).map Prod.fst).count p.1 = (ps.map Prod.fst).count p.1 + 1 := by
        rw [List.map_cons, List.count_cons]
        simp
      have hroom : (tfil p.1).length < tcnt p.1 := by
        have hb := hbound p.1
        rw [hcnt1] at hb
        omega
      have hstep := TFill_insert d tcnt tfil t hs p.1 p.2
        (hmem p (List.mem_cons_self _ _)) hroom
      have hbound' : ∀ v, ((Function.update tfil p.1 (tfil p.1 ++ [p.2])) v).length +
          (ps.map Prod.fst).count v ≤ tcnt v := by
        intro v
        rw [Function.update_apply]
        rcases eq_or_ne v p.1 with rfl | hne
        · rw [if_pos rfl, List.length_append, List.length_singleton]
          have hb := hbound p.1
          rw [hcnt1] at hb
          omega
        · rw [if_neg hne]
          have hb := hbound v
          have hcv : ((p :: ps).map Prod.fst).count v = (ps.map Prod.fst).count v := by
            rw [List.map_cons, List.count_cons, if_neg (by simp [Ne.symm hne])]
            omega
          omega
      have hrec := ih (Function.update tfil p.1 (tfil p.1 ++ [p.2])) _ hstep
        (fun q hq => hmem q (List.mem_cons_of_mem _ hq)) hbound'
      have he : (fun v => tfil v ++ (List.filter (fun q => q.1 = v) (p :: ps)).map Prod.snd) =
          (fun v => (Function.update tfil p.1 (tfil p.1 ++ [p.2])) v ++
            (List.filter (fun q => q.1 = v) ps).map Prod.snd) := by
        funext v
        rw [List.filter_cons, Function.update_apply]
        rcases eq_or_ne v p.1 with rfl | hne
        · rw [if_pos (by simp), if_pos rfl, List.map_cons, List.append_assoc,
            List.singleton_append]
        · rw [if_neg (by simp [Ne.symm hne]), if_neg hne]
      rw [he]
      exact hrec

theorem table_build_access (d : Nat) (hd : d ≠ 0) (ps : List (Nat × Nat)) (t0 : Table)
    (h0 : Table.new d = Except.ok t0) (hmem : ∀ p ∈ ps, p.1 < 1 <<< d) :
    ∀ v, v < 1 <<< d →
      (dataAll (countAll t0 (ps.map Prod.fst)) ps).access v =
        if (ps.map Prod.fst).count v = 0 then none
        else some ((ps.filter (fun p => p.1 = v)).map Prod.snd) := by
  have hc0 := TCount_new d hd t0 h0
  have hcnt := TCount_fold d (ps.map Prod.fst) _ _ hc0 (by
    intro c hc
    obtain ⟨p, hp, rfl⟩ := List.mem_map.mp hc
    exact hmem p hp)
  have hcnte : (fun v => (fun _ => (0 : Nat)) v + (ps.map Prod.fst).count v) =
      (fun v => (ps.map Prod.fst).count v) := by
    funext v
    simp
  rw [hcnte] at hcnt
  have hfill0 := TFill_of_TCount d _ _ hcnt
  have hfill := TFill_fold d _ ps (fun _ => []) _ hfill0 hmem (by intro v; simp)
  have hfile : (fun v => ([] : List Nat) ++ (ps.filter (fun p => p.1 = v)).map Prod.snd) =
      (fun v => (ps.filter (fun p => p.1 = v)).map Prod.snd) := by
    funext v
    simp
  rw [hfile] at hfill
  obtain ⟨hnb, hlen, hgs⟩ := hfill
  intro v hv
  have hgi := idx_div_lt d v hv
  have hmod : v % GROUP_SIZE < 64 := by
    simp only [GROUP_SIZE]
    omega
  have hkey : v / GROUP_SIZE * GROUP_SIZE + v % GROUP_SIZE = v := by
    simp only [GROUP_SIZE]
    omega
  have hfull' : ∀ j, (localFil (fun w => (ps.filter (fun p => p.1 = w)).map Prod.snd)
      (v / GROUP_SIZE) j).length =
      localCnt (fun w => (ps.map Prod.fst).count w) (v / GROUP_SIZE) j := by
    intro j
    rcases Nat.lt_or_ge j 64 with hj | hj
    · rw [localFil_apply _ _ _ hj, localCnt_apply _ _ _ hj, List.length_map,
        count_map_fst]
    · rw [localFil_apply_ge _ _ _ hj, localCnt_apply_ge _ _ _ hj]
      rfl
  rw [Table.access]
  have hacc := DState_access _ _ _ (hgs _ hgi) hfull' (v % GROUP_SIZE) hmod
  rw [hacc, localCnt_apply _ _ _ hmod, localFil_apply _ _ _ hmod, hkey]

/-! #### The remaining table invariants: order and multiset content -/

theorem range_split (M a : Nat) (h : a < M) :
    List.range M = List.range' 0 a ++ a :: List.range' (a + 1) (M - a - 1) := by
  have happ := List.range'_append 0 a ((M - a - 1) + 1) 1
  simp at happ
  have hM : M - a - 1 + 1 + a = M := by omega
  rw [hM] at happ
  rw [List.range_eq_range', ← happ, List.range'_succ]

theorem slot_sorted (cs : List Nat) (v : Nat) :
    List.Pairwise (· < ·)
      (((cs.zip (List.range cs.length)).filter (fun p => p.1 = v)).map Prod.snd) := by
  have hsub : (((cs.zip (List.range cs.length)).filter (fun p => p.1 = v)).map
      Prod.snd).Sublist ((cs.zip (List.range cs.length)).map Prod.snd) :=
    List.Sublist.map _ (List.filter_sublist _)
  have hmap : (cs.zip (List.range cs.length)).map Prod.snd = List.range cs.length :=
    List.map_snd_zip _ _ (by rw [List.length_range])
  rw [hmap] at hsub
  exact List.Pairwise.sublist hsub (List.pairwise_lt_range _)

theorem flatMap_filter_perm (M : Nat) :
    ∀ ps : List (Nat × Nat), (∀ p ∈ ps, p.1 < M) →
      ((List.range M).flatMap fun v => ps.filter (fun p => p.1 = v)).Perm ps := by
  intro ps
  induction ps with
  | nil =>
      intro _
      simp
  | cons p ps ih =>
      intro hmem
      have hsplit := range_split M p.1 (hmem p (List.mem_cons_self _ _))
      have hlow : (List.range' 0 p.1).flatMap
            (fun v => (p :: ps).filter (fun q => q.1 = v)) =
          (List.range' 0 p.1).flatMap (fun v => ps.filter (fun q => q.1 = v)) := by
        refine List.flatMap_congr ?_
        intro x hx
        rw [List.mem_range'] at hx
        obtain ⟨i, hi, rfl⟩ := hx
        rw [List.filter_cons, if_neg (by simp; omega)]
      have hhigh : (List.range' (p.1 + 1) (M - p.1 - 1)).flatMap
            (fun v => (p :: ps).filter (fun q => q.1 = v)) =
          (List.range' (p.1 + 1) (M - p.1 - 1)).flatMap
            (fun v => ps.filter (fun q => q.1 = v)) := by
        refine List.flatMap_congr ?_
        intro x hx
        rw [List.mem_range'] at hx
        obtain ⟨i, hi, rfl⟩ := hx
        rw [List.filter_cons, if_neg (by simp; omega)]
      have hmid : (p :: ps).filter (fun q => q.1 = p.1) =
          p :: ps.filter (fun q => q.1 = p.1) := by
        rw [List.filter_cons, if_pos (by simp)]
      rw [hsplit, List.flatMap_append, List.flatMap_cons, hlow, hhigh, hmid,
        List.cons_append]
      have hall : ((List.range' 0 p.1).flatMap fun v => ps.filter (fun q => q.1 = v)) ++
          ((ps.filter (fun q => q.1 = p.1)) ++
            ((List.range' (p.1 + 1) (M - p.1 - 1)).flatMap
              fun v => ps.filter (fun q => q.1 = v))) =
          (List.range M).flatMap (fun v => ps.filter fun q => q.1 = v) := by
        rw [hsplit, List.flatMap_append, List.flatMap_cons]
      refine List.Perm.trans
        (@List.perm_middle _ p
          ((List.range' 0 p.1).flatMap fun v => ps.filter (fun q => q.1 = v))
          ((ps.filter (fun q => q.1 = p.1)) ++
            ((List.range' (p.1 + 1) (M - p.1 - 1)).flatMap
              fun v => ps.filter (fun q => q.1 = v)))) ?_
      rw [hall]
      exact List.Perm.cons p (ih (fun q hq => hmem q (List.mem_cons_of_mem _ hq)))

/-- C4: after the two-phase build of a per-block table (`count_insert` for
every sub-code in id order, then `data_insert` for every (sub-code, id)
pair in id order), `access v` is `none` exactly when no database id has
sub-code `v` and otherwise returns the list of exactly those ids; each
slot list has length equal to the number of ids with that sub-code, the
concatenation of all slot lists is a permutation of `{0, …, N-1}`, and
each slot list is in ascending id order. -/
theorem sparsehash_C4 (d : Nat) (cs : List Nat) (t0 : Table)
    (hd : d ≠ 0) (hcs : ∀ c ∈ cs, c < 2 ^ d) (h0 : Table.new d = Except.ok t0) :
    (∀ v, v < 2 ^ d →
      (dataAll (countAll t0 cs) (cs.zip (List.range cs.length))).access v =
        (if cs.count v = 0 then none
         else some (((cs.zip (List.range cs.length)).filter
           (fun p => p.1 = v)).map Prod.snd)) ∧
      (((cs.zip (List.range cs.length)).filter (fun p => p.1 = v)).map Prod.snd).length =
        cs.count v ∧
      List.Pairwise (· < ·)
        (((cs.zip (List.range cs.length)).filter (fun p => p.1 = v)).map Prod.snd)) ∧
    ((List.range (2 ^ d)).flatMap fun v =>
      ((cs.zip (List.range cs.length)).filter (fun p => p.1 = v)).map Prod.snd).Perm
      (List.range cs.length) := by
  have hfst : (cs.zip (List.range cs.length)).map Prod.fst = cs :=
    List.map_fst_zip _ _ (by rw [List.length_range])
  have hmem : ∀ p ∈ cs.zip (List.range cs.length), p.1 < 1 <<< d := by
    intro p hp
    have h1 : p.1 ∈ cs := by
      rw [← hfst]
      exact List.mem_map_of_mem _ hp
    rw [one_shiftLeft]
    exact hcs _ h1
  constructor
  · intro v hv
    have hv' : v < 1 <<< d := by
      rw [one_shiftLeft]
      exact hv
    have hacc := table_build_access d hd (cs.zip (List.range cs.length)) t0 h0 hmem v hv'
    rw [hfst] at hacc
    refine ⟨hacc, ?_, slot_sorted cs v⟩
    rw [List.length_map, ← count_map_fst, hfst]
  · have hperm := flatMap_filter_perm (2 ^ d) (cs.zip (List.range cs.length)) (by
      intro p hp
      have h := hmem p hp
      rw [one_shiftLeft] at h
      exact h)
    have hmapped := hperm.map Prod.snd
    rw [List.map_flatMap] at hmapped
    have hsnd : (cs.zip (List.range cs.length)).map Prod.snd = List.range cs.length :=
      List.map_snd_zip _ _ (by rw [List.length_range])
    rw [hsnd] at hmapped
    exact hmapped

theorem sparsehash_C4_witness :
    (2 : Nat) ≠ 0 ∧ (∀ c ∈ ([1, 3, 1, 0] : List Nat), c < 2 ^ 2) ∧
      Table.new 2 = Except.ok { num_bits := 2, groups := List.replicate 1 default } ∧
      (dataAll (countAll { num_bits := 2, groups := List.replicate 1 default } [1, 3, 1, 0])
          (([1, 3, 1, 0] : List Nat).zip
            (List.range ([1, 3, 1, 0] : List Nat).length))).access 1 =
        some (((([1, 3, 1, 0] : List Nat).zip
          (List.range ([1, 3, 1, 0] : List Nat).length)).filter
            (fun p => p.1 = 1)).map Prod.snd) := by
  refine ⟨by decide, by decide, by rfl, ?_⟩
  have h := (sparsehash_C4 2 [1, 3, 1, 0]
    { num_bits := 2, groups := List.replicate 1 default } (by decide) (by decide)
    (by rfl)).1 1 (by decide)
  rw [h.1, if_neg (by decide)]

/-! ### The index (`src/index/ops.rs`)

Codes of type `u8`/`u16`/`u32`/`u64` are modeled as `Nat` below `2 ^ w`
with the width `w` carried explicitly; `usize` values are `Nat` (with
`usize::MAX = 2 ^ 64 - 1` where a saturating cast occurs). -/

instance : Inhabited Table := ⟨{ num_bits := 0, groups := [] }⟩

/-- The fields of `struct Index`. -/
structure Index where
  w : Nat
  num_blocks : Nat
  codes : List Nat
  tables : List Table
  masks : List Nat
  begs : List Nat
deriving DecidableEq

/-- The mask of block `b` in the build loop of `Index::with_blocks`:
`u64::MAX` when the block spans 64 bits, else `(1 << dim) - 1`. -/
def maskFor (dim : Nat) : Nat := if dim = 64 then 2 ^ 64 - 1 else (1 <<< dim) - 1

/-- `begs[b]` after the build loop: the sum of the dimensions of the
blocks before `b` (`begs[b + 1] = begs[b] + (b + w) / m`). -/
def begAt (w m : Nat) : Nat → Nat
  | 0 => 0
  | b + 1 => begAt w m b + (b + w) / m

/-- The `masks` vector of the built index. -/
def masksList (w m : Nat) : List Nat := (List.range m).map (fun b => maskFor ((b + w) / m))

/-- The `begs` vector of the built index. -/
def begsList (w m : Nat) : List Nat := (List.range (m + 1)).map (begAt w m)

/-- The chunk of `code` for block `b` during the build loop. -/
def chunkAt (w m code b : Nat) : Nat := (code >>> begAt w m b) &&& maskFor ((b + w) / m)

/-- The construction of the `b`-th block table in `Index::with_blocks`:
`Table::new` on the block's bit count, then `count_insert` for every code
and `data_insert` for every (code, id) pair. -/
def buildTable (w m : Nat) (codes : List Nat) (b : Nat) : Except MihError Table :=
  (Table.new ((b + w) / m)).map (fun t0 =>
    let cs := codes.map (fun c => chunkAt w m c b)
    dataAll (countAll t0 cs) (cs.zip (List.range codes.length)))

/-- The table-building loop, propagating the first error. -/
def buildTables (w m : Nat) (codes : List Nat) : List Nat → Except MihError (List Table)
  | [] => .ok []
  | b :: bs =>
      match buildTable w m codes b, buildTables w m codes bs with
      | .ok t, .ok ts => .ok (t :: ts)
      | .error e, _ => .error e
      | .ok _, .error e => .error e

/-- `Index::with_blocks`. -/
def with_blocks (w : Nat) (codes : List Nat) (num_blocks : Nat) : Except MihError Index :=
  if codes.isEmpty then .error .emptyCodes
  else if 2 ^ 32 - 1 < codes.length then .error .tooManyCodes
  else if num_blocks < 2 ∨ w < num_blocks then .error .invalidBlocks
  else
    match buildTables w num_blocks codes (List.range num_blocks) with
    | .error e => .error e
    | .ok tables =>
        .ok { w := w, num_blocks := num_blocks, codes := codes, tables := tables,
              masks := masksList w num_blocks, begs := begsList w num_blocks }

/-- `Index::new`'s block estimate `(w as f64 / (N as f64).log2()).round() as usize`,
modeled over exact reals: for `N ≤ 1` the quotient is `+∞` (or the rounded
value is `0`, which the caller replaces by `2` with the same final result),
and the saturating `as usize` cast yields `usize::MAX`; for `N ≥ 2` the
rounded value is the least `k` with `4 ^ w < N ^ (2k + 1)`, which is
`round(w / log2 N)` with ties rounded away from zero exactly as
`f64::round` does.  (The `f64` computation agrees with the exact-real one
whenever the quotient is not within floating-point error of a half-integer;
every instance used below is far from such a boundary.) -/
def autoBlocks (w N : Nat) : Nat :=
  if N ≤ 1 then 2 ^ 64 - 1
  else ((List.range (w + 1)).filter (fun k => 4 ^ w < N ^ (2 * k + 1))).headD (w + 1)

/-- `Index::new`. -/
def indexNew (w : Nat) (codes : List Nat) : Except MihError Index :=
  let blocks := autoBlocks w codes.length
  if blocks < 2 then with_blocks w codes 2 else with_blocks w codes blocks

/-- `Index::get_dim`. -/
def Index.get_dim (I : Index) (b : Nat) : Nat := I.begs.getD (b + 1) 0 - I.begs.getD b 0

/-- `Index::get_chunk`. -/
def Index.get_chunk (I : Index) (code b : Nat) : Nat :=
  (code >>> I.begs.getD b 0) &&& I.masks.getD b 0

/-! #### `RangeSearcher::run` -/

/-- Fuel that always suffices for one generator enumeration
(`choose dim r ≤ 2 ^ 64` for every reachable `dim`, `r`). -/
def SIG_FUEL : Nat := 2 ^ 64

/-- The `(b, r)` schedule of the enumeration loops of `RangeSearcher::run`:
blocks `b` that pass the pigeonhole test `b + radius + 1 ≥ m`, each with
radii `0, …, (b + radius + 1 - m) / m`. -/
def rangeSchedule (m radius : Nat) : List (Nat × Nat) :=
  (List.range m).flatMap (fun b =>
    if b + radius + 1 < m then []
    else (List.range ((b + radius + 1 - m) / m + 1)).map (fun r => (b, r)))

/-- One enumeration `siggen.init(qcd, dim, r)` followed by the drain loop,
appending every id stored under an emitted signature; the generator state
is threaded exactly as the reused `siggen` field is. -/
def enumStep (I : Index) (qcode : Nat) (st : List Nat × SigGenerator64) (br : Nat × Nat) :
    List Nat × SigGenerator64 :=
  let res := sigRun SIG_FUEL (st.2.init (I.get_chunk qcode br.1) (I.get_dim br.1) br.2)
  (st.1 ++ res.1.flatMap (fun sig =>
      match (I.tables.getD br.1 default).access sig with
      | none => []
      | some a => a),
    res.2)

/-- The adjacent-deduplication of the final loop of `RangeSearcher::run`
(keep `a[i]` iff `i = 0` or `a[i-1] ≠ a[i]`, with `a[i-1]` the original
previous element). -/
def dedupAdjAux (prev : Nat) : List Nat → List Nat
  | [] => []
  | x :: xs => if prev = x then dedupAdjAux x xs else x :: dedupAdjAux x xs

def dedupAdj : List Nat → List Nat
  | [] => []
  | x :: xs => x :: dedupAdjAux x xs

/-- `RangeSearcher::run`, with the incoming scratch state (`answers`
buffer `ans0`, generator `g0`) made explicit; it returns the slice
contents together with the final scratch state (the buffer holds exactly
the returned ids after the run).  `answers.clear()` is `ans0.take 0`;
`sort_unstable` is modeled by `insertionSort` (on `Nat` keys any correct
sort produces the same list); the in-place dedup/compaction loop is
modeled by `dedupAdj` + `filter`, which is faithful because every
compaction write lands at a position at most the next read position and
is the identity write when they coincide. -/
def rangeRun (I : Index) (qcode radius : Nat) (ans0 : List Nat) (g0 : SigGenerator64) :
    List Nat × SigGenerator64 :=
  let st := (rangeSchedule I.num_blocks radius).foldl (enumStep I qcode) (ans0.take 0, g0)
  let sorted := st.1.insertionSort (· ≤ ·)
  ((dedupAdj sorted).filter (fun i => hamdist qcode (I.codes.getD i 0) ≤ radius), st.2)

/-! #### The linear-scan oracle (`src/ls.rs`) -/

/-- `ls::range_search` (via `range_search_with_buf`): the ids whose codes
are within `radius` of `qcode`, in increasing id order. -/
def ls_range_search (codes : List Nat) (qcode radius : Nat) : List Nat :=
  (List.range codes.length).filter (fun i => hamdist (codes.getD i 0) qcode ≤ radius)

/-- `ls::exhaustive_search`: every (id, distance) pair in id order. -/
def ls_exhaustive_search (codes : List Nat) (qcode : Nat) : List (Nat × Nat) :=
  (List.range codes.length).map (fun i => (i, hamdist (codes.getD i 0) qcode))

/-! #### `TopkSearcher::run` -/

/-- The mutable state of the top-K sweep: the `answers` buffer (holding the
per-distance rows of width `topk`), the `checked` set (a `HashSet`, modeled
as the list of inserted ids), the `counts` array and the running count
`n`. -/
structure TopkState where
  answers : List Nat
  checked : List Nat
  counts : List Nat
  n : Nat
deriving DecidableEq

/-- Processing one candidate id `v` in the enumeration loop of
`TopkSearcher::run`. -/
def topkVisit (I : Index) (qcode topk : Nat) (st : TopkState) (v : Nat) : TopkState :=
  if v ∈ st.checked then st
  else
    let dist := hamdist qcode (I.codes.getD v 0)
    let answers' := if st.counts.getD dist 0 < topk
      then st.answers.set (dist * topk + st.counts.getD dist 0) v
      else st.answers
    { answers := answers',
      checked := v :: st.checked,
      counts := st.counts.set dist (st.counts.getD dist 0 + 1),
      n := st.n }

/-- One block `b` of a sweep round: enumerate the signatures at radius `r`
and visit every id found. -/
def topkBlock (I : Index) (qcode topk r : Nat) (st : TopkState × SigGenerator64) (b : Nat) :
    TopkState × SigGenerator64 :=
  let res := sigRun SIG_FUEL (st.2.init (I.get_chunk qcode b) (I.get_dim b) r)
  let ids := res.1.flatMap (fun sig =>
    match (I.tables.getD b default).access sig with
    | none => []
    | some a => a)
  (ids.foldl (topkVisit I qcode topk) st.1, res.2)

/-- The inner `for b` loop of a sweep round, including the
`n += counts[r * num_blocks + b]` accumulation (whose out-of-bounds read
panics in Rust, modeled by `none`) and the early `break`. -/
def topkRound (I : Index) (qcode topk r : Nat) :
    TopkState × SigGenerator64 → List Nat → Option (TopkState × SigGenerator64)
  | st, [] => some st
  | st, b :: bs =>
      let st1 := topkBlock I qcode topk r st b
      if r * I.num_blocks + b < st1.1.counts.length then
        let n' := st1.1.n + st1.1.counts.getD (r * I.num_blocks + b) 0
        let st2 := ({ st1.1 with n := n' }, st1.2)
        if topk ≤ n' then some st2
        else topkRound I qcode topk r st2 bs
      else none

/-- The outer `while n < topk` sweep, with explicit fuel (the loop is
bounded by `w + 2` rounds whenever it terminates at all; exhausted fuel,
like a panic, yields `none`). -/
def topkSweep (I : Index) (qcode topk : Nat) :
    Nat → Nat → TopkState × SigGenerator64 → Option (TopkState × SigGenerator64)
  | 0, _, _ => none
  | fuel + 1, r, st =>
      if st.1.n < topk then
        match topkRound I qcode topk r st (List.range I.num_blocks) with
        | none => none
        | some st' => topkSweep I qcode topk fuel (r + 1) st'
      else some st

/-- The final compaction loop of `TopkSearcher::run`: it copies, for
`r = 0, 1, …`, the first `counts[r]` entries of row `r` (stopping as soon
as `topk` ids are collected); reading `counts[r]` past the array panics
(`none`).  The in-place copy reads only cells not yet overwritten: within
row 0 every write is the identity, and for `r ≥ 1` all writes land below
`r * topk`. -/
def topkAssemble (topk : Nat) (answers counts : List Nat) :
    Nat → Nat → Nat → Option (List Nat)
  | 0, _, _ => none
  | fuel + 1, n, r =>
      if n < topk then
        if r < counts.length then
          let c := min (counts.getD r 0) (topk - n)
          match topkAssemble topk answers counts fuel (n + c) (r + 1) with
          | none => none
          | some rest => some (((answers.drop (r * topk)).take c) ++ rest)
        else none
      else some []

/-- `TopkSearcher::run`, with the incoming scratch state explicit: the
result is the returned slice contents together with the outgoing scratch
(`answers` holds exactly the returned ids after the final resize,
`checked` the set of visited ids, and the generator state).  The initial
`answers.resize((nd + 1) * topk)` keeps the stale prefix of `ans0`;
`checked.clear()` is `checked0.take 0`. -/
def topkRun (I : Index) (qcode topk : Nat) (ans0 checked0 : List Nat)
    (g0 : SigGenerator64) : Option (List Nat × List Nat × SigGenerator64) :=
  let nd := I.w
  let st0 : TopkState :=
    { answers := resizeTo ans0 ((nd + 1) * topk),
      checked := checked0.take 0,
      counts := List.replicate (nd + 1) 0,
      n := 0 }
  match topkSweep I qcode topk (nd + 2) 0 (st0, g0) with
  | none => none
  | some st =>
      match topkAssemble topk st.1.answers st.1.counts (nd + 2) 0 0 with
      | none => none
      | some out => some (out, st.1.checked, st.2)

/-! #### Build characterization and C6 -/

theorem maskFor_eq (dim : Nat) : maskFor dim = 2 ^ dim - 1 := by
  rw [maskFor]
  rcases eq_or_ne dim 64 with rfl | h
  · rw [if_pos rfl]
  · rw [if_neg h, one_shiftLeft]

theorem buildTable_ok (w m : Nat) (codes : List Nat) (b : Nat) (hm0 : 0 < m) (hm : m ≤ w) :
    buildTable w m codes b =
      .ok (dataAll (countAll
          { num_bits := (b + w) / m, groups := List.replicate (numGroups ((b + w) / m)) default }
          (codes.map (fun c => chunkAt w m c b)))
        ((codes.map (fun c => chunkAt w m c b)).zip (List.range codes.length))) := by
  have hd : (b + w) / m ≠ 0 := by
    have h1 : m ≤ b + w := by omega
    have := Nat.one_le_div_iff hm0 |>.mpr h1
    omega
  rw [buildTable, Table.new, if_neg hd]
  rfl

theorem buildTables_spec (w m : Nat) (codes : List Nat) :
    ∀ (bs : List Nat) (ts : List Table), buildTables w m codes bs = .ok ts →
      ts.length = bs.length ∧ ∀ i, i < bs.length →
        buildTable w m codes (bs.getD i 0) = .ok (ts.getD i default) := by
  intro bs
  induction bs with
  | nil =>
      intro ts hts
      cases hts
      exact ⟨rfl, fun i hi => by simp at hi⟩
  | cons b bs ih =>
      intro ts hts
      rw [buildTables] at hts
      rcases hb : buildTable w m codes b with e | t
      · rw [hb] at hts
        exact Except.noConfusion hts
      · rcases hbs : buildTables w m codes bs with e | ts'
        · rw [hb, hbs] at hts
          exact Except.noConfusion hts
        · rw [hb, hbs] at hts
          cases hts
          obtain ⟨hlen, hspec⟩ := ih ts' hbs
          refine ⟨by simp [hlen], ?_⟩
          intro i hi
          cases i with
          | zero =>
              rw [List.getD_cons_zero]
              show buildTable w m codes b = Except.ok ((t :: ts').getD 0 default)
              rw [hb]
              rfl
          | succ i =>
              rw [List.getD_cons_succ]
              show buildTable w m codes (bs.getD i 0) = Except.ok ((t :: ts').getD (i + 1) default)
              rw [hspec i (by simpa using hi)]
              rfl

theorem buildTables_ok (w m : Nat) (codes : List Nat) (hm0 : 0 < m) (hm : m ≤ w) :
    ∀ bs : List Nat, ∃ ts, buildTables w m codes bs = .ok ts := by
  intro bs
  induction bs with
  | nil => exact ⟨[], rfl⟩
  | cons b bs ih =>
      obtain ⟨ts, hts⟩ := ih
      exact ⟨_, by rw [buildTables, buildTable_ok w m codes b hm0 hm, hts]⟩

/-- The full behavioral characterization of `Index::with_blocks`. -/
theorem with_blocks_spec (w : Nat) (codes : List Nat) (m : Nat) :
    ((∃ e, with_blocks w codes m = Except.error e) ↔
      (codes = [] ∨ 2 ^ 32 - 1 < codes.length ∨ m < 2 ∨ w < m)) ∧
    (∀ I', with_blocks w codes m = Except.ok I' →
      I'.w = w ∧ I'.num_blocks = m ∧ I'.codes = codes ∧
      I'.masks = masksList w m ∧ I'.begs = begsList w m ∧
      I'.tables.length = m ∧
      (∀ b, b < m → ∃ t0, Table.new ((b + w) / m) = Except.ok t0 ∧
        I'.tables.getD b default =
          dataAll (countAll t0 (codes.map (fun c => chunkAt w m c b)))
            ((codes.map (fun c => chunkAt w m c b)).zip (List.range codes.length)))) := by
  constructor
  · constructor
    · intro ⟨e, he⟩
      by_contra hnone
      push_neg at hnone
      obtain ⟨h1, h2, h3, h4⟩ := hnone
      rw [with_blocks, if_neg (by simp [h1]), if_neg (by omega),
        if_neg (by push_neg; omega)] at he
      obtain ⟨ts, hts⟩ := buildTables_ok w m codes (by omega) (by omega) (List.range m)
      rw [hts] at he
      exact Except.noConfusion he
    · intro h
      by_cases h1 : codes.isEmpty = true
      · exact ⟨.emptyCodes, by rw [with_blocks, if_pos h1]⟩
      · by_cases h2 : 2 ^ 32 - 1 < codes.length
        · exact ⟨.tooManyCodes, by rw [with_blocks, if_neg h1, if_pos h2]⟩
        · have h3 : m < 2 ∨ w < m := by
            rcases h with h | h | h | h
            · exact absurd (List.isEmpty_iff.mpr h) h1
            · exact absurd h h2
            · exact Or.inl h
            · exact Or.inr h
          exact ⟨.invalidBlocks, by rw [with_blocks, if_neg h1, if_neg h2, if_pos h3]⟩
  · intro I' hI'
    rw [with_blocks] at hI'
    by_cases h1 : codes.isEmpty = true
    · rw [if_pos h1] at hI'
      exact Except.noConfusion hI'
    · rw [if_neg h1] at hI'
      by_cases h2 : 2 ^ 32 - 1 < codes.length
      · rw [if_pos h2] at hI'
        exact Except.noConfusion hI'
      · rw [if_neg h2] at hI'
        by_cases h3 : m < 2 ∨ w < m
        · rw [if_pos h3] at hI'
          exact Except.noConfusion hI'
        · rw [if_neg h3] at hI'
          push_neg at h3
          rcases hts : buildTables w m codes (List.range m) with e | ts
          · rw [hts] at hI'
            exact Except.noConfusion hI'
          · rw [hts] at hI'
            cases hI'
            obtain ⟨hlen, hspec⟩ := buildTables_spec w m codes (List.range m) ts hts
            refine ⟨rfl, rfl, rfl, rfl, rfl, by rw [hlen, List.length_range], ?_⟩
            intro b hb
            have hbt := hspec b (by rw [List.length_range]; exact hb)
            have hgb : (List.range m).getD b 0 = b := by
              rw [List.getD_eq_getElem?_getD, List.getElem?_range hb]
              rfl
            rw [hgb, buildTable_ok w m codes b (by omega) (by omega)] at hbt
            have ht0 : Table.new ((b + w) / m) = Except.ok
                { num_bits := (b + w) / m,
                  groups := List.replicate (numGroups ((b + w) / m)) default } := by
              rw [Table.new, if_neg (by
                have h4 : m ≤ b + w := by omega
                have h5 := Nat.one_le_div_iff (by omega : 0 < m) |>.mpr h4
                omega)]
              rfl
            refine ⟨_, ht0, ?_⟩
            show ts.getD b default = _
            injection hbt with h
            exact h.symm

/-- C6: `Index::with_blocks(codes, m)` errs exactly when the database is
empty, has more than `2^32 - 1` entries, or `m` is outside `[2, w]`; the
`Result` type means no partial index escapes on an error, and on success
every field of the index is fully built (each block table by the
two-phase `count_insert`/`data_insert` construction on that block's
sub-codes). -/
theorem with_blocks_C6 (w : Nat) (codes : List Nat) (m : Nat) :
    ((∃ e, with_blocks w codes m = Except.error e) ↔
      (codes = [] ∨ 2 ^ 32 - 1 < codes.length ∨ m < 2 ∨ w < m)) ∧
    (∀ I', with_blocks w codes m = Except.ok I' →
      I'.w = w ∧ I'.num_blocks = m ∧ I'.codes = codes ∧
      I'.masks = masksList w m ∧ I'.begs = begsList w m ∧
      I'.tables.length = m ∧
      (∀ b, b < m → ∃ t0, Table.new ((b + w) / m) = Except.ok t0 ∧
        I'.tables.getD b default =
          dataAll (countAll t0 (codes.map (fun c => chunkAt w m c b)))
            ((codes.map (fun c => chunkAt w m c b)).zip (List.range codes.length)))) :=
  with_blocks_spec w codes m

theorem with_blocks_C6_witness :
    (¬ ∃ e, with_blocks 8 [1, 2] 2 = Except.error e) ∧
    (∃ e, with_blocks 8 [1, 2] 1 = Except.error e) := by
  constructor
  · intro h
    exact absurd ((with_blocks_C6 8 [1, 2] 2).1.mp h) (by decide)
  · exact (with_blocks_C6 8 [1, 2] 1).1.mpr (by decide)

/-! #### C8: `Index::new` on a single-code database -/

/-- C8 is refuted: for a database with a single code, `Index::new` FAILS
instead of building an index.  `N = 1` makes `num_codes.log2() = 0.0`,
so `dimensions / log2 = +∞`, whose rounded saturating cast `as usize` is
`usize::MAX`; `with_blocks` then rejects `num_blocks = usize::MAX > w`
with the invalid-blocks error.  Hence neither search can return `[0]`:
no index is produced at all (code bug). -/
theorem indexNew_C8 : ∀ w c : Nat, w < 2 ^ 64 - 1 →
    indexNew w [c] = Except.error MihError.invalidBlocks := by
  intro w c hw
  rw [indexNew]
  show (if autoBlocks w [c].length < 2 then with_blocks w [c] 2
    else with_blocks w [c] (autoBlocks w [c].length)) = _
  have hab : autoBlocks w [c].length = 2 ^ 64 - 1 := by
    rw [autoBlocks, if_pos (by simp)]
  rw [hab, if_neg (by norm_num), with_blocks, if_neg (by simp),
    if_neg (by simp), if_pos (Or.inr hw)]

theorem indexNew_C8_witness :
    (64 < 2 ^ 64 - 1) ∧ indexNew 64 [0] = Except.error MihError.invalidBlocks :=
  ⟨by norm_num, indexNew_C8 64 0 (by norm_num)⟩

/-! #### The pigeonhole bound of the range searcher -/

theorem sum_div_indicator (m s : Nat) (hm : 0 < m) (hs : s < m) :
    ((List.range m).map (fun b => (b + s) / m)).sum = s := by
  have hsplit : List.range m = List.range' 0 (m - s) ++ List.range' (m - s) s := by
    have happ := List.range'_append 0 (m - s) s 1
    simp at happ
    have hms : s + (m - s) = m := by omega
    rw [hms] at happ
    rw [List.range_eq_range', happ]
  rw [hsplit, List.map_append, List.sum_append]
  have hlow : (List.range' 0 (m - s)).map (fun b => (b + s) / m) =
      List.replicate (m - s) 0 := by
    have hc : ∀ b ∈ List.range' 0 (m - s), (b + s) / m = 0 := by
      intro b hb
      rw [List.mem_range'] at hb
      obtain ⟨i, hi, rfl⟩ := hb
      exact Nat.div_eq_of_lt (by omega)
    rw [List.map_congr_left hc]
    rw [show (fun _ : Nat => (0 : Nat)) = Function.const Nat 0 from rfl, List.map_const,
      List.length_range']
  have hhigh : (List.range' (m - s) s).map (fun b => (b + s) / m) =
      List.replicate s 1 := by
    have hc : ∀ b ∈ List.range' (m - s) s, (b + s) / m = 1 := by
      intro b hb
      rw [List.mem_range'] at hb
      obtain ⟨i, hi, rfl⟩ := hb
      have h1 : m ≤ m - s + 1 * i + s := by omega
      rw [Nat.div_eq_sub_div hm h1, Nat.div_eq_of_lt (by omega)]
    rw [List.map_congr_left hc]
    rw [show (fun _ : Nat => (1 : Nat)) = Function.const Nat 1 from rfl, List.map_const,
      List.length_range']
  rw [hlow, hhigh, List.sum_replicate, List.sum_replicate]
  simp

/-- `Σ_{b < m} (b + t) / m = t`. -/
theorem hermite (m : Nat) (hm : 0 < m) (t : Nat) :
    ((List.range m).map (fun b => (b + t) / m)).sum = t := by
  have hdm := Nat.div_add_mod t m
  have hc : ∀ b ∈ List.range m, (b + t) / m = (b + t % m) / m + t / m := by
    intro b _
    have hb : b + t = (b + t % m) + m * (t / m) := by omega
    rw [hb, Nat.add_mul_div_left _ _ hm]
  rw [List.map_congr_left hc, List.sum_map_add]
  rw [sum_div_indicator m (t % m) hm (Nat.mod_lt _ hm)]
  have hconst : (List.range m).map (fun _ => t / m) = List.replicate m (t / m) := by
    rw [show (fun _ : Nat => t / m) = Function.const Nat (t / m) from rfl, List.map_const,
      List.length_range]
  rw [hconst, List.sum_replicate, smul_eq_mul]
  omega

/-- The generalized pigeonhole principle behind the block filter of
`RangeSearcher::run`: if the block distances sum to at most `radius`,
some unskipped block `b` has distance at most `(b + radius + 1 - m) / m`. -/
theorem pigeonhole (m radius : Nat) (hm : 0 < m) (f : Nat → Nat)
    (hsum : ((List.range m).map f).sum ≤ radius) :
    ∃ b, b < m ∧ ¬(b + radius + 1 < m) ∧ f b ≤ (b + radius + 1 - m) / m := by
  by_contra hno
  push_neg at hno
  have hterm : ∀ b ∈ List.range m, (b + (radius + 1)) / m ≤ f b := by
    intro b hb
    rw [List.mem_range] at hb
    rcases Nat.lt_or_ge (b + radius + 1) m with hlt | hge
    · rw [show b + (radius + 1) = b + radius + 1 from rfl, Nat.div_eq_of_lt hlt]
      omega
    · have hb2 := hno b hb (by omega)
      have hdiv : (b + (radius + 1)) / m = (b + radius + 1 - m) / m + 1 := by
        rw [show b + (radius + 1) = b + radius + 1 from rfl, Nat.div_eq_sub_div hm hge]
      omega
  have hle := List.sum_le_sum hterm
  rw [hermite m hm (radius + 1)] at hle
  omega

/-! #### Block decomposition of the Hamming distance -/

theorem hamdist_comm (x y : Nat) : hamdist x y = hamdist y x := by
  rw [hamdist, hamdist, Nat.xor_comm]

/-- Splitting off the first block of a popcount sum. -/
theorem popcnt_chunk_step (x s d : Nat) :
    popcnt (x / 2 ^ s) = popcnt (x / 2 ^ s % 2 ^ d) + popcnt (x / 2 ^ (s + d)) := by
  rw [popcnt_split d (x / 2 ^ s), Nat.div_div_eq_div_mul, ← Nat.pow_add]
  omega

/-- `chunkAt` in divide/mod form. -/
theorem chunkAt_eq_mod (w m code b : Nat) :
    chunkAt w m code b = code / 2 ^ begAt w m b % 2 ^ ((b + w) / m) := by
  rw [chunkAt, maskFor_eq, Nat.shiftRight_eq_div_pow, Nat.and_pow_two_sub_one_eq_mod]

theorem chunkAt_lt (w m code b : Nat) : chunkAt w m code b < 2 ^ ((b + w) / m) := by
  rw [chunkAt_eq_mod]
  exact Nat.mod_lt _ (by positivity)

/-- `chunkAt` commutes with xor. -/
theorem chunkAt_xor (w m x y b : Nat) :
    chunkAt w m x b ^^^ chunkAt w m y b = chunkAt w m (x ^^^ y) b := by
  rw [chunkAt_eq_mod, chunkAt_eq_mod, chunkAt_eq_mod]
  refine Nat.eq_of_testBit_eq ?_
  intro i
  simp only [Nat.testBit_xor, Nat.testBit_mod_two_pow]
  rw [← Nat.shiftRight_eq_div_pow, ← Nat.shiftRight_eq_div_pow, ← Nat.shiftRight_eq_div_pow,
    Nat.testBit_shiftRight, Nat.testBit_shiftRight, Nat.testBit_shiftRight, Nat.testBit_xor]
  cases hd : decide (i < (b + w) / m) <;> simp

/-- The total width of the blocks is `w`. -/
theorem begAt_last (w m : Nat) (hm : 0 < m) : begAt w m m = w := by
  have h : ∀ k, k ≤ m → begAt w m k = ((List.range k).map (fun b => (b + w) / m)).sum := by
    intro k
    induction k with
    | zero => intro _; rfl
    | succ k ih =>
        intro hk
        rw [begAt, ih (by omega), List.range_succ, List.map_append, List.sum_append]
        simp
  rw [h m (le_refl m), hermite m hm w]

/-- The Hamming distance splits into per-block chunk distances. -/
theorem hamdist_blocks (w m x y : Nat) (hm : 0 < m) (hx : x < 2 ^ w) (hy : y < 2 ^ w) :
    ((List.range m).map (fun b => hamdist (chunkAt w m x b) (chunkAt w m y b))).sum =
      hamdist x y := by
  have hstep : ∀ b, hamdist (chunkAt w m x b) (chunkAt w m y b) =
      popcnt ((x ^^^ y) / 2 ^ begAt w m b) - popcnt ((x ^^^ y) / 2 ^ begAt w m (b + 1)) := by
    intro b
    rw [hamdist, chunkAt_xor, chunkAt_eq_mod]
    have h := popcnt_chunk_step (x ^^^ y) (begAt w m b) ((b + w) / m)
    have hb1 : begAt w m b + (b + w) / m = begAt w m (b + 1) := by
      rw [begAt]
    rw [hb1] at h
    omega
  -- telescoping sum
  have htel : ∀ k, k ≤ m →
      ((List.range k).map (fun b => hamdist (chunkAt w m x b) (chunkAt w m y b))).sum =
        popcnt (x ^^^ y) - popcnt ((x ^^^ y) / 2 ^ begAt w m k) := by
    intro k
    induction k with
    | zero =>
        intro _
        show (0 : Nat) = popcnt (x ^^^ y) - popcnt ((x ^^^ y) / 2 ^ begAt w m 0)
        rw [begAt]
        simp
    | succ k ih =>
        intro hk
        rw [List.range_succ, List.map_append, List.sum_append]
        rw [ih (by omega)]
        simp only [List.map_cons, List.map_nil, List.sum_cons, List.sum_nil]
        rw [hstep k]
        -- monotonicity of the tail popcounts
        have hmono : popcnt ((x ^^^ y) / 2 ^ begAt w m (k + 1)) ≤
            popcnt ((x ^^^ y) / 2 ^ begAt w m k) := by
          have hh := popcnt_chunk_step (x ^^^ y) (begAt w m k) ((k + w) / m)
          have hb1 : begAt w m k + (k + w) / m = begAt w m (k + 1) := by
            rw [begAt]
          rw [hb1] at hh
          omega
        have hmono2 : popcnt ((x ^^^ y) / 2 ^ begAt w m k) ≤ popcnt (x ^^^ y) := by
          have hh := popcnt_split (begAt w m k) (x ^^^ y)
          omega
        omega
  have hfin := htel m (le_refl m)
  rw [begAt_last w m hm] at hfin
  have hzero : (x ^^^ y) / 2 ^ w = 0 := by
    have hxy : x ^^^ y < 2 ^ w := Nat.xor_lt_two_pow hx hy
    exact Nat.div_eq_of_lt hxy
  rw [hzero, popcnt_zero] at hfin
  rw [hamdist]
  omega

/-! #### Candidate enumeration of the range searcher -/

theorem zip_range_eq (cs : List Nat) :
    cs.zip (List.range cs.length) = (List.range cs.length).map (fun i => (cs.getD i 0, i)) := by
  refine List.ext_getElem? ?_
  intro i
  rcases Nat.lt_or_ge i cs.length with hi | hi
  · rw [List.getElem?_map, List.getElem?_range hi,
      List.getElem?_eq_getElem (by rw [List.length_zip, List.length_range]; omega)]
    rw [List.getElem_zip, List.getElem_range, Option.map_some', List.getD_eq_getElem _ _ hi]
  · rw [List.getElem?_eq_none (by rw [List.length_zip, List.length_range]; omega),
      List.getElem?_eq_none (by rw [List.length_map, List.length_range]; omega)]

/-- Membership in a built slot list: `v` has sub-code `sig`. -/
theorem mem_slot (cs : List Nat) (v sig : Nat) :
    v ∈ ((cs.zip (List.range cs.length)).filter (fun p => p.1 = sig)).map Prod.snd ↔
      v < cs.length ∧ cs.getD v 0 = sig := by
  rw [zip_range_eq]
  constructor
  · intro hv
    obtain ⟨p, hp, rfl⟩ := List.mem_map.mp hv
    rw [List.mem_filter] at hp
    obtain ⟨hpz, hps⟩ := hp
    obtain ⟨i, hi, rfl⟩ := List.mem_map.mp hpz
    rw [List.mem_range] at hi
    exact ⟨hi, of_decide_eq_true hps⟩
  · intro ⟨hv, hsig⟩
    refine List.mem_map.mpr ⟨(cs.getD v 0, v), ?_, rfl⟩
    rw [List.mem_filter]
    exact ⟨List.mem_map.mpr ⟨v, List.mem_range.mpr hv, rfl⟩, decide_eq_true hsig⟩

/-- The list a single `init`/drain enumeration emits does not depend on
the incoming generator state (every state component it reads is written
by `init`). -/
theorem sigList_init_irrel (d r base fuel : Nat) (g g' : SigGenerator64) (h : r ≤ d) :
    sigList fuel (g.init base d r) = sigList fuel (g'.init base d r) := by
  rcases Nat.eq_zero_or_pos r with rfl | hr
  · cases fuel with
    | zero => rfl
    | succ fuel =>
        rw [(sigList_radius_zero d base fuel g).1, (sigList_radius_zero d base fuel g').1]
  · rw [sigList_init_orbit d r base fuel g hr h, sigList_init_orbit d r base fuel g' hr h]

/-- The ids one `(b, r)` enumeration contributes, as a pure function. -/
def candsOf (I : Index) (qcode : Nat) (br : Nat × Nat) : List Nat :=
  (sigList SIG_FUEL (SigGenerator64.new.init (I.get_chunk qcode br.1) (I.get_dim br.1)
    br.2)).flatMap (fun sig =>
      match (I.tables.getD br.1 default).access sig with
      | none => []
      | some a => a)

theorem enum_fold (I : Index) (qcode : Nat) :
    ∀ (sched : List (Nat × Nat)), (∀ br ∈ sched, br.2 ≤ I.get_dim br.1) →
      ∀ (l0 : List Nat) (g0 : SigGenerator64),
        (sched.foldl (enumStep I qcode) (l0, g0)).1 = l0 ++ sched.flatMap (candsOf I qcode) := by
  intro sched
  induction sched with
  | nil =>
      intro _ l0 g0
      simp
  | cons br rest ih =>
      intro hdim l0 g0
      show (rest.foldl (enumStep I qcode) (enumStep I qcode (l0, g0) br)).1 = _
      have hstep : enumStep I qcode (l0, g0) br =
          (l0 ++ candsOf I qcode br,
            (sigRun SIG_FUEL (g0.init (I.get_chunk qcode br.1) (I.get_dim br.1) br.2)).2) := by
        rw [enumStep, candsOf]
        have hirr := sigList_init_irrel (I.get_dim br.1) br.2 (I.get_chunk qcode br.1)
          SIG_FUEL g0 SigGenerator64.new (hdim br (List.mem_cons_self _ _))
        rw [show (sigRun SIG_FUEL (g0.init (I.get_chunk qcode br.1) (I.get_dim br.1)
          br.2)).1 = sigList SIG_FUEL (g0.init (I.get_chunk qcode br.1) (I.get_dim br.1)
          br.2) from rfl, hirr]
      rw [hstep, ih (fun q hq => hdim q (List.mem_cons_of_mem _ hq)), List.flatMap_cons,
        List.append_assoc]

/-! #### The dedup loop -/

theorem dedupAdjAux_subset (v : Nat) : ∀ (l : List Nat) (prev : Nat),
    v ∈ dedupAdjAux prev l → v ∈ l := by
  intro l
  induction l with
  | nil => intro prev h; exact absurd h (by simp [dedupAdjAux])
  | cons x xs ih =>
      intro prev h
      rw [dedupAdjAux] at h
      rcases eq_or_ne prev x with rfl | hne
      · rw [if_pos rfl] at h
        exact List.mem_cons_of_mem _ (ih _ h)
      · rw [if_neg hne] at h
        rcases List.mem_cons.mp h with rfl | h2
        · exact List.mem_cons_self _ _
        · exact List.mem_cons_of_mem _ (ih _ h2)

theorem mem_dedupAdjAux_of_mem (v : Nat) : ∀ (l : List Nat) (prev : Nat),
    v ∈ l → v = prev ∨ v ∈ dedupAdjAux prev l := by
  intro l
  induction l with
  | nil => intro prev h; exact absurd h (by simp)
  | cons x xs ih =>
      intro prev h
      rw [dedupAdjAux]
      rcases List.mem_cons.mp h with rfl | h2
      · rcases eq_or_ne prev v with rfl | hne
        · exact Or.inl rfl
        · rw [if_neg hne]
          exact Or.inr (List.mem_cons_self _ _)
      · rcases ih x h2 with rfl | h3
        · rcases eq_or_ne prev v with rfl | hne
          · exact Or.inl rfl
          · rw [if_neg hne]
            exact Or.inr (List.mem_cons_self _ _)
        · rcases eq_or_ne prev x with rfl | hne
          · rw [if_pos rfl]
            exact Or.inr h3
          · rw [if_neg hne]
            exact Or.inr (List.mem_cons_of_mem _ h3)

theorem mem_dedupAdj (v : Nat) (l : List Nat) : v ∈ dedupAdj l ↔ v ∈ l := by
  cases l with
  | nil => rw [dedupAdj]
  | cons x xs =>
      rw [dedupAdj]
      constructor
      · intro h
        rcases List.mem_cons.mp h with rfl | h2
        · exact List.mem_cons_self _ _
        · exact List.mem_cons_of_mem _ (dedupAdjAux_subset v xs x h2)
      · intro h
        rcases List.mem_cons.mp h with rfl | h2
        · exact List.mem_cons_self _ _
        · rcases mem_dedupAdjAux_of_mem v xs x h2 with rfl | h3
          · exact List.mem_cons_self _ _
          · exact List.mem_cons_of_mem _ h3

theorem dedupAdjAux_sorted : ∀ (l : List Nat) (prev : Nat),
    List.Pairwise (· ≤ ·) l → (∀ x ∈ l, prev ≤ x) →
    List.Pairwise (· < ·) (dedupAdjAux prev l) ∧ ∀ v ∈ dedupAdjAux prev l, prev < v := by
  intro l
  induction l with
  | nil =>
      intro prev _ _
      rw [dedupAdjAux]
      exact ⟨List.Pairwise.nil, by simp⟩
  | cons x xs ih =>
      intro prev hsort hge
      rw [List.pairwise_cons] at hsort
      obtain ⟨hx, hxs⟩ := hsort
      rw [dedupAdjAux]
      rcases eq_or_ne prev x with rfl | hne
      · obtain ⟨hp, hgt⟩ := ih prev hxs hx
        rw [if_pos rfl]
        exact ⟨hp, hgt⟩
      · have hplt : prev < x := by
          have := hge x (List.mem_cons_self _ _)
          omega
        obtain ⟨hp, hgt⟩ := ih x hxs hx
        rw [if_neg hne]
        refine ⟨List.pairwise_cons.mpr ⟨hgt, hp⟩, ?_⟩
        intro v hv
        rcases List.mem_cons.mp hv with rfl | h2
        · exact hplt
        · have := hgt v h2
          omega

theorem dedupAdj_sorted (l : List Nat) (h : List.Pairwise (· ≤ ·) l) :
    List.Pairwise (· < ·) (dedupAdj l) := by
  cases l with
  | nil => exact List.Pairwise.nil
  | cons x xs =>
      rw [List.pairwise_cons] at h
      obtain ⟨hx, hxs⟩ := h
      rw [dedupAdj]
      obtain ⟨hp, hgt⟩ := dedupAdjAux_sorted xs x hxs hx
      exact List.pairwise_cons.mpr ⟨hgt, hp⟩

/-- Two strictly sorted lists with the same members are equal. -/
theorem sorted_lt_eq_of_mem : ∀ l1 l2 : List Nat, List.Pairwise (· < ·) l1 →
    List.Pairwise (· < ·) l2 → (∀ v, v ∈ l1 ↔ v ∈ l2) → l1 = l2 := by
  intro l1
  induction l1 with
  | nil =>
      intro l2 _ _ hmem
      cases l2 with
      | nil => rfl
      | cons b t2 => exact absurd ((hmem b).mpr (List.mem_cons_self _ _)) (by simp)
  | cons a t1 ih =>
      intro l2 h1 h2 hmem
      cases l2 with
      | nil => exact absurd ((hmem a).mp (List.mem_cons_self _ _)) (by simp)
      | cons b t2 =>
          rw [List.pairwise_cons] at h1 h2
          obtain ⟨ha, ht1⟩ := h1
          obtain ⟨hb, ht2⟩ := h2
          have hab : a = b := by
            rcases List.mem_cons.mp ((hmem a).mp (List.mem_cons_self _ _)) with h | h
            · exact h
            · rcases List.mem_cons.mp ((hmem b).mpr (List.mem_cons_self _ _)) with h' | h'
              · exact h'.symm
              · have := hb a h
                have := ha b h'
                omega
          subst hab
          congr 1
          refine ih t2 ht1 ht2 ?_
          intro v
          constructor
          · intro hv
            rcases List.mem_cons.mp ((hmem v).mp (List.mem_cons_of_mem _ hv)) with rfl | h
            · exact absurd (ha v hv) (by omega)
            · exact h
          · intro hv
            rcases List.mem_cons.mp ((hmem v).mpr (List.mem_cons_of_mem _ hv)) with rfl | h
            · exact absurd (hb v hv) (by omega)
            · exact h

/-! #### Field lookups of a built index -/

theorem begsList_getD (w m b : Nat) (hb : b ≤ m) :
    (begsList w m).getD b 0 = begAt w m b := by
  rw [begsList, List.getD_eq_getElem?_getD, List.getElem?_map,
    List.getElem?_range (by omega)]
  rfl

theorem masksList_getD (w m b : Nat) (hb : b < m) :
    (masksList w m).getD b 0 = maskFor ((b + w) / m) := by
  rw [masksList, List.getD_eq_getElem?_getD, List.getElem?_map, List.getElem?_range hb]
  rfl

theorem popcnt_eq_zero (n : Nat) : popcnt n = 0 ↔ n = 0 := by
  constructor
  · intro h
    by_contra hne
    induction n using Nat.strong_induction_on with
    | _ n ih =>
        rw [popcnt_rec] at h
        rcases eq_or_ne (n / 2) 0 with h2 | h2
        · omega
        · exact ih (n / 2) (by omega) (by omega) h2
  · intro h
    subst h
    exact popcnt_zero

theorem choose_le_two_pow (n k : Nat) : Nat.choose n k ≤ 2 ^ n := by
  rcases le_or_lt k n with hk | hk
  · have hsum := Nat.sum_range_choose n
    have hle : Nat.choose n k ≤ ∑ m ∈ Finset.range (n + 1), Nat.choose n m := by
      refine Finset.single_le_sum ?_ ?_
      · intro i _
        exact Nat.zero_le _
      · exact Finset.mem_range.mpr (by omega)
    omega
  · rw [Nat.choose_eq_zero_of_lt hk]
    exact Nat.zero_le _

/-! #### Properties of a successfully built index -/

instance : Inhabited Index :=
  ⟨{ w := 0, num_blocks := 0, codes := [], tables := [], masks := [], begs := [] }⟩

/-- The shape of an index produced by `Index::with_blocks`. -/
structure Built (w m : Nat) (codes : List Nat) (I : Index) : Prop where
  hw : I.w = w
  hm : I.num_blocks = m
  hcodes : I.codes = codes
  hmasks : I.masks = masksList w m
  hbegs : I.begs = begsList w m
  htlen : I.tables.length = m
  htab : ∀ b, b < m → ∃ t0, Table.new ((b + w) / m) = Except.ok t0 ∧
    I.tables.getD b default =
      dataAll (countAll t0 (codes.map (fun c => chunkAt w m c b)))
        ((codes.map (fun c => chunkAt w m c b)).zip (List.range codes.length))

theorem with_blocks_built (w : Nat) (codes : List Nat) (m : Nat) (I : Index)
    (hok : with_blocks w codes m = Except.ok I) : Built w m codes I := by
  obtain ⟨h1, h2, h3, h4, h5, h6, h7⟩ := (with_blocks_spec w codes m).2 I hok
  exact ⟨h1, h2, h3, h4, h5, h6, h7⟩

theorem with_blocks_valid (w : Nat) (codes : List Nat) (m : Nat) (I : Index)
    (hok : with_blocks w codes m = Except.ok I) :
    codes ≠ [] ∧ codes.length ≤ 2 ^ 32 - 1 ∧ 2 ≤ m ∧ m ≤ w := by
  by_contra hcon
  have hbad : codes = [] ∨ 2 ^ 32 - 1 < codes.length ∨ m < 2 ∨ w < m := by
    by_contra hb
    push_neg at hb
    exact hcon ⟨hb.1, by omega, by omega, by omega⟩
  obtain ⟨e, he⟩ := (with_blocks_spec w codes m).1.mpr hbad
  rw [hok] at he
  exact Except.noConfusion he

theorem built_get_dim (w m : Nat) (codes : List Nat) (I : Index) (hB : Built w m codes I)
    (b : Nat) (hb : b < m) : I.get_dim b = (b + w) / m := by
  rw [Index.get_dim, hB.hbegs, begsList_getD w m (b + 1) (by omega),
    begsList_getD w m b (by omega), begAt]
  exact Nat.add_sub_cancel_left _ _

theorem built_get_chunk (w m : Nat) (codes : List Nat) (I : Index) (hB : Built w m codes I)
    (q b : Nat) (hb : b < m) : I.get_chunk q b = chunkAt w m q b := by
  rw [Index.get_chunk, hB.hbegs, hB.hmasks, begsList_getD w m b (by omega),
    masksList_getD w m b hb, chunkAt]

theorem getD_map_chunk (codes : List Nat) (f : Nat → Nat) (v : Nat) (hv : v < codes.length) :
    (codes.map f).getD v 0 = f (codes.getD v 0) := by
  rw [List.getD_eq_getElem?_getD, List.getElem?_map,
    List.getElem?_eq_getElem hv, List.getD_eq_getElem _ _ hv]
  rfl

/-- Access into a block table of a built index. -/
theorem built_access (w m : Nat) (codes : List Nat) (I : Index) (hB : Built w m codes I)
    (hm0 : 0 < m) (hmw : m ≤ w) (b : Nat) (hb : b < m) (sig : Nat)
    (hsig : sig < 2 ^ ((b + w) / m)) :
    (I.tables.getD b default).access sig =
      (if (codes.map (fun c => chunkAt w m c b)).count sig = 0 then none
       else some ((((codes.map (fun c => chunkAt w m c b)).zip
         (List.range codes.length)).filter (fun p => p.1 = sig)).map Prod.snd)) := by
  obtain ⟨t0, ht0, htab⟩ := hB.htab b hb
  have hd0 : (b + w) / m ≠ 0 := by
    have h1 : m ≤ b + w := by omega
    have h2 := Nat.one_le_div_iff hm0 |>.mpr h1
    omega
  have hlen : codes.length = (codes.map (fun c => chunkAt w m c b)).length :=
    (List.length_map _ _).symm
  have hmem : ∀ p ∈ (codes.map (fun c => chunkAt w m c b)).zip
      (List.range codes.length), p.1 < 1 <<< ((b + w) / m) := by
    intro p hp
    have h1 : p.1 ∈ codes.map (fun c => chunkAt w m c b) := (List.mem_zip hp).1
    obtain ⟨c, _, hceq⟩ := List.mem_map.mp h1
    rw [← hceq, one_shiftLeft]
    exact chunkAt_lt w m c b
  have hfst : ((codes.map (fun c => chunkAt w m c b)).zip
      (List.range codes.length)).map Prod.fst = codes.map (fun c => chunkAt w m c b) :=
    List.map_fst_zip _ _ (by rw [List.length_range, List.length_map])
  have hacc := table_build_access ((b + w) / m) hd0
    ((codes.map (fun c => chunkAt w m c b)).zip (List.range codes.length)) t0 ht0
    hmem sig (by rw [one_shiftLeft]; exact hsig)
  rw [hfst] at hacc
  rw [htab]
  rw [hlen] at hacc ⊢
  exact hacc

/-- The ids contributed by one `(b, r)` enumeration of a built index are
exactly the ids whose block-`b` chunk is at Hamming distance `r` from the
query's. -/
theorem candsOf_mem (w m : Nat) (codes : List Nat) (I : Index) (hB : Built w m codes I)
    (hm0 : 0 < m) (hmw : m ≤ w) (hw64 : w ≤ 64) (q : Nat) (b r v : Nat) (hb : b < m)
    (hr : r ≤ (b + w) / m) :
    v ∈ candsOf I q (b, r) ↔ v < codes.length ∧
      hamdist (chunkAt w m (codes.getD v 0) b) (chunkAt w m q b) = r := by
  have hdim : I.get_dim (b, r).1 = (b + w) / m := built_get_dim w m codes I hB b hb
  have hchq : I.get_chunk q (b, r).1 = chunkAt w m q b := built_get_chunk w m codes I hB q b hb
  have hdle : (b + w) / m ≤ w := by
    have h1 : w ≤ m * w := Nat.le_mul_of_pos_left w (by omega)
    have h2 : b + w ≤ m - 1 + m * w := by omega
    calc (b + w) / m ≤ (m - 1 + m * w) / m := Nat.div_le_div_right h2
      _ = w := by
          rw [Nat.add_mul_div_left _ _ hm0, Nat.div_eq_of_lt (by omega)]
          omega
  have hqlt : chunkAt w m q b < 2 ^ ((b + w) / m) := chunkAt_lt w m q b
  have hmatch : ∀ sig, sig < 2 ^ ((b + w) / m) →
      ((v ∈ match (I.tables.getD b default).access sig with
        | none => [] | some a => a) ↔
        (v < codes.length ∧ chunkAt w m (codes.getD v 0) b = sig)) := by
    intro sig hsig
    rw [built_access w m codes I hB hm0 hmw b hb sig hsig]
    rcases eq_or_ne ((codes.map (fun c => chunkAt w m c b)).count sig) 0 with hc | hc
    · rw [if_pos hc]
      constructor
      · intro hmem
        exact absurd hmem (by simp)
      · intro ⟨hv, hchunk⟩
        have hmem : sig ∈ codes.map (fun c => chunkAt w m c b) := by
          refine List.mem_map.mpr ⟨codes.getD v 0, ?_, hchunk⟩
          rw [List.getD_eq_getElem _ _ hv]
          exact List.getElem_mem _
        rw [List.count_eq_zero] at hc
        exact absurd hmem hc
    · rw [if_neg hc]
      show v ∈ (((codes.map (fun c => chunkAt w m c b)).zip
        (List.range codes.length)).filter (fun p => p.1 = sig)).map Prod.snd ↔ _
      have hlen : (List.range codes.length) =
          List.range (codes.map (fun c => chunkAt w m c b)).length := by
        rw [List.length_map]
      rw [hlen, mem_slot]
      constructor
      · intro ⟨hv, hgd⟩
        rw [List.length_map] at hv
        rw [getD_map_chunk codes _ v hv] at hgd
        exact ⟨hv, hgd⟩
      · intro ⟨hv, hgd⟩
        refine ⟨by rw [List.length_map]; exact hv, ?_⟩
        rw [getD_map_chunk codes _ v hv]
        exact hgd
  rcases Nat.eq_zero_or_pos r with rfl | hrpos
  · -- radius 0: the generator emits exactly the query chunk
    have hlist : sigList SIG_FUEL (SigGenerator64.new.init (I.get_chunk q (b, 0).1)
        (I.get_dim (b, 0).1) 0) = [I.get_chunk q (b, 0).1] := by
      have hf : SIG_FUEL = (2 ^ 64 - 1) + 1 := by
        rw [SIG_FUEL]
        omega
      rw [hf]
      exact (sigList_radius_zero _ _ _ _).1
    rw [candsOf, hlist]
    rw [List.flatMap_cons, List.flatMap_nil, List.append_nil, hchq]
    rw [hmatch (chunkAt w m q b) hqlt]
    constructor
    · intro ⟨hv, hchunk⟩
      refine ⟨hv, ?_⟩
      rw [hchunk, hamdist, Nat.xor_self, popcnt_zero]
    · intro ⟨hv, hdist⟩
      refine ⟨hv, ?_⟩
      rw [hamdist] at hdist
      have hxz : chunkAt w m (codes.getD v 0) b ^^^ chunkAt w m q b = 0 :=
        (popcnt_eq_zero _).mp hdist
      exact Nat.xor_eq_zero.mp hxz
  · have hfuel : Nat.choose ((b + w) / m) r ≤ SIG_FUEL := by
      have h1 := choose_le_two_pow ((b + w) / m) r
      have h2 : (2 : Nat) ^ ((b + w) / m) ≤ 2 ^ 64 :=
        Nat.pow_le_pow_right (by norm_num) (by omega)
      rw [SIG_FUEL]
      omega
    have hmem := sigList_init_mem (I.get_dim (b, r).1) r (I.get_chunk q (b, r).1) SIG_FUEL
      SigGenerator64.new hrpos (by rw [hdim]; exact hr) (by rw [hdim, hchq]; exact hqlt)
      (by rw [hdim]; exact hfuel)
    rw [candsOf, List.mem_flatMap]
    constructor
    · intro ⟨sig, hsig, hv⟩
      rw [hmem sig, hdim, hchq] at hsig
      obtain ⟨hpc, hslt⟩ := hsig
      obtain ⟨hv', hchunk⟩ := (hmatch sig hslt).mp hv
      refine ⟨hv', ?_⟩
      rw [hamdist, hchunk]
      exact hpc
    · intro ⟨hv, hdist⟩
      refine ⟨chunkAt w m (codes.getD v 0) b, ?_, ?_⟩
      · rw [hmem _, hdim, hchq]
        exact ⟨by rw [← hamdist]; exact hdist, chunkAt_lt w m _ b⟩
      · exact (hmatch _ (chunkAt_lt w m _ b)).mpr ⟨hv, rfl⟩

/-! #### Range-search correctness (C1) -/

theorem mem_rangeSchedule (m radius b r : Nat) :
    (b, r) ∈ rangeSchedule m radius ↔
      b < m ∧ m ≤ b + radius + 1 ∧ r ≤ (b + radius + 1 - m) / m := by
  rw [rangeSchedule, List.mem_flatMap]
  constructor
  · intro ⟨b', hb', hmem⟩
    rw [List.mem_range] at hb'
    rcases Nat.lt_or_ge (b' + radius + 1) m with hskip | hok
    · rw [if_pos hskip] at hmem
      exact absurd hmem (List.not_mem_nil _)
    · rw [if_neg (by omega)] at hmem
      obtain ⟨r', hr', heq⟩ := List.mem_map.mp hmem
      rw [List.mem_range] at hr'
      have hbb : b' = b := congrArg Prod.fst heq
      have hrr : r' = r := congrArg Prod.snd heq
      subst hbb
      subst hrr
      exact ⟨hb', by omega, Nat.lt_succ_iff.mp hr'⟩
  · intro ⟨hb, hle, hr⟩
    refine ⟨b, List.mem_range.mpr hb, ?_⟩
    rw [if_neg (by omega)]
    exact List.mem_map.mpr ⟨r, List.mem_range.mpr (Nat.lt_succ_of_le hr), rfl⟩

/-- Every scheduled radius is at most the block dimension (`radius < w`
suffices). -/
theorem sched_r_le (m radius w b r : Nat) (hm0 : 0 < m) (hradw : radius < w)
    (h : (b, r) ∈ rangeSchedule m radius) : b < m ∧ r ≤ (b + w) / m := by
  obtain ⟨hb, hle, hr⟩ := (mem_rangeSchedule m radius b r).mp h
  have hmono : (b + radius + 1 - m) / m ≤ (b + w) / m :=
    Nat.div_le_div_right (by omega)
  exact ⟨hb, le_trans hr hmono⟩

/-- `RangeSearcher::run` returns exactly the linear-scan oracle's list on
any built index (any scratch state): candidate completeness is the
pigeonhole over block distances, then sort + dedup + distance filter pins
the list down. -/
theorem range_correct (w m : Nat) (codes : List Nat) (I : Index) (hB : Built w m codes I)
    (hm0 : 0 < m) (hmw : m ≤ w) (hw64 : w ≤ 64) (hcodes : ∀ c ∈ codes, c < 2 ^ w)
    (q : Nat) (hq : q < 2 ^ w) (radius : Nat) (hradw : radius < w)
    (ans0 : List Nat) (g0 : SigGenerator64) :
    (rangeRun I q radius ans0 g0).1 = ls_range_search codes q radius := by
  have hdim : ∀ br ∈ rangeSchedule I.num_blocks radius, br.2 ≤ I.get_dim br.1 := by
    intro br hbr
    obtain ⟨b, r⟩ := br
    rw [hB.hm] at hbr
    obtain ⟨hb, hr⟩ := sched_r_le m radius w b r hm0 hradw hbr
    rw [built_get_dim w m codes I hB b hb]
    exact hr
  have hfold := enum_fold I q (rangeSchedule I.num_blocks radius) hdim (ans0.take 0) g0
  rw [List.take_zero, List.nil_append] at hfold
  have hmem_cands : ∀ v, (v ∈ (rangeSchedule I.num_blocks radius).flatMap (candsOf I q) ∧
      hamdist (codes.getD v 0) q ≤ radius) ↔
      (v < codes.length ∧ hamdist (codes.getD v 0) q ≤ radius) := by
    intro v
    constructor
    · intro ⟨hvin, hd⟩
      refine ⟨?_, hd⟩
      obtain ⟨br, hbr, hvc⟩ := List.mem_flatMap.mp hvin
      obtain ⟨b, r⟩ := br
      rw [hB.hm] at hbr
      obtain ⟨hb, hr⟩ := sched_r_le m radius w b r hm0 hradw hbr
      exact ((candsOf_mem w m codes I hB hm0 hmw hw64 q b r v hb hr).mp hvc).1
    · intro ⟨hv, hd⟩
      refine ⟨?_, hd⟩
      have hcv : codes.getD v 0 < 2 ^ w := by
        refine hcodes _ ?_
        rw [List.getD_eq_getElem _ _ hv]
        exact List.getElem_mem _
      have hsum : ((List.range m).map (fun b =>
          hamdist (chunkAt w m (codes.getD v 0) b) (chunkAt w m q b))).sum ≤ radius := by
        rw [hamdist_blocks w m _ _ hm0 hcv hq]
        exact hd
      obtain ⟨b, hb, hnl, hfb⟩ := pigeonhole m radius hm0 _ hsum
      rw [hB.hm]
      refine List.mem_flatMap.mpr ⟨(b, hamdist (chunkAt w m (codes.getD v 0) b)
        (chunkAt w m q b)), ?_, ?_⟩
      · exact (mem_rangeSchedule m radius b _).mpr ⟨hb, by omega, hfb⟩
      · have hmono : (b + radius + 1 - m) / m ≤ (b + w) / m :=
          Nat.div_le_div_right (by omega)
        exact (candsOf_mem w m codes I hB hm0 hmw hw64 q b _ v hb
          (le_trans hfb hmono)).mpr ⟨hv, rfl⟩
  show (dedupAdj (((rangeSchedule I.num_blocks radius).foldl (enumStep I q)
      (ans0.take 0, g0)).1.insertionSort (· ≤ ·))).filter
      (fun i => hamdist q (I.codes.getD i 0) ≤ radius) = ls_range_search codes q radius
  rw [List.take_zero, hfold, hB.hcodes]
  have hrhs : ls_range_search codes q radius =
      (List.range codes.length).filter (fun i => hamdist (codes.getD i 0) q ≤ radius) := rfl
  rw [hrhs]
  refine sorted_lt_eq_of_mem _ _ ?_ ?_ ?_
  · exact List.Pairwise.filter _ (dedupAdj_sorted _ (List.sorted_insertionSort _ _))
  · exact List.Pairwise.filter _ (List.pairwise_lt_range _)
  · intro v
    rw [List.mem_filter, List.mem_filter, mem_dedupAdj,
      (List.perm_insertionSort _ _).mem_iff, List.mem_range]
    constructor
    · intro ⟨hvin, hp⟩
      have hd : hamdist (codes.getD v 0) q ≤ radius := by
        rw [hamdist_comm]
        exact of_decide_eq_true hp
      obtain ⟨hlt, _⟩ := (hmem_cands v).mp ⟨hvin, hd⟩
      exact ⟨hlt, decide_eq_true hd⟩
    · intro ⟨hlt, hp⟩
      have hd : hamdist (codes.getD v 0) q ≤ radius := of_decide_eq_true hp
      obtain ⟨hvin, _⟩ := (hmem_cands v).mpr ⟨hlt, hd⟩
      refine ⟨hvin, ?_⟩
      rw [hamdist_comm] at hd
      exact decide_eq_true hd

/-- **C1.** For every database of codes of a supported width (8/16/32/64
bits), every query code, and every radius in `[0, 6]`, the slice returned
by `RangeSearcher::run(q, r)` on an index built from that database equals
the vector returned by the linear-scan oracle `ls::range_search`: the
same ids, sorted ascending, with no duplicates. -/
theorem range_C1 (w : Nat) (hwsup : w = 8 ∨ w = 16 ∨ w = 32 ∨ w = 64)
    (codes : List Nat) (hcodes : ∀ c ∈ codes, c < 2 ^ w) (m : Nat) (I : Index)
    (hok : with_blocks w codes m = Except.ok I) (q : Nat) (hq : q < 2 ^ w)
    (radius : Nat) (hrad : radius ≤ 6) (ans0 : List Nat) (g0 : SigGenerator64) :
    (rangeRun I q radius ans0 g0).1 = ls_range_search codes q radius := by
  have hB := with_blocks_built w codes m I hok
  obtain ⟨hne, hlen, hm2, hmw⟩ := with_blocks_valid w codes m I hok
  have hw8 : 8 ≤ w := by rcases hwsup with rfl | rfl | rfl | rfl <;> omega
  have hw64 : w ≤ 64 := by rcases hwsup with rfl | rfl | rfl | rfl <;> omega
  exact range_correct w m codes I hB (by omega) hmw hw64 hcodes q hq radius (by omega)
    ans0 g0

/-- A concrete successfully built index (width 8, codes `[3, 5]`, two
blocks) for exercising the search theorems. -/
def witI : Index :=
  match with_blocks 8 [3, 5] 2 with
  | Except.ok I => I
  | Except.error _ => default

theorem range_C1_witness :
    (rangeRun witI 1 1 [] SigGenerator64.new).1 = ls_range_search [3, 5] 1 1 :=
  range_C1 8 (Or.inl rfl) [3, 5] (by decide) 2 witI (by rfl) 1 (by decide) 1 (by decide)
    [] SigGenerator64.new

/-! #### Top-K with K > N (C7) and the section-8 scenario (C9) -/

/-- A two-code index (width 8, `codes = [0, 1]`, two blocks) on which
`TopkSearcher::run` is asked for more neighbors than there are codes. -/
def witI7 : Index :=
  match with_blocks 8 [0, 1] 2 with
  | Except.ok I => I
  | Except.error _ => default

/-- **C7** is refuted: on the valid index built from `codes = [0, 1]`
(width 8, two blocks), `TopkSearcher::run(0, 3)` with `K = 3 > N = 2`
panics — the sweep can never collect 3 ids, so the round index
`r * num_blocks + b` runs past the end of `counts` (an out-of-bounds
read, modeled by `none`) instead of returning all `N` ids. -/
theorem topk_C7 :
    with_blocks 8 [0, 1] 2 = Except.ok witI7 ∧
    topkRun witI7 0 3 [] [] SigGenerator64.new = none :=
  ⟨rfl, rfl⟩

/-- The nine 64-bit codes of the specification's section-8 end-to-end
scenario (their Hamming distances to the all-ones query are
`[1, 3, 2, 4, 8, 1, 6, 2, 11]`). -/
def codes9 : List Nat := [
  0xFFFFFFFFFFFFEFFF,
  0b1111111111111111111111011111111111111111111111111011101111111111,
  0b1111111111111111111111111111111101111111111011111111111111111111,
  0b1111111011011101111111111111111101111111111111111111111111111111,
  0b1111111111111101111111111111111111111000111111111110001111111110,
  0b1101111111111111111111111111111111111111111111111111111111111111,
  0b1111111111111111101111111011111111111111111101001110111111111111,
  0b1111111111111111111111111111111111101111111111111111011111111111,
  0b1110110101011011011111111111111101111111111111111000011111111111]

/-- The index `Index::new(codes9)` builds (it auto-derives 20 blocks). -/
def I9 : Index :=
  match indexNew 64 codes9 with
  | Except.ok I => I
  | Except.error _ => default

set_option maxRecDepth 100000 in
/-- **C9** is corrected: on the section-8 database with the all-ones
query, `range_search(q, 2)` returns `[0, 2, 5, 7]` (the ids at distance
at most 2, matching the linear-scan oracle) — not the spec's `[1, 4, 6]`
(those ids are at distances 3, 8, 6) — and `topk_search(q, 4)` returns
`[0, 5, 2, 7]` (distances 1, 1, 2, 2), not the spec's `[4, 1, 6, 0]`. -/
theorem scenario_C9 :
    indexNew 64 codes9 = Except.ok I9 ∧
    (rangeRun I9 (2 ^ 64 - 1) 2 [] SigGenerator64.new).1 = [0, 2, 5, 7] ∧
    (topkRun I9 (2 ^ 64 - 1) 4 [] [] SigGenerator64.new).map (fun x => x.1) =
      some [0, 5, 2, 7] ∧
    ls_range_search codes9 (2 ^ 64 - 1) 2 = [0, 2, 5, 7] :=
  ⟨rfl, rfl, rfl, rfl⟩

set_option maxRecDepth 100000 in
/-- The outputs the specification's section-8 scenario predicts are not
the ones produced: `range_search(q, 2)` on the scenario database does not
return `[1, 4, 6]`, and `topk_search(q, 4)` does not return
`[4, 1, 6, 0]`. -/
theorem scenario_C9_counterexample :
    (rangeRun I9 (2 ^ 64 - 1) 2 [] SigGenerator64.new).1 ≠ [1, 4, 6] ∧
    (topkRun I9 (2 ^ 64 - 1) 4 [] [] SigGenerator64.new).map (fun x => x.1) ≠
      some [4, 1, 6, 0] := by
  have h1 : (rangeRun I9 (2 ^ 64 - 1) 2 [] SigGenerator64.new).1
      = [0, 2, 5, 7] := rfl
  have h2 : (topkRun I9 (2 ^ 64 - 1) 4 [] [] SigGenerator64.new).map
      (fun x => x.1) = some [0, 5, 2, 7] := rfl
  rw [h1, h2]
  exact ⟨by decide, by decide⟩

/-! #### Serialization (C5) -/

/-- `k` little-endian bytes of `x` (the inherent truncation to `2 ^ (8k)`
models the integer casts of the writers). -/
def leBytes : Nat → Nat → List Nat
  | 0, _ => []
  | k + 1, x => x % 256 :: leBytes k (x / 256)

def u64LE (x : Nat) : List Nat := leBytes 8 x

def u32LE (x : Nat) : List Nat := leBytes 4 x

/-- `CodeInt::serialize_into` of a `w`-bit code: `w / 8` LE bytes. -/
def codeLE (w x : Nat) : List Nat := leBytes (w / 8) x

/-- `Group::serialize_into`: the bitmap as a `u64`, the array length
`as u32` (a truncating cast), then each array element as a `u32`. -/
def serGroup (g : Group) : List Nat :=
  u64LE g.bitmap ++ u32LE g.array.length ++ g.array.flatMap u32LE

/-- `Table::serialize_into`. -/
def serTable (t : Table) : List Nat :=
  u64LE t.num_bits ++ u64LE t.groups.length ++ t.groups.flatMap serGroup

/-- `Index::serialize_into`. -/
def serIndex (w : Nat) (I : Index) : List Nat :=
  u64LE I.num_blocks ++
  u64LE I.codes.length ++ I.codes.flatMap (codeLE w) ++
  u64LE I.tables.length ++ I.tables.flatMap serTable ++
  u64LE I.masks.length ++ I.masks.flatMap (codeLE w) ++
  u64LE I.begs.length ++ I.begs.flatMap u64LE

/-- Read `k` little-endian bytes from the stream (EOF is `none`). -/
def rdLE : Nat → List Nat → Option (Nat × List Nat)
  | 0, s => some (0, s)
  | _ + 1, [] => none
  | k + 1, b :: s => (rdLE k s).map (fun p => (b % 256 + 256 * p.1, p.2))

def rdU64 (s : List Nat) : Option (Nat × List Nat) := rdLE 8 s

def rdU32 (s : List Nat) : Option (Nat × List Nat) := rdLE 4 s

def rdCode (w : Nat) (s : List Nat) : Option (Nat × List Nat) := rdLE (w / 8) s

/-- The `for _ in 0..len { push(de(...)?) }` loops of the deserializers. -/
def rdMany {α : Type} (rd : List Nat → Option (α × List Nat)) :
    Nat → List Nat → Option (List α × List Nat)
  | 0, s => some ([], s)
  | n + 1, s =>
      (rd s).bind (fun p => (rdMany rd n p.2).map (fun q => (p.1 :: q.1, q.2)))

/-- `Group::deserialize_from`. -/
def deGroup (s : List Nat) : Option (Group × List Nat) :=
  (rdU64 s).bind (fun p1 =>
    (rdU32 p1.2).bind (fun p2 =>
      (rdMany rdU32 p2.1 p2.2).map (fun p3 =>
        ({ bitmap := p1.1, array := p3.1 }, p3.2))))

/-- `Table::deserialize_from`. -/
def deTable (s : List Nat) : Option (Table × List Nat) :=
  (rdU64 s).bind (fun p1 =>
    (rdU64 p1.2).bind (fun p2 =>
      (rdMany deGroup p2.1 p2.2).map (fun p3 =>
        ({ num_bits := p1.1, groups := p3.1 }, p3.2))))

/-- `Index::deserialize_from` (the width is the type parameter). -/
def deIndex (w : Nat) (s : List Nat) : Option (Index × List Nat) :=
  (rdU64 s).bind (fun pnb =>
  (rdU64 pnb.2).bind (fun pcl =>
  (rdMany (rdCode w) pcl.1 pcl.2).bind (fun pcs =>
  (rdU64 pcs.2).bind (fun ptl =>
  (rdMany deTable ptl.1 ptl.2).bind (fun pts =>
  (rdU64 pts.2).bind (fun pml =>
  (rdMany (rdCode w) pml.1 pml.2).bind (fun pms =>
  (rdU64 pms.2).bind (fun pbl =>
  (rdMany rdU64 pbl.1 pbl.2).map (fun pbs =>
    ({ w := w, num_blocks := pnb.1, codes := pcs.1, tables := pts.1,
       masks := pms.1, begs := pbs.1 }, pbs.2))))))))))

theorem rdLE_lt : ∀ (k : Nat) (s : List Nat) (v : Nat) (r : List Nat),
    rdLE k s = some (v, r) → v < 2 ^ (8 * k) := by
  intro k
  induction k with
  | zero =>
      intro s v r h
      rw [rdLE] at h
      cases h
      norm_num
  | succ k ih =>
      intro s v r h
      cases s with
      | nil =>
          rw [rdLE] at h
          exact Option.noConfusion h
      | cons b s =>
          rw [rdLE, Option.map_eq_some'] at h
          obtain ⟨p, hp, hv⟩ := h
          have hlt := ih s p.1 p.2 hp
          have hveq : b % 256 + 256 * p.1 = v := congrArg Prod.fst hv
          have h256 : (2 : Nat) ^ (8 * (k + 1)) = 2 ^ (8 * k) * 256 := by
            rw [show 8 * (k + 1) = 8 * k + 8 from by ring, pow_add]
            norm_num
          have hb : b % 256 < 256 := Nat.mod_lt _ (by norm_num)
          rw [h256]
          omega

theorem rdMany_len {α : Type} (rd : List Nat → Option (α × List Nat)) :
    ∀ (n : Nat) (s : List Nat) (vs : List α) (r : List Nat),
      rdMany rd n s = some (vs, r) → vs.length = n := by
  intro n
  induction n with
  | zero =>
      intro s vs r h
      rw [rdMany] at h
      cases h
      rfl
  | succ n ih =>
      intro s vs r h
      rw [rdMany, Option.bind_eq_some] at h
      obtain ⟨p, hp, h2⟩ := h
      rw [Option.map_eq_some'] at h2
      obtain ⟨q, hq, h3⟩ := h2
      have hrec := ih p.2 q.1 q.2 hq
      have hvs : p.1 :: q.1 = vs := congrArg Prod.fst h3
      rw [← hvs, List.length_cons, hrec]

theorem rdMany_mem {α : Type} (rd : List Nat → Option (α × List Nat)) (P : α → Prop)
    (hP : ∀ s v r, rd s = some (v, r) → P v) :
    ∀ (n : Nat) (s : List Nat) (vs : List α) (r : List Nat),
      rdMany rd n s = some (vs, r) → ∀ v ∈ vs, P v := by
  intro n
  induction n with
  | zero =>
      intro s vs r h v hv
      rw [rdMany] at h
      cases h
      exact absurd hv (List.not_mem_nil _)
  | succ n ih =>
      intro s vs r h v hv
      rw [rdMany, Option.bind_eq_some] at h
      obtain ⟨p, hp, h2⟩ := h
      rw [Option.map_eq_some'] at h2
      obtain ⟨q, hq, h3⟩ := h2
      have hvs : p.1 :: q.1 = vs := congrArg Prod.fst h3
      rw [← hvs] at hv
      rcases List.mem_cons.mp hv with hveq | hv2
      · rw [hveq]
        exact hP s p.1 p.2 hp
      · exact ih p.2 q.1 q.2 hq v hv2

/-- Any deserialized group has fewer than `2 ^ 32` array cells: its length
comes off the wire as a `u32`. -/
theorem deGroup_arrlen (s : List Nat) (g : Group) (r : List Nat)
    (h : deGroup s = some (g, r)) : g.array.length < 2 ^ 32 := by
  rw [deGroup, Option.bind_eq_some] at h
  obtain ⟨p1, hp1, h1⟩ := h
  rw [Option.bind_eq_some] at h1
  obtain ⟨p2, hp2, h2⟩ := h1
  rw [Option.map_eq_some'] at h2
  obtain ⟨p3, hp3, h3⟩ := h2
  have hlen := rdMany_len rdU32 p2.1 p2.2 p3.1 p3.2 hp3
  have hlt : p2.1 < 2 ^ (8 * 4) := rdLE_lt 4 p1.2 p2.1 p2.2 hp2
  have hg : ({ bitmap := p1.1, array := p3.1 } : Group) = g := congrArg Prod.fst h3
  rw [← hg]
  show p3.1.length < 2 ^ 32
  have h32 : (2 : Nat) ^ (8 * 4) = 2 ^ 32 := by norm_num
  omega

theorem deTable_arrlen (s : List Nat) (t : Table) (r : List Nat)
    (h : deTable s = some (t, r)) : ∀ g ∈ t.groups, g.array.length < 2 ^ 32 := by
  rw [deTable, Option.bind_eq_some] at h
  obtain ⟨p1, hp1, h1⟩ := h
  rw [Option.bind_eq_some] at h1
  obtain ⟨p2, hp2, h2⟩ := h1
  rw [Option.map_eq_some'] at h2
  obtain ⟨p3, hp3, h3⟩ := h2
  have ht : ({ num_bits := p1.1, groups := p3.1 } : Table) = t := congrArg Prod.fst h3
  rw [← ht]
  intro g hg
  exact rdMany_mem deGroup (fun g => g.array.length < 2 ^ 32)
    (fun s' v r' h' => deGroup_arrlen s' v r' h') p2.1 p2.2 p3.1 p3.2 hp3 g hg

/-- Any deserialized index has only groups with fewer than `2 ^ 32` array
cells. -/
theorem deIndex_arrlen (w : Nat) (s : List Nat) (I : Index) (r : List Nat)
    (h : deIndex w s = some (I, r)) :
    ∀ t ∈ I.tables, ∀ g ∈ t.groups, g.array.length < 2 ^ 32 := by
  rw [deIndex, Option.bind_eq_some] at h
  obtain ⟨pnb, _, h⟩ := h
  rw [Option.bind_eq_some] at h
  obtain ⟨pcl, _, h⟩ := h
  rw [Option.bind_eq_some] at h
  obtain ⟨pcs, _, h⟩ := h
  rw [Option.bind_eq_some] at h
  obtain ⟨ptl, _, h⟩ := h
  rw [Option.bind_eq_some] at h
  obtain ⟨pts, hts, h⟩ := h
  rw [Option.bind_eq_some] at h
  obtain ⟨pml, _, h⟩ := h
  rw [Option.bind_eq_some] at h
  obtain ⟨pms, _, h⟩ := h
  rw [Option.bind_eq_some] at h
  obtain ⟨pbl, _, h⟩ := h
  rw [Option.map_eq_some'] at h
  obtain ⟨pbs, _, h3⟩ := h
  cases h3
  intro t ht g hg
  have htmem : ∀ t ∈ pts.1, ∀ g ∈ t.groups, g.array.length < 2 ^ 32 :=
    rdMany_mem deTable (fun t => ∀ g ∈ t.groups, g.array.length < 2 ^ 32)
      (fun s' v r' h' => deTable_arrlen s' v r' h') ptl.1 ptl.2 pts.1 pts.2 hts
  exact htmem t ht g hg

/-- Building a one-group table from `N` copies of sub-code `0` leaves the
group with `N + 2` array cells (the `[0]` header, one offset cell for the
single occupied slot, and `N` payload cells). -/
theorem dataAll_zero_group_len (N : Nat) (hN : 0 < N) (t0 : Table)
    (h0 : Table.new 4 = Except.ok t0) :
    (dataAll (countAll t0 (List.replicate N 0))
        ((List.replicate N 0).zip (List.range N))).groups.length = 1 ∧
    ((dataAll (countAll t0 (List.replicate N 0))
        ((List.replicate N 0).zip (List.range N))).groups.getD 0 default).array.length
      = N + 2 := by
  have hfst : ((List.replicate N (0 : Nat)).zip (List.range N)).map Prod.fst =
      List.replicate N 0 :=
    List.map_fst_zip _ _ (by rw [List.length_replicate, List.length_range])
  have hmem : ∀ p ∈ (List.replicate N (0 : Nat)).zip (List.range N), p.1 < 1 <<< 4 := by
    intro p hp
    have h1 : p.1 ∈ List.replicate N (0 : Nat) := (List.of_mem_zip hp).1
    have h2 := List.eq_of_mem_replicate h1
    omega
  have hc0 := TCount_new 4 (by norm_num) t0 h0
  have hcnt := TCount_fold 4 (List.replicate N 0) _ _ hc0 (by
    intro c hc
    have h2 := List.eq_of_mem_replicate hc
    omega)
  have hfill0 := TFill_of_TCount 4 _ _ hcnt
  have hfill := TFill_fold 4 _ ((List.replicate N (0 : Nat)).zip (List.range N))
    (fun _ => []) _ hfill0 hmem (by
      intro v
      rw [hfst]
      simp)
  obtain ⟨hnb, hlen, hgs⟩ := hfill
  have hng : numGroups 4 = 1 := by decide
  have hcnt00 : localCnt (fun v => (fun _ => (0 : Nat)) v +
      (List.replicate N 0).count v) 0 0 = N := by
    rw [localCnt_apply _ _ _ (by omega)]
    show 0 + (List.replicate N 0).count (0 * GROUP_SIZE + 0) = N
    rw [Nat.zero_mul, Nat.zero_add, Nat.zero_add]
    exact List.count_replicate_self _ _
  have hcnt0ne : ∀ j, j ≠ 0 → localCnt (fun v => (fun _ => (0 : Nat)) v +
      (List.replicate N 0).count v) 0 j = 0 := by
    intro j hne
    rcases Nat.lt_or_ge j 64 with hj | hj
    · rw [localCnt_apply _ _ _ hj]
      show 0 + (List.replicate N 0).count (0 * GROUP_SIZE + j) = 0
      rw [Nat.zero_mul, Nat.zero_add, Nat.zero_add]
      refine List.count_eq_zero.mpr ?_
      intro hmem2
      exact hne (List.eq_of_mem_replicate hmem2)
    · exact localCnt_apply_ge _ _ _ hj
  constructor
  · rw [hlen, hng]
  · have hdst := hgs 0 (by rw [hng]; omega)
    have hfil00 : localFil (fun v => ([] : List Nat) ++
        ((((List.replicate N (0 : Nat)).zip (List.range N)).filter
          (fun p => p.1 = v)).map Prod.snd)) 0 0 =
        (((List.replicate N (0 : Nat)).zip (List.range N)).map Prod.snd) := by
      rw [localFil_apply _ _ _ (by omega)]
      rw [Nat.zero_mul, Nat.zero_add, List.nil_append]
      have hflt : ((List.replicate N (0 : Nat)).zip (List.range N)).filter
          (fun p => p.1 = 0) = (List.replicate N (0 : Nat)).zip (List.range N) := by
        refine List.filter_eq_self.mpr ?_
        intro p hp
        have h1 : p.1 ∈ List.replicate N (0 : Nat) := (List.of_mem_zip hp).1
        have h2 := List.eq_of_mem_replicate h1
        exact decide_eq_true h2
      rw [hflt]
    rcases hdst with ⟨hfil0, _⟩ | hfs
    · exfalso
      have h1 := hfil0 0
      rw [hfil00] at h1
      have h2 : (((List.replicate N (0 : Nat)).zip (List.range N)).map Prod.snd).length
          = N := by
        rw [List.length_map, List.length_zip, List.length_replicate, List.length_range]
        omega
      rw [h1] at h2
      simp at h2
      omega
    · have hocc : occList ((dataAll (countAll t0 (List.replicate N 0))
          ((List.replicate N 0).zip (List.range N))).groups.getD 0 default).bitmap
          = [0] := by
        rw [occList]
        have hcongr : ∀ j ∈ List.range 64,
            (bit_get ((dataAll (countAll t0 (List.replicate N 0))
              ((List.replicate N 0).zip (List.range N))).groups.getD 0 default).bitmap j)
            = (decide (j = 0)) := by
          intro j hj
          rw [List.mem_range] at hj
          have hb := hfs.hbit j hj
          rcases eq_or_ne j 0 with rfl | hne
          · rw [hb.mpr (by rw [hcnt00]; omega)]
            rfl
          · have hz := hcnt0ne j hne
            cases hbool : bit_get ((dataAll (countAll t0 (List.replicate N 0))
                ((List.replicate N 0).zip (List.range N))).groups.getD 0 default).bitmap j
            · rw [decide_eq_false hne]
            · exact absurd hz (hb.mp hbool)
        rw [List.filter_congr hcongr]
        decide
      have hlen2 := hfs.hlen
      rw [hocc] at hlen2
      have hsum : sumCnt (localCnt (fun v => (fun _ => (0 : Nat)) v +
          (List.replicate N 0).count v) 0) [0] = N := by
        rw [sumCnt, List.map_cons, List.map_nil, List.sum_cons, List.sum_nil, hcnt00]
        omega
      rw [hsum] at hlen2
      rw [hlen2, List.length_singleton]
      omega

/-- **C5** is refuted: `Group::serialize_into` writes the array length
`as u32`, so a successfully built index that holds a group with at least
`2 ^ 32` array cells can never round-trip — every deserialized group has
fewer than `2 ^ 32` cells.  The index built from `2 ^ 32 - 1` identical
codes (the largest database the validator accepts) has a group with
`2 ^ 32 + 1` cells, so `deserialize_from(serialize_into(I))` cannot yield
an index structurally equal to `I`. -/
theorem serialize_C5 :
    ∃ I : Index, with_blocks 8 (List.replicate (2 ^ 32 - 1) 0) 2 = Except.ok I ∧
      ∀ rest : List Nat, deIndex 8 (serIndex 8 I) ≠ some (I, rest) := by
  cases hwb : with_blocks 8 (List.replicate (2 ^ 32 - 1) 0) 2 with
  | error e =>
      exfalso
      have hbad := (with_blocks_spec 8 (List.replicate (2 ^ 32 - 1) 0) 2).1.mp ⟨e, hwb⟩
      rcases hbad with h | h | h | h
      · have := congrArg List.length h
        rw [List.length_replicate] at this
        simp at this
      · rw [List.length_replicate] at h
        omega
      · omega
      · omega
  | ok I =>
      have hB := with_blocks_built 8 (List.replicate (2 ^ 32 - 1) 0) 2 I hwb
      refine ⟨I, rfl, ?_⟩
      intro rest hde
      obtain ⟨t0, ht0, htab⟩ := hB.htab 0 (by omega)
      have hmap : (List.replicate (2 ^ 32 - 1) (0 : Nat)).map
          (fun c => chunkAt 8 2 c 0) = List.replicate (2 ^ 32 - 1) 0 := by
        rw [List.map_replicate]
        rfl
      have hlenc : (List.replicate (2 ^ 32 - 1) (0 : Nat)).length = 2 ^ 32 - 1 :=
        List.length_replicate _ _
      rw [hmap, hlenc] at htab
      obtain ⟨hgl, hal⟩ := dataAll_zero_group_len (2 ^ 32 - 1) (by norm_num) t0 ht0
      have htmem : I.tables.getD 0 default ∈ I.tables := by
        have h1 : 0 < I.tables.length := by
          rw [hB.htlen]
          omega
        rw [List.getD_eq_getElem _ _ h1]
        exact List.getElem_mem _
      have hgmem : ((I.tables.getD 0 default).groups.getD 0 default) ∈
          (I.tables.getD 0 default).groups := by
        have h1 : 0 < (I.tables.getD 0 default).groups.length := by
          rw [htab, hgl]
          omega
        rw [List.getD_eq_getElem _ _ h1]
        exact List.getElem_mem _
      have hlt := deIndex_arrlen 8 (serIndex 8 I) I rest hde
        (I.tables.getD 0 default) htmem
        ((I.tables.getD 0 default).groups.getD 0 default) hgmem
      rw [htab, hal] at hlt
      omega

/-! #### Unconditional state-independence of the generator -/

/-- `next()` reads and writes `power` only at indices up to `radius`:
`sigAdvance` is a congruence for powers agreeing on `[0, R]`. -/
theorem sigAdvance_congr (R : Nat) : ∀ (n sig : Nat) (pw pw' : Nat → Nat),
    n ≤ R → (∀ i, i ≤ R → pw i = pw' i) →
    (sigAdvance n sig pw).1 = (sigAdvance n sig pw').1 ∧
    (∀ i, i ≤ R → (sigAdvance n sig pw).2 i = (sigAdvance n sig pw').2 i) := by
  intro n
  induction n with
  | zero =>
      intro sig pw pw' _ h
      exact ⟨rfl, fun i hi => h i hi⟩
  | succ n ih =>
      intro sig pw pw' hn h
      rw [sigAdvance, sigAdvance]
      have ht : sigToggle sig pw n = sigToggle sig pw' n := by
        rw [sigToggle, sigToggle, h n (by omega)]
      have hupd : ∀ i, i ≤ R →
          Function.update pw n (pw n + 1) i = Function.update pw' n (pw' n + 1) i := by
        intro i hi
        rcases eq_or_ne i n with rfl | hne
        · rw [Function.update_same, Function.update_same, h i hi]
        · rw [Function.update_noteq hne, Function.update_noteq hne]
          exact h i hi
      rw [ht]
      exact ih (sigToggle sig pw' n) _ _ (by omega) hupd

/-- `sigRewindAux` is a congruence for powers agreeing on `[0, R]`, and its
resulting cursor stays at most `R`. -/
theorem sigRewindAux_congr (R : Nat) : ∀ (fuel idx sig : Nat) (pw pw' : Nat → Nat),
    idx ≤ R → (∀ i, i ≤ R → pw i = pw' i) →
    (sigRewindAux fuel R idx sig pw).1 = (sigRewindAux fuel R idx sig pw').1 ∧
    (sigRewindAux fuel R idx sig pw).2.1 = (sigRewindAux fuel R idx sig pw').2.1 ∧
    (∀ i, i ≤ R →
      (sigRewindAux fuel R idx sig pw).2.2 i = (sigRewindAux fuel R idx sig pw').2.2 i) ∧
    (sigRewindAux fuel R idx sig pw).1 ≤ R := by
  intro fuel
  induction fuel with
  | zero =>
      intro idx sig pw pw' hidx h
      exact ⟨rfl, rfl, fun i hi => h i hi, hidx⟩
  | succ fuel ih =>
      intro idx sig pw pw' hidx h
      rw [sigRewindAux, sigRewindAux]
      rcases Nat.lt_or_ge idx R with hlt | hge
      · have houter : ¬(R ≤ idx) := by omega
        rw [if_neg houter, if_neg houter]
        have hix : pw idx = pw' idx := h idx (by omega)
        have hix1 : pw (idx + 1) = pw' (idx + 1) := h (idx + 1) (by omega)
        rcases eq_or_ne (pw idx + 1) (pw (idx + 1)) with heq | hne
        · have hnn : ¬(pw idx + 1 ≠ pw (idx + 1)) := by omega
          have hnn2 : ¬(pw' idx + 1 ≠ pw' (idx + 1)) := by
            rw [← hix, ← hix1]
            omega
          rw [if_neg hnn, if_neg hnn2]
          have hupd : ∀ i, i ≤ R →
              Function.update pw idx idx i = Function.update pw' idx idx i := by
            intro i hi
            rcases eq_or_ne i idx with rfl | hne2
            · rw [Function.update_same, Function.update_same]
            · rw [Function.update_noteq hne2, Function.update_noteq hne2]
              exact h i hi
          rw [hix]
          exact ih (idx + 1) (sig ^^^ (1 <<< (pw' idx - 1))) _ _ (by omega) hupd
        · have hne2 : pw' idx + 1 ≠ pw' (idx + 1) := by
            rw [← hix, ← hix1]
            exact hne
          rw [if_pos hne, if_pos hne2]
          exact ⟨rfl, rfl, fun i hi => h i hi, by omega⟩
      · rw [if_pos hge, if_pos hge]
        exact ⟨rfl, rfl, fun i hi => h i hi, hidx⟩

/-- `next()` is a congruence for generator states agreeing on everything
except `power` beyond index `radius`; the new cursor stays at most
`radius`. -/
theorem sigNext_congr (g g' : SigGenerator64)
    (hsig : g.sig = g'.sig) (hbase : g.base = g'.base) (hrad : g.radius = g'.radius)
    (hbit : g.bit = g'.bit) (hble : g.bit + 1 ≤ (g.radius : Int))
    (hpw : ∀ i, i ≤ g.radius → g.power i = g'.power i) :
    g.next.1 = g'.next.1 ∧
    g.next.2.sig = g'.next.2.sig ∧ g.next.2.base = g'.next.2.base ∧
    g.next.2.radius = g'.next.2.radius ∧ g.next.2.bit = g'.next.2.bit ∧
    g.next.2.bit ≤ (g.next.2.radius : Int) ∧
    (∀ i, i ≤ g.next.2.radius → g.next.2.power i = g'.next.2.power i) := by
  have hn : (g.bit + 1).toNat ≤ g.radius := by
    rw [Int.toNat_le]
    exact hble
  have hadv := sigAdvance_congr g.radius ((g.bit + 1).toNat) g.sig g.power g'.power hn hpw
  have hrw := sigRewindAux_congr g.radius (g.radius - 0) 0
    (sigAdvance ((g.bit + 1).toNat) g.sig g'.power).1
    (sigAdvance ((g.bit + 1).toNat) g.sig g.power).2
    (sigAdvance ((g.bit + 1).toNat) g.sig g'.power).2 (by omega) hadv.2
  show ((sigAdvance ((g.bit + 1).toNat) g.sig g.power).1 ^^^ g.base = _) ∧ _
  rw [SigGenerator64.next, SigGenerator64.next, ← hsig, ← hbit, ← hrad, ← hbase]
  refine ⟨by rw [hadv.1], ?_, rfl, rfl, ?_, ?_, ?_⟩
  · show (sigRewind g.radius 0 _ _).2.1 = (sigRewind g.radius 0 _ _).2.1
    rw [sigRewind, sigRewind, hadv.1]
    exact hrw.2.1
  · show ((sigRewind g.radius 0 _ _).1 : Int) = ((sigRewind g.radius 0 _ _).1 : Int)
    rw [sigRewind, sigRewind, hadv.1, hrw.1]
  · show ((sigRewind g.radius 0 _ _).1 : Int) ≤ (g.radius : Int)
    rw [sigRewind, hadv.1]
    exact_mod_cast hrw.2.2.2
  · intro i hi
    show (sigRewind g.radius 0 _ _).2.2 i = (sigRewind g.radius 0 _ _).2.2 i
    rw [sigRewind, sigRewind, hadv.1]
    exact hrw.2.2.1 i hi

/-- The emitted signature list depends only on the state components that
`init` writes. -/
theorem sigRun_congr : ∀ (fuel : Nat) (g g' : SigGenerator64),
    g.sig = g'.sig → g.base = g'.base → g.radius = g'.radius → g.bit = g'.bit →
    g.bit ≤ (g.radius : Int) →
    (∀ i, i ≤ g.radius → g.power i = g'.power i) →
    (sigRun fuel g).1 = (sigRun fuel g').1 := by
  intro fuel
  induction fuel with
  | zero =>
      intro g g' _ _ _ _ _ _
      rfl
  | succ fuel ih =>
      intro g g' hsig hbase hrad hbit hble hpw
      rw [sigRun, sigRun]
      have hhn : g.has_next = g'.has_next := by
        rw [SigGenerator64.has_next, SigGenerator64.has_next, hbit, hrad]
      cases hb : g.has_next with
      | false =>
          rw [hb] at hhn
          rw [← hhn]
          rfl
      | true =>
          rw [hb] at hhn
          rw [← hhn]
          have hne : g.bit ≠ (g.radius : Int) := by
            rw [SigGenerator64.has_next] at hb
            simpa using hb
          have hble2 : g.bit + 1 ≤ (g.radius : Int) := by omega
          obtain ⟨h1, h2, h3, h4, h5, h6, h7⟩ :=
            sigNext_congr g g' hsig hbase hrad hbit hble2 hpw
          have hrec := ih g.next.2 g'.next.2 h2 h3 h4 h5 h6 h7
          show (g.next.1 :: (sigRun fuel g.next.2).1, _).1 =
            (g'.next.1 :: (sigRun fuel g'.next.2).1, _).1
          rw [h1]
          show g'.next.1 :: (sigRun fuel g.next.2).1 = g'.next.1 :: (sigRun fuel g'.next.2).1
          rw [hrec]

/-- The list a single `init`/drain enumeration emits never depends on the
incoming generator state, for every dimension and radius. -/
theorem sigList_irrel_all (d r base fuel : Nat) (g g' : SigGenerator64) :
    sigList fuel (g.init base d r) = sigList fuel (g'.init base d r) := by
  refine sigRun_congr fuel _ _ rfl rfl rfl rfl ?_ ?_
  · show (r : Int) - 1 ≤ (r : Int)
    omega
  · intro i hi
    have hi2 : i ≤ r := hi
    show (if i < r then i else if i = r then d + 1 else g.power i) =
      (if i < r then i else if i = r then d + 1 else g'.power i)
    rcases Nat.lt_or_ge i r with hlt | hge
    · rw [if_pos hlt, if_pos hlt]
    · have hieq : i = r := by omega
      have hnlt : ¬(i < r) := by omega
      rw [if_neg hnlt, if_neg hnlt, if_pos hieq, if_pos hieq]

/-! #### A generator-free view of the top-K sweep -/

/-- The visits of one block of a sweep round, as a pure fold over the
canonical candidate list. -/
def visitBlock (I : Index) (q topk r b : Nat) (st : TopkState) : TopkState :=
  (candsOf I q (b, r)).foldl (topkVisit I q topk) st

/-- `topkRound` with the generator dropped. -/
def roundRef (I : Index) (q topk r : Nat) : TopkState → List Nat → Option TopkState
  | st, [] => some st
  | st, b :: bs =>
      let st1 := visitBlock I q topk r b st
      if r * I.num_blocks + b < st1.counts.length then
        let n' := st1.n + st1.counts.getD (r * I.num_blocks + b) 0
        let st2 := { st1 with n := n' }
        if topk ≤ n' then some st2
        else roundRef I q topk r st2 bs
      else none

/-- `topkSweep` with the generator dropped. -/
def sweepRef (I : Index) (q topk : Nat) : Nat → Nat → TopkState → Option TopkState
  | 0, _, _ => none
  | fuel + 1, r, st =>
      if st.n < topk then
        match roundRef I q topk r st (List.range I.num_blocks) with
        | none => none
        | some st2 => sweepRef I q topk fuel (r + 1) st2
      else some st

/-- `topkRun` with the generator and the stale `checked` buffer dropped. -/
def runRef (I : Index) (q topk : Nat) (ans0 : List Nat) : Option (List Nat) :=
  let nd := I.w
  let st0 : TopkState :=
    { answers := resizeTo ans0 ((nd + 1) * topk), checked := [],
      counts := List.replicate (nd + 1) 0, n := 0 }
  match sweepRef I q topk (nd + 2) 0 st0 with
  | none => none
  | some st => topkAssemble topk st.answers st.counts (nd + 2) 0 0

theorem topkBlock_fst (I : Index) (q topk r : Nat) (st : TopkState) (g : SigGenerator64)
    (b : Nat) : (topkBlock I q topk r (st, g) b).1 = visitBlock I q topk r b st := by
  show (((sigRun SIG_FUEL (g.init (I.get_chunk q b) (I.get_dim b) r)).1.flatMap
      (fun sig => match (I.tables.getD b default).access sig with
        | none => [] | some a => a)).foldl (topkVisit I q topk) st) = _
  rw [visitBlock, candsOf]
  have hirr := sigList_irrel_all (I.get_dim b) r (I.get_chunk q b) SIG_FUEL g
    SigGenerator64.new
  rw [show (sigRun SIG_FUEL (g.init (I.get_chunk q b) (I.get_dim b) r)).1 =
    sigList SIG_FUEL (g.init (I.get_chunk q b) (I.get_dim b) r) from rfl, hirr]

theorem topkRound_fst (I : Index) (q topk r : Nat) : ∀ (bs : List Nat) (st : TopkState)
    (g : SigGenerator64),
    (topkRound I q topk r (st, g) bs).map (fun p => p.1) = roundRef I q topk r st bs := by
  intro bs
  induction bs with
  | nil =>
      intro st g
      rfl
  | cons b bs ih =>
      intro st g
      simp only [topkRound, roundRef]
      rw [topkBlock_fst I q topk r st g b]
      by_cases hc : r * I.num_blocks + b < (visitBlock I q topk r b st).counts.length
      · rw [if_pos hc, if_pos hc]
        by_cases hn : topk ≤ (visitBlock I q topk r b st).n +
            (visitBlock I q topk r b st).counts.getD (r * I.num_blocks + b) 0
        · rw [if_pos hn, if_pos hn]
          rfl
        · rw [if_neg hn, if_neg hn]
          exact ih _ _
      · rw [if_neg hc, if_neg hc]
        rfl

theorem topkSweep_fst (I : Index) (q topk : Nat) : ∀ (fuel r : Nat) (st : TopkState)
    (g : SigGenerator64),
    (topkSweep I q topk fuel r (st, g)).map (fun p => p.1) = sweepRef I q topk fuel r st := by
  intro fuel
  induction fuel with
  | zero =>
      intro r st g
      rfl
  | succ fuel ih =>
      intro r st g
      rw [topkSweep, sweepRef]
      by_cases hn : st.n < topk
      · rw [if_pos hn, if_pos hn]
        have hr := topkRound_fst I q topk r (List.range I.num_blocks) st g
        cases hround : topkRound I q topk r (st, g) (List.range I.num_blocks) with
        | none =>
            have hnone : roundRef I q topk r st (List.range I.num_blocks) = none := by
              rw [← hr, hround]
              rfl
            rw [hnone]
            rfl
        | some st2 =>
            have hsome : roundRef I q topk r st (List.range I.num_blocks) = some st2.1 := by
              rw [← hr, hround]
              rfl
            rw [hsome]
            exact ih (r + 1) st2.1 st2.2
      · rw [if_neg hn, if_neg hn]
        rfl

theorem topkRun_fst (I : Index) (q topk : Nat) (ans0 checked0 : List Nat)
    (g0 : SigGenerator64) :
    (topkRun I q topk ans0 checked0 g0).map (fun p => p.1) = runRef I q topk ans0 := by
  simp only [topkRun, runRef]
  rw [List.take_zero]
  set st0 : TopkState := { answers := resizeTo ans0 ((I.w + 1) * topk), checked := [], counts := List.replicate (I.w + 1) 0, n := 0 } with hst0
  have hsw := topkSweep_fst I q topk (I.w + 2) 0 st0 g0
  cases hs : topkSweep I q topk (I.w + 2) 0 (st0, g0) with
  | none =>
      have hnone : sweepRef I q topk (I.w + 2) 0 st0 = none := by
        rw [← hsw, hs]
        rfl
      rw [hnone]
      rfl
  | some st =>
      have hsome : sweepRef I q topk (I.w + 2) 0 st0 = some st.1 := by
        rw [← hsw, hs]
        rfl
      rw [hsome]
      show Option.map (fun p => p.1)
          (match topkAssemble topk st.1.answers st.1.counts (I.w + 2) 0 0 with
            | none => none
            | some out => some (out, st.1.checked, st.2)) =
        topkAssemble topk st.1.answers st.1.counts (I.w + 2) 0 0
      cases ha : topkAssemble topk st.1.answers st.1.counts (I.w + 2) 0 0 with
      | none => rfl
      | some out => rfl

/-! #### Scratch-state independence (C10) -/

theorem set_oob : ∀ (l : List Nat) (i v : Nat), l.length ≤ i → l.set i v = l := by
  intro l
  induction l with
  | nil =>
      intro i v _
      rfl
  | cons x xs ih =>
      intro i v h
      cases i with
      | zero =>
          exfalso
          simp at h
      | succ i =>
          show x :: xs.set i v = x :: xs
          rw [ih i v (by simpa using h)]

theorem getD_set_general (l : List Nat) (i j v : Nat) :
    (l.set i v).getD j 0 = if i = j ∧ i < l.length then v else l.getD j 0 := by
  rcases eq_or_ne i j with rfl | hne
  · rcases Nat.lt_or_ge i l.length with h | h
    · rw [getD_set_self l i v h, if_pos ⟨rfl, h⟩]
    · rw [if_neg (by omega), set_oob l i v h]
  · rw [getD_set_ne l i j v hne, if_neg (by tauto)]

theorem row_inj (K d j d2 j2 : Nat) (hj : j < K) (hj2 : j2 < K)
    (h : d * K + j = d2 * K + j2) : d = d2 ∧ j = j2 := by
  rcases Nat.lt_trichotomy d d2 with hlt | heq | hgt
  · exfalso
    have hmul : (d + 1) * K ≤ d2 * K := Nat.mul_le_mul_right _ (by omega)
    have h2 : d * K + j < (d + 1) * K := by
      rw [Nat.add_mul, Nat.one_mul]
      omega
    omega
  · refine ⟨heq, ?_⟩
    subst heq
    omega
  · exfalso
    have hmul : (d2 + 1) * K ≤ d * K := Nat.mul_le_mul_right _ (by omega)
    have h2 : d2 * K + j2 < (d2 + 1) * K := by
      rw [Nat.add_mul, Nat.one_mul]
      omega
    omega

/-- Two sweep states that agree on everything except the never-written
(stale) answer cells.  The cells `d * topk + j` with `j < counts[d]` and
`j < topk` are the written ones. -/
def ARel (topk : Nat) (s1 s2 : TopkState) : Prop :=
  s1.checked = s2.checked ∧ s1.counts = s2.counts ∧ s1.n = s2.n ∧
  s1.answers.length = s2.answers.length ∧
  ∀ d j, j < s1.counts.getD d 0 → j < topk →
    s1.answers.getD (d * topk + j) 0 = s2.answers.getD (d * topk + j) 0

theorem topkVisit_arel (I : Index) (q topk : Nat) (s1 s2 : TopkState) (v : Nat)
    (h : ARel topk s1 s2) : ARel topk (topkVisit I q topk s1 v) (topkVisit I q topk s2 v) := by
  obtain ⟨hch, hcn, hn, hal, hcell⟩ := h
  simp only [topkVisit]
  rw [← hch, ← hcn, ← hn]
  by_cases hv : v ∈ s1.checked
  · rw [if_pos hv, if_pos hv]
    exact ⟨hch, hcn, hn, hal, hcell⟩
  · rw [if_neg hv, if_neg hv]
    refine ⟨by rw [hch], rfl, rfl, ?_, ?_⟩
    · by_cases hlt : s1.counts.getD (hamdist q (I.codes.getD v 0)) 0 < topk
      · rw [if_pos hlt, if_pos hlt, List.length_set, List.length_set]
        exact hal
      · rw [if_neg hlt, if_neg hlt]
        exact hal
    · intro d j hjc hjk
      set dist := hamdist q (I.codes.getD v 0) with hdist
      set cnt := s1.counts.getD dist 0 with hcnt
      rw [getD_set_general] at hjc
      by_cases hlt : cnt < topk
      · rw [if_pos hlt, if_pos hlt]
        show (s1.answers.set (dist * topk + cnt) v).getD (d * topk + j) 0 =
          (s2.answers.set (dist * topk + cnt) v).getD (d * topk + j) 0
        rw [getD_set_general, getD_set_general, ← hal]
        by_cases hpos : dist * topk + cnt = d * topk + j ∧
            dist * topk + cnt < s1.answers.length
        · rw [if_pos hpos, if_pos hpos]
        · rw [if_neg hpos, if_neg hpos]
          rcases eq_or_ne (dist * topk + cnt) (d * topk + j) with hpe | hpne
          · -- the write position, but out of bounds: both sides read the default
            have hoob : s1.answers.length ≤ d * topk + j := by
              rcases Nat.lt_or_ge (dist * topk + cnt) s1.answers.length with h2 | h2
              · exact absurd ⟨hpe, h2⟩ hpos
              · omega
            rw [List.getD_eq_default _ _ hoob, List.getD_eq_default _ _ (by omega)]
          · -- an old cell: it was already covered before this visit
            have hjold : j < s1.counts.getD d 0 := by
              by_cases hd : dist = d ∧ dist < s1.counts.length
              · obtain ⟨rfl, hdl⟩ := hd
                rw [if_pos ⟨rfl, hdl⟩] at hjc
                have hne2 : j ≠ cnt := by
                  intro hje
                  exact hpne (by rw [hje])
                omega
              · rw [if_neg hd] at hjc
                exact hjc
            exact hcell d j hjold hjk
      · rw [if_neg hlt, if_neg hlt]
        have hjold : j < s1.counts.getD d 0 := by
          by_cases hd : dist = d ∧ dist < s1.counts.length
          · obtain ⟨rfl, hdl⟩ := hd
            rw [if_pos ⟨rfl, hdl⟩] at hjc
            omega
          · rw [if_neg hd] at hjc
            exact hjc
        exact hcell d j hjold hjk

theorem foldVisit_arel (I : Index) (q topk : Nat) : ∀ (vs : List Nat) (s1 s2 : TopkState),
    ARel topk s1 s2 →
    ARel topk (vs.foldl (topkVisit I q topk) s1) (vs.foldl (topkVisit I q topk) s2) := by
  intro vs
  induction vs with
  | nil =>
      intro s1 s2 h
      exact h
  | cons v vs ih =>
      intro s1 s2 h
      exact ih _ _ (topkVisit_arel I q topk s1 s2 v h)

theorem roundRef_arel (I : Index) (q topk r : Nat) : ∀ (bs : List Nat) (s1 s2 : TopkState),
    ARel topk s1 s2 →
    (roundRef I q topk r s1 bs = none ∧ roundRef I q topk r s2 bs = none) ∨
    (∃ t1 t2, roundRef I q topk r s1 bs = some t1 ∧ roundRef I q topk r s2 bs = some t2 ∧
      ARel topk t1 t2) := by
  intro bs
  induction bs with
  | nil =>
      intro s1 s2 h
      right
      exact ⟨s1, s2, rfl, rfl, h⟩
  | cons b bs ih =>
      intro s1 s2 h
      have hstep : ARel topk (visitBlock I q topk r b s1) (visitBlock I q topk r b s2) :=
        foldVisit_arel I q topk _ _ _ h
      obtain ⟨hch, hcn, hn, hal, hcell⟩ := hstep
      simp only [roundRef]
      rw [← hcn, ← hn]
      by_cases hc : r * I.num_blocks + b < (visitBlock I q topk r b s1).counts.length
      · rw [if_pos hc, if_pos hc]
        by_cases hk : topk ≤ (visitBlock I q topk r b s1).n +
            (visitBlock I q topk r b s1).counts.getD (r * I.num_blocks + b) 0
        · rw [if_pos hk, if_pos hk]
          right
          refine ⟨_, _, rfl, rfl, ?_⟩
          exact ⟨hch, rfl, rfl, hal, hcell⟩
        · rw [if_neg hk, if_neg hk]
          exact ih _ _ ⟨hch, rfl, rfl, hal, hcell⟩
      · rw [if_neg hc, if_neg hc]
        left
        exact ⟨rfl, rfl⟩

theorem sweepRef_arel (I : Index) (q topk : Nat) : ∀ (fuel r : Nat) (s1 s2 : TopkState),
    ARel topk s1 s2 →
    (sweepRef I q topk fuel r s1 = none ∧ sweepRef I q topk fuel r s2 = none) ∨
    (∃ t1 t2, sweepRef I q topk fuel r s1 = some t1 ∧ sweepRef I q topk fuel r s2 = some t2 ∧
      ARel topk t1 t2) := by
  intro fuel
  induction fuel with
  | zero =>
      intro r s1 s2 _
      left
      exact ⟨rfl, rfl⟩
  | succ fuel ih =>
      intro r s1 s2 h
      obtain ⟨hch, hcn, hn, hal, hcell⟩ := h
      rw [sweepRef, sweepRef, ← hn]
      by_cases hlt : s1.n < topk
      · rw [if_pos hlt, if_pos hlt]
        rcases roundRef_arel I q topk r (List.range I.num_blocks) s1 s2
            ⟨hch, hcn, hn, hal, hcell⟩ with ⟨h1, h2⟩ | ⟨t1, t2, h1, h2, hrel⟩
        · rw [h1, h2]
          left
          exact ⟨rfl, rfl⟩
        · rw [h1, h2]
          exact ih (r + 1) t1 t2 hrel
      · rw [if_neg hlt, if_neg hlt]
        right
        exact ⟨s1, s2, rfl, rfl, ⟨hch, hcn, hn, hal, hcell⟩⟩

theorem assemble_congr (topk : Nat) (c : List Nat) :
    ∀ (fuel n r : Nat) (a1 a2 : List Nat), a1.length = a2.length →
    (∀ d j, j < c.getD d 0 → j < topk →
      a1.getD (d * topk + j) 0 = a2.getD (d * topk + j) 0) →
    topkAssemble topk a1 c fuel n r = topkAssemble topk a2 c fuel n r := by
  intro fuel
  induction fuel with
  | zero =>
      intro n r a1 a2 _ _
      rfl
  | succ fuel ih =>
      intro n r a1 a2 hal hcells
      simp only [topkAssemble]
      by_cases hn : n < topk
      · rw [if_pos hn, if_pos hn]
        by_cases hr : r < c.length
        · rw [if_pos hr, if_pos hr]
          have hseg : (a1.drop (r * topk)).take (min (c.getD r 0) (topk - n)) =
              (a2.drop (r * topk)).take (min (c.getD r 0) (topk - n)) := by
            refine List.ext_getElem? ?_
            intro i
            rcases Nat.lt_or_ge i (min (c.getD r 0) (topk - n)) with hi | hi
            · rw [List.getElem?_take, List.getElem?_take, if_pos hi, if_pos hi,
                List.getElem?_drop, List.getElem?_drop]
              rcases Nat.lt_or_ge (r * topk + i) a1.length with hlen | hlen
              · rw [List.getElem?_eq_getElem hlen,
                  List.getElem?_eq_getElem (by omega : r * topk + i < a2.length)]
                have hv := hcells r i (by omega) (by omega)
                rw [List.getD_eq_getElem _ _ hlen] at hv
                rw [List.getD_eq_getElem _ _ (by omega : r * topk + i < a2.length)] at hv
                rw [hv]
              · rw [List.getElem?_eq_none (by omega), List.getElem?_eq_none (by omega)]
            · rw [List.getElem?_eq_none, List.getElem?_eq_none]
              · rw [List.length_take]
                omega
              · rw [List.length_take]
                omega
          rw [ih (n + min (c.getD r 0) (topk - n)) (r + 1) a1 a2 hal hcells, hseg]
        · rw [if_neg hr, if_neg hr]
      · rw [if_neg hn, if_neg hn]

theorem resizeTo_length (a : List Nat) (n : Nat) : (resizeTo a n).length = n := by
  rw [resizeTo]
  by_cases h : n ≤ a.length
  · rw [if_pos h, List.length_take]
    omega
  · rw [if_neg h, List.length_append, List.length_replicate]
    omega

theorem runRef_scratch (I : Index) (q topk : Nat) (a0 a1 : List Nat) :
    runRef I q topk a0 = runRef I q topk a1 := by
  simp only [runRef]
  have hrel : ARel topk
      { answers := resizeTo a0 ((I.w + 1) * topk), checked := [], counts := List.replicate (I.w + 1) 0, n := 0 }
      { answers := resizeTo a1 ((I.w + 1) * topk), checked := [], counts := List.replicate (I.w + 1) 0, n := 0 } := by
    refine ⟨rfl, rfl, rfl, ?_, ?_⟩
    · rw [resizeTo_length, resizeTo_length]
    · intro d j hj _
      exfalso
      have hz : (List.replicate (I.w + 1) (0 : Nat)).getD d 0 = 0 := by
        rcases Nat.lt_or_ge d (I.w + 1) with hd | hd
        · rw [List.getD_eq_getElem _ _ (by rw [List.length_replicate]; omega)]
          simp
        · exact List.getD_eq_default _ _ (by rw [List.length_replicate]; omega)
      rw [hz] at hj
      omega
  rcases sweepRef_arel I q topk (I.w + 2) 0 _ _ hrel with ⟨h1, h2⟩ | ⟨t1, t2, h1, h2, hrel2⟩
  · rw [h1, h2]
  · rw [h1, h2]
    show topkAssemble topk t1.answers t1.counts (I.w + 2) 0 0 =
      topkAssemble topk t2.answers t2.counts (I.w + 2) 0 0
    obtain ⟨hch, hcn, hn, hal, hcell⟩ := hrel2
    rw [← hcn]
    exact assemble_congr topk t1.counts (I.w + 2) 0 0 t1.answers t2.answers hal hcell

/-- `enum_fold` without the radius bound: the emitted candidates never
depend on the threaded generator state. -/
theorem enum_fold2 (I : Index) (qcode : Nat) :
    ∀ (sched : List (Nat × Nat)) (l0 : List Nat) (g0 : SigGenerator64),
      (sched.foldl (enumStep I qcode) (l0, g0)).1 = l0 ++ sched.flatMap (candsOf I qcode) := by
  intro sched
  induction sched with
  | nil =>
      intro l0 g0
      simp
  | cons br rest ih =>
      intro l0 g0
      show (rest.foldl (enumStep I qcode) (enumStep I qcode (l0, g0) br)).1 = _
      have hstep : enumStep I qcode (l0, g0) br =
          (l0 ++ candsOf I qcode br,
            (sigRun SIG_FUEL (g0.init (I.get_chunk qcode br.1) (I.get_dim br.1) br.2)).2) := by
        rw [enumStep, candsOf]
        have hirr := sigList_irrel_all (I.get_dim br.1) br.2 (I.get_chunk qcode br.1)
          SIG_FUEL g0 SigGenerator64.new
        rw [show (sigRun SIG_FUEL (g0.init (I.get_chunk qcode br.1) (I.get_dim br.1)
          br.2)).1 = sigList SIG_FUEL (g0.init (I.get_chunk qcode br.1) (I.get_dim br.1)
          br.2) from rfl, hirr]
      rw [hstep, ih, List.flatMap_cons, List.append_assoc]

theorem rangeRun_scratch (I : Index) (q radius : Nat) (a0 a1 : List Nat)
    (g0 g1 : SigGenerator64) :
    (rangeRun I q radius a0 g0).1 = (rangeRun I q radius a1 g1).1 := by
  show (dedupAdj (((rangeSchedule I.num_blocks radius).foldl (enumStep I q)
      (a0.take 0, g0)).1.insertionSort (· ≤ ·))).filter
      (fun i => hamdist q (I.codes.getD i 0) ≤ radius) =
    (dedupAdj (((rangeSchedule I.num_blocks radius).foldl (enumStep I q)
      (a1.take 0, g1)).1.insertionSort (· ≤ ·))).filter
      (fun i => hamdist q (I.codes.getD i 0) ≤ radius)
  rw [List.take_zero, List.take_zero, enum_fold2, enum_fold2]

/-- **C10.** The scratch state a searcher carries between runs — the
`answers` buffer, the `checked` set and the signature generator — never
influences the slice a later `RangeSearcher::run` or `TopkSearcher::run`
returns, with any arguments: running with any two incoming scratch states
yields identical results, so two runs in succession with the same
arguments return equal slices. -/
theorem scratch_C10 (I : Index) (q radius topk : Nat)
    (ans0 ans1 checked0 checked1 : List Nat) (g0 g1 : SigGenerator64) :
    (rangeRun I q radius ans0 g0).1 = (rangeRun I q radius ans1 g1).1 ∧
    (topkRun I q topk ans0 checked0 g0).map (fun p => p.1) =
      (topkRun I q topk ans1 checked1 g1).map (fun p => p.1) := by
  constructor
  · exact rangeRun_scratch I q radius ans0 ans1 g0 g1
  · rw [topkRun_fst, topkRun_fst]
    exact runRef_scratch I q topk ans0 ans1

/-! #### Top-K correctness (C2): distance bookkeeping -/

/-- The Hamming distance from the query to a stored code, as computed by
`topkVisit`. -/
def distTo (codes : List Nat) (q v : Nat) : Nat := hamdist q (codes.getD v 0)

/-- Number of database ids at distance exactly `d`. -/
def distCnt (codes : List Nat) (q d : Nat) : Nat :=
  (List.range codes.length).countP (fun v => distTo codes q v = d)

/-- Number of database ids at distance below `i`. -/
def cumLt (codes : List Nat) (q i : Nat) : Nat :=
  (List.range codes.length).countP (fun v => distTo codes q v < i)

/-- The ids found at distance `d`, in discovery order (`checked` grows by
consing). -/
def foundAt (codes : List Nat) (q : Nat) (checked : List Nat) (d : Nat) : List Nat :=
  checked.reverse.filter (fun v => distTo codes q v = d)

theorem popcnt_le (w : Nat) : ∀ z, z < 2 ^ w → popcnt z ≤ w := by
  induction w with
  | zero =>
      intro z hz
      have hz0 : z = 0 := by omega
      subst hz0
      rw [popcnt_zero]
  | succ w ih =>
      intro z hz
      rw [popcnt_rec]
      have hp : (2 : Nat) ^ (w + 1) = 2 * 2 ^ w := by
        rw [pow_succ]
        omega
      have hrec := ih (z / 2) (by omega)
      omega

theorem hamdist_le (w x y : Nat) (hx : x < 2 ^ w) (hy : y < 2 ^ w) : hamdist x y ≤ w := by
  rw [hamdist]
  exact popcnt_le w _ (Nat.xor_lt_two_pow hx hy)

theorem countP_lt_step (f : Nat → Nat) (i : Nat) : ∀ l : List Nat,
    l.countP (fun v => f v < i + 1) =
      l.countP (fun v => f v < i) + l.countP (fun v => f v = i) := by
  intro l
  induction l with
  | nil => rfl
  | cons x xs ih =>
      rw [List.countP_cons, List.countP_cons, List.countP_cons, ih]
      simp only [decide_eq_true_eq]
      split_ifs <;> omega

theorem cumLt_step (codes : List Nat) (q i : Nat) :
    cumLt codes q (i + 1) = cumLt codes q i + distCnt codes q i :=
  countP_lt_step (distTo codes q) i (List.range codes.length)

theorem cumLt_mono (codes : List Nat) (q : Nat) {i j : Nat} (h : i ≤ j) :
    cumLt codes q i ≤ cumLt codes q j := by
  induction j with
  | zero =>
      have hi0 : i = 0 := by omega
      subst hi0
      exact le_refl _
  | succ j ih =>
      rcases Nat.lt_or_ge i (j + 1) with hlt | hge
      · have := ih (by omega)
        rw [cumLt_step]
        omega
      · have hij : i = j + 1 := by omega
        subst hij
        exact le_refl _

theorem cumLt_zero (codes : List Nat) (q : Nat) : cumLt codes q 0 = 0 := by
  rw [cumLt]
  refine List.countP_eq_zero.mpr ?_
  intro v _
  simp

theorem cumLt_le_length (codes : List Nat) (q i : Nat) : cumLt codes q i ≤ codes.length := by
  have h := List.countP_le_length (p := fun v => decide (distTo codes q v < i))
    (l := List.range codes.length)
  rw [cumLt]
  rw [List.length_range] at h
  exact h

theorem cumLt_top (w : Nat) (codes : List Nat) (q : Nat) (hcodes : ∀ c ∈ codes, c < 2 ^ w)
    (hq : q < 2 ^ w) (hcne : codes ≠ []) : cumLt codes q (w + 1) = codes.length := by
  rw [cumLt]
  have h := List.countP_eq_length (p := fun v => decide (distTo codes q v < w + 1))
    (l := List.range codes.length)
  rw [List.length_range] at h
  refine h.mpr ?_
  intro v hv
  rw [List.mem_range] at hv
  refine decide_eq_true ?_
  have hcv : codes.getD v 0 < 2 ^ w := by
    refine hcodes _ ?_
    rw [List.getD_eq_getElem _ _ hv]
    exact List.getElem_mem _
  have := hamdist_le w q (codes.getD v 0) hq hcv
  rw [distTo]
  omega

theorem map_range_reflect (F : Nat → Nat) (m : Nat) :
    (List.range m).map (fun b => F (m - 1 - b)) = ((List.range m).map F).reverse := by
  refine List.ext_getElem? ?_
  intro i
  rcases Nat.lt_or_ge i m with hi | hi
  · rw [List.getElem?_map, List.getElem?_range hi,
      List.getElem?_reverse (by rw [List.length_map, List.length_range]; exact hi),
      List.length_map, List.length_range, List.getElem?_map,
      List.getElem?_range (by omega)]
    rfl
  · rw [List.getElem?_eq_none (by rw [List.length_map, List.length_range]; omega),
      List.getElem?_eq_none
        (by rw [List.length_reverse, List.length_map, List.length_range]; omega)]

/-- The lexicographic pigeonhole behind the sweep's completeness: if the
block distances sum below `i`, some block's `(round, block)` pair has
lexicographic index below `i`. -/
theorem pigeonhole_lex (m i : Nat) (hm : 0 < m) (f : Nat → Nat)
    (hsum : ((List.range m).map f).sum < i) :
    ∃ b, b < m ∧ f b * m + b < i := by
  by_contra hno
  push_neg at hno
  have hterm : ∀ b ∈ List.range m, (m - 1 - b + i) / m ≤ f b := by
    intro b hb
    rw [List.mem_range] at hb
    have hbi := hno b hb
    rcases Nat.lt_or_ge i (b + 1) with hsmall | hbig
    · have hz : (m - 1 - b + i) / m = 0 := Nat.div_eq_of_lt (by omega)
      omega
    · have h1 : m - 1 - b + i ≤ f b * m + (m - 1) := by omega
      have h2 : (m - 1 - b + i) / m ≤ (f b * m + (m - 1)) / m := Nat.div_le_div_right h1
      have h3 : (f b * m + (m - 1)) / m = f b := by
        rw [Nat.mul_comm (f b) m, Nat.mul_add_div hm, Nat.div_eq_of_lt (by omega)]
        omega
      omega
  have hle := List.sum_le_sum hterm
  have hrefl : ((List.range m).map (fun b => (m - 1 - b + i) / m)).sum = i := by
    have h1 : (fun b => (m - 1 - b + i) / m) = (fun b => (fun a => (a + i) / m) (m - 1 - b)) := by
      funext b
      rfl
    rw [h1, map_range_reflect (fun a => (a + i) / m) m, List.sum_reverse, hermite m hm i]
  rw [hrefl] at hle
  omega

/-- Lexicographic index arithmetic for the sweep schedule. -/
theorem lex_mod_div (r m b : Nat) (hm : 0 < m) (hb : b < m) :
    (r * m + b) % m = b ∧ (r * m + b) / m = r := by
  constructor
  · rw [Nat.add_comm, Nat.add_mul_mod_self_right, Nat.mod_eq_of_lt hb]
  · rw [Nat.add_comm, Nat.add_mul_div_right _ _ hm, Nat.div_eq_of_lt hb]
    omega

theorem foundAt_cons (codes : List Nat) (q : Nat) (checked : List Nat) (v d : Nat) :
    foundAt codes q (v :: checked) d =
      foundAt codes q checked d ++ (if distTo codes q v = d then [v] else []) := by
  rw [foundAt, foundAt, List.reverse_cons, List.filter_append]
  congr 1
  rw [List.filter_cons, List.filter_nil]
  rcases eq_or_ne (distTo codes q v) d with h | h
  · rw [if_pos (by exact decide_eq_true h), if_pos h]
  · rw [if_neg (by simpa using h), if_neg h]

/-- The state invariant of the sweep: `checked` holds the distinct found
ids, `counts[d]` counts the found ids at distance `d`, and row `d` of
`answers` holds the first `min(counts[d], topk)` of them in discovery
order. -/
structure TKInv (w : Nat) (codes : List Nat) (q topk : Nat) (st : TopkState) : Prop where
  hnd : st.checked.Nodup
  hsub : ∀ v ∈ st.checked, v < codes.length
  hclen : st.counts.length = w + 1
  halen : st.answers.length = (w + 1) * topk
  hcnt : ∀ d, st.counts.getD d 0 = (foundAt codes q st.checked d).length
  hans : ∀ d j, j < (foundAt codes q st.checked d).length → j < topk →
    st.answers.getD (d * topk + j) 0 = (foundAt codes q st.checked d).getD j 0

theorem TKInv_visit (I : Index) (w : Nat) (codes : List Nat) (q topk : Nat)
    (hIc : I.codes = codes) (st : TopkState) (v : Nat) (hst : TKInv w codes q topk st)
    (hv : v < codes.length) (hdw : distTo codes q v ≤ w) :
    TKInv w codes q topk (topkVisit I q topk st v) := by
  obtain ⟨hnd, hsub, hclen, halen, hcnt, hans⟩ := hst
  simp only [topkVisit]
  rw [hIc]
  by_cases hvc : v ∈ st.checked
  · rw [if_pos hvc]
    exact ⟨hnd, hsub, hclen, halen, hcnt, hans⟩
  · rw [if_neg hvc]
    rw [show hamdist q (codes.getD v 0) = distTo codes q v from rfl]
    have hflen : ∀ d, (foundAt codes q (v :: st.checked) d).length =
        (foundAt codes q st.checked d).length +
          (if distTo codes q v = d then 1 else 0) := by
      intro d
      rw [foundAt_cons, List.length_append]
      rcases eq_or_ne (distTo codes q v) d with h | h
      · rw [if_pos h, if_pos h]
        rfl
      · rw [if_neg h, if_neg h]
        rfl
    have hdin : distTo codes q v < st.counts.length := by
      rw [hclen]
      omega
    refine ⟨?_, ?_, ?_, ?_, ?_, ?_⟩
    · exact List.nodup_cons.mpr ⟨hvc, hnd⟩
    · intro u hu
      rcases List.mem_cons.mp hu with rfl | hu2
      · exact hv
      · exact hsub u hu2
    · rw [List.length_set]
      exact hclen
    · by_cases hcl : st.counts.getD (distTo codes q v) 0 < topk
      · rw [if_pos hcl, List.length_set]
        exact halen
      · rw [if_neg hcl]
        exact halen
    · intro d
      rw [hflen d, getD_set_general]
      rcases eq_or_ne (distTo codes q v) d with h | h
      · rw [if_pos ⟨h, hdin⟩, if_pos h]
        rw [← h, hcnt]
      · rw [if_neg (by intro hcon; exact h hcon.1), if_neg h, hcnt]
        omega
    · intro d j hj hjk
      rw [hflen d] at hj
      have hget : (foundAt codes q (v :: st.checked) d).getD j 0 =
          (foundAt codes q st.checked d ++
            (if distTo codes q v = d then [v] else [])).getD j 0 := by
        rw [foundAt_cons]
      rw [hget]
      rcases eq_or_ne (distTo codes q v) d with h | h
      · rw [if_pos h] at hj ⊢
        have hcv : st.counts.getD d 0 =
            (foundAt codes q st.checked d).length := hcnt d
        by_cases hcl : st.counts.getD (distTo codes q v) 0 < topk
        · rw [if_pos hcl]
          rcases Nat.lt_or_ge j (foundAt codes q st.checked d).length with hjlt | hjge
          · rw [getD_set_general]
            rw [if_neg (by
              intro hcon
              have h2 := hcon.1
              rw [h, hcv] at h2
              omega)]
            rw [getD_append_left _ _ _ hjlt]
            exact hans d j hjlt hjk
          · have hje : j = (foundAt codes q st.checked d).length := by omega
            rw [getD_set_general]
            have hpos : distTo codes q v * topk + st.counts.getD (distTo codes q v) 0 =
                d * topk + j := by
              rw [h, hcv, hje]
            have hinb : distTo codes q v * topk + st.counts.getD (distTo codes q v) 0 <
                st.answers.length := by
              rw [halen]
              have h1 : (distTo codes q v + 1) * topk ≤ (w + 1) * topk :=
                Nat.mul_le_mul_right _ (by omega)
              have h2 : distTo codes q v * topk + st.counts.getD (distTo codes q v) 0 <
                  (distTo codes q v + 1) * topk := by
                rw [Nat.add_mul, Nat.one_mul]
                omega
              omega
            rw [if_pos ⟨hpos, hinb⟩, hje, getD_append_mid]
        · rw [if_neg hcl]
          have hjlt : j < (foundAt codes q st.checked d).length := by
            rw [← h, ← hcnt]
            omega
          rw [getD_append_left _ _ _ hjlt]
          exact hans d j hjlt hjk
      · rw [if_neg h] at hj ⊢
        rw [List.append_nil]
        have hjlt : j < (foundAt codes q st.checked d).length := by omega
        by_cases hcl : st.counts.getD (distTo codes q v) 0 < topk
        · rw [if_pos hcl, getD_set_general]
          rw [if_neg (by
            intro hcon
            have h2 := hcon.1
            have hcv : st.counts.getD (distTo codes q v) 0 <
                topk := hcl
            obtain ⟨hde, _⟩ := row_inj topk (distTo codes q v)
              (st.counts.getD (distTo codes q v) 0) d j hcv hjk h2
            exact h hde)]
          exact hans d j hjlt hjk
        · rw [if_neg hcl]
          exact hans d j hjlt hjk

theorem topkVisit_checked (I : Index) (q topk : Nat) (st : TopkState) (v : Nat) :
    (v ∈ (topkVisit I q topk st v).checked) ∧
    (∀ u ∈ st.checked, u ∈ (topkVisit I q topk st v).checked) := by
  simp only [topkVisit]
  by_cases hvc : v ∈ st.checked
  · rw [if_pos hvc]
    exact ⟨hvc, fun u hu => hu⟩
  · rw [if_neg hvc]
    constructor
    · exact List.mem_cons_self _ _
    · intro u hu
      exact List.mem_cons_of_mem _ hu

theorem topkVisit_n (I : Index) (q topk : Nat) (st : TopkState) (v : Nat) :
    (topkVisit I q topk st v).n = st.n := by
  simp only [topkVisit]
  by_cases hvc : v ∈ st.checked
  · rw [if_pos hvc]
  · rw [if_neg hvc]

theorem foldVisit_n (I : Index) (q topk : Nat) : ∀ (vs : List Nat) (st : TopkState),
    (vs.foldl (topkVisit I q topk) st).n = st.n := by
  intro vs
  induction vs with
  | nil =>
      intro st
      rfl
  | cons v vs ih =>
      intro st
      show (vs.foldl (topkVisit I q topk) (topkVisit I q topk st v)).n = st.n
      rw [ih, topkVisit_n]

theorem foldVisit_checked (I : Index) (q topk : Nat) : ∀ (vs : List Nat) (st : TopkState),
    (∀ u ∈ vs, u ∈ (vs.foldl (topkVisit I q topk) st).checked) ∧
    (∀ u ∈ st.checked, u ∈ (vs.foldl (topkVisit I q topk) st).checked) := by
  intro vs
  induction vs with
  | nil =>
      intro st
      exact ⟨by simp, fun u hu => hu⟩
  | cons v vs ih =>
      intro st
      show (∀ u ∈ v :: vs, u ∈ (vs.foldl (topkVisit I q topk)
        (topkVisit I q topk st v)).checked) ∧ _
      obtain ⟨ih1, ih2⟩ := ih (topkVisit I q topk st v)
      obtain ⟨hm1, hm2⟩ := topkVisit_checked I q topk st v
      refine ⟨?_, ?_⟩
      · intro u hu
        rcases List.mem_cons.mp hu with rfl | hu2
        · exact ih2 u hm1
        · exact ih1 u hu2
      · intro u hu
        exact ih2 u (hm2 u hu)

theorem foldVisit_TKInv (I : Index) (w : Nat) (codes : List Nat) (q topk : Nat)
    (hIc : I.codes = codes) : ∀ (vs : List Nat) (st : TopkState),
    TKInv w codes q topk st →
    (∀ v ∈ vs, v < codes.length ∧ distTo codes q v ≤ w) →
    TKInv w codes q topk (vs.foldl (topkVisit I q topk) st) := by
  intro vs
  induction vs with
  | nil =>
      intro st h _
      exact h
  | cons v vs ih =>
      intro st h hmem
      show TKInv w codes q topk (vs.foldl (topkVisit I q topk) (topkVisit I q topk st v))
      obtain ⟨h1, h2⟩ := hmem v (List.mem_cons_self _ _)
      exact ih _ (TKInv_visit I w codes q topk hIc st v h h1 h2)
        (fun u hu => hmem u (List.mem_cons_of_mem _ hu))

/-- The candidate lists of all lexicographically earlier `(round, block)`
pairs have been folded into `checked`. -/
def Proc (I : Index) (q m : Nat) (checked : List Nat) (i : Nat) : Prop :=
  ∀ j, j < i → ∀ v ∈ candsOf I q (j % m, j / m), v ∈ checked

/-- Once every block pair below `i` has been processed, every id at
distance below `i` has been found (pigeonhole over the block
distances). -/
theorem cov_of_proc (w m : Nat) (codes : List Nat) (q : Nat) (I : Index)
    (hB : Built w m codes I) (hm0 : 0 < m) (hmw : m ≤ w) (hw64 : w ≤ 64)
    (hq : q < 2 ^ w) (hcodes : ∀ c ∈ codes, c < 2 ^ w)
    (checked : List Nat) (i : Nat) (hproc : Proc I q m checked i) :
    ∀ v, v < codes.length → distTo codes q v < i → v ∈ checked := by
  intro v hv hd
  have hcv : codes.getD v 0 < 2 ^ w := by
    refine hcodes _ ?_
    rw [List.getD_eq_getElem _ _ hv]
    exact List.getElem_mem _
  have hsum : ((List.range m).map (fun b => hamdist (chunkAt w m (codes.getD v 0) b)
      (chunkAt w m q b))).sum < i := by
    rw [hamdist_blocks w m _ _ hm0 hcv hq, hamdist_comm]
    exact hd
  obtain ⟨b, hbm, hbi⟩ := pigeonhole_lex m i hm0 _ hsum
  have hmod := lex_mod_div (hamdist (chunkAt w m (codes.getD v 0) b) (chunkAt w m q b))
    m b hm0 hbm
  have hrle : hamdist (chunkAt w m (codes.getD v 0) b) (chunkAt w m q b) ≤ (b + w) / m :=
    hamdist_le _ _ _ (chunkAt_lt w m _ b) (chunkAt_lt w m q b)
  have hmem := (candsOf_mem w m codes I hB hm0 hmw hw64 q b
    (hamdist (chunkAt w m (codes.getD v 0) b) (chunkAt w m q b)) v hbm hrle).mpr ⟨hv, rfl⟩
  have hp := hproc (hamdist (chunkAt w m (codes.getD v 0) b) (chunkAt w m q b) * m + b) hbi
  rw [hmod.1, hmod.2] at hp
  exact hp v hmem

/-- Under coverage up to `i`, the counts are exact below `i`. -/
theorem counts_exact (w : Nat) (codes : List Nat) (q topk : Nat) (st : TopkState)
    (hst : TKInv w codes q topk st) (i : Nat)
    (hcov : ∀ v, v < codes.length → distTo codes q v < i → v ∈ st.checked) :
    ∀ d, d < i → st.counts.getD d 0 = distCnt codes q d := by
  intro d hd
  rw [hst.hcnt d, foundAt, List.filter_reverse, List.length_reverse]
  rw [distCnt, List.countP_eq_length_filter]
  have hperm : List.Perm (st.checked.filter (fun v => distTo codes q v = d))
      ((List.range codes.length).filter (fun v => distTo codes q v = d)) := by
    refine (List.perm_ext_iff_of_nodup (hst.hnd.filter _)
      ((List.nodup_range _).filter _)).mpr ?_
    intro u
    rw [List.mem_filter, List.mem_filter, List.mem_range]
    constructor
    · intro ⟨h1, h2⟩
      exact ⟨hst.hsub u h1, h2⟩
    · intro ⟨h1, h2⟩
      refine ⟨?_, h2⟩
      have hdu : distTo codes q u = d := of_decide_eq_true h2
      exact hcov u h1 (by omega)
  exact hperm.length_eq

/-- Every canonical candidate is a real id, at distance at most `w`. -/
theorem cands_valid (w m : Nat) (codes : List Nat) (q : Nat) (I : Index)
    (hB : Built w m codes I) (hm0 : 0 < m) (hmw : m ≤ w) (hw64 : w ≤ 64)
    (hq : q < 2 ^ w) (hcodes : ∀ c ∈ codes, c < 2 ^ w) (b r : Nat) (hb : b < m)
    (hr : r ≤ (b + w) / m) :
    ∀ v ∈ candsOf I q (b, r), v < codes.length ∧ distTo codes q v ≤ w := by
  intro v hv
  have h1 := (candsOf_mem w m codes I hB hm0 hmw hw64 q b r v hb hr).mp hv
  refine ⟨h1.1, ?_⟩
  have hcv : codes.getD v 0 < 2 ^ w := by
    refine hcodes _ ?_
    rw [List.getD_eq_getElem _ _ h1.1]
    exact List.getElem_mem _
  rw [distTo]
  exact hamdist_le w q _ hq hcv

/-- One sweep round: starting at block `b` with all earlier pairs
processed and the running count exact, the round either completes with
the count still short of `topk`, or breaks at some block index `i` with
the count `cumLt (i + 1) ≥ topk`. -/
theorem roundRef_exec (w m : Nat) (codes : List Nat) (q topk : Nat) (I : Index)
    (hB : Built w m codes I) (hm0 : 0 < m) (hmw : m ≤ w) (hw64 : w ≤ 64)
    (hq : q < 2 ^ w) (hcodes : ∀ c ∈ codes, c < 2 ^ w) (hcne : codes ≠ [])
    (htkN : topk ≤ codes.length) (r : Nat) :
    ∀ (k b : Nat) (st : TopkState), b + k = m →
      TKInv w codes q topk st → Proc I q m st.checked (r * m + b) →
      st.n = cumLt codes q (r * m + b) → st.n < topk →
      ∃ st2, roundRef I q topk r st (List.range' b k) = some st2 ∧
        TKInv w codes q topk st2 ∧
        ((st2.n < topk ∧ Proc I q m st2.checked (r * m + m) ∧
            st2.n = cumLt codes q (r * m + m)) ∨
          (∃ i, r * m + b ≤ i ∧ i < r * m + m ∧ topk ≤ st2.n ∧
            st2.n = cumLt codes q (i + 1) ∧ cumLt codes q i < topk ∧
            Proc I q m st2.checked (i + 1))) := by
  intro k
  induction k with
  | zero =>
      intro b st hbk hinv hproc hn hnlt
      refine ⟨st, rfl, hinv, Or.inl ⟨hnlt, ?_, ?_⟩⟩
      · have heq : r * m + m = r * m + b := by omega
        rw [heq]
        exact hproc
      · have heq : r * m + m = r * m + b := by omega
        rw [heq]
        exact hn
  | succ k ih =>
      intro b st hbk hinv hproc hn hnlt
      have hbm : b < m := by omega
      have hiw : r * m + b ≤ w := by
        by_contra hcon
        push_neg at hcon
        have h1 : cumLt codes q (w + 1) ≤ cumLt codes q (r * m + b) :=
          cumLt_mono codes q (by omega)
        rw [cumLt_top w codes q hcodes hq hcne] at h1
        omega
      have hrdim : r ≤ (b + w) / m := by
        have h1 : r * m ≤ w := by omega
        have h2 : r ≤ w / m := (Nat.le_div_iff_mul_le hm0).mpr h1
        have h3 : w / m ≤ (b + w) / m := Nat.div_le_div_right (by omega)
        omega
      rw [List.range'_succ]
      simp only [roundRef]
      set st1 := visitBlock I q topk r b st with hst1
      have hinv1 : TKInv w codes q topk st1 :=
        foldVisit_TKInv I w codes q topk hB.hcodes _ st hinv
          (cands_valid w m codes q I hB hm0 hmw hw64 hq hcodes b r hbm hrdim)
      have hn1 : st1.n = st.n := foldVisit_n I q topk _ st
      have hproc1 : Proc I q m st1.checked (r * m + b + 1) := by
        intro j hj v hv
        rcases Nat.lt_or_ge j (r * m + b) with hjlt | hjge
        · exact (foldVisit_checked I q topk _ st).2 v (hproc j hjlt v hv)
        · have hje : j = r * m + b := by omega
          subst hje
          have hmod := lex_mod_div r m b hm0 hbm
          rw [hmod.1, hmod.2] at hv
          exact (foldVisit_checked I q topk _ st).1 v hv
      have hcov1 : ∀ v, v < codes.length → distTo codes q v < r * m + b + 1 →
          v ∈ st1.checked :=
        cov_of_proc w m codes q I hB hm0 hmw hw64 hq hcodes _ _ hproc1
      have hexact := counts_exact w codes q topk st1 hinv1 (r * m + b + 1) hcov1
      have hcnd : r * I.num_blocks + b < st1.counts.length := by
        rw [hB.hm, hinv1.hclen]
        omega
      rw [if_pos hcnd]
      have hcval : st1.counts.getD (r * I.num_blocks + b) 0 =
          distCnt codes q (r * m + b) := by
        rw [hB.hm]
        exact hexact (r * m + b) (by omega)
      have hn' : st1.n + st1.counts.getD (r * I.num_blocks + b) 0 =
          cumLt codes q (r * m + b + 1) := by
        rw [hcval, hn1, hn, cumLt_step]
      by_cases hbreak : topk ≤ st1.n + st1.counts.getD (r * I.num_blocks + b) 0
      · rw [if_pos hbreak]
        refine ⟨_, rfl, ?_, Or.inr ⟨r * m + b, le_refl _, by omega, ?_, ?_, ?_, ?_⟩⟩
        · exact ⟨hinv1.hnd, hinv1.hsub, hinv1.hclen, hinv1.halen, hinv1.hcnt, hinv1.hans⟩
        · exact hbreak
        · exact hn'
        · rw [← hn]
          exact hnlt
        · exact hproc1
      · rw [if_neg hbreak]
        have hrec := ih (b + 1)
          { st1 with n := st1.n + st1.counts.getD (r * I.num_blocks + b) 0 }
          (by omega)
          ⟨hinv1.hnd, hinv1.hsub, hinv1.hclen, hinv1.halen, hinv1.hcnt, hinv1.hans⟩
          (by
            show Proc I q m st1.checked (r * m + (b + 1))
            have heq : r * m + (b + 1) = r * m + b + 1 := by omega
            rw [heq]
            exact hproc1)
          (by
            show st1.n + st1.counts.getD (r * I.num_blocks + b) 0 =
              cumLt codes q (r * m + (b + 1))
            have heq : r * m + (b + 1) = r * m + b + 1 := by omega
            rw [heq, hn'])
          (by
            show st1.n + st1.counts.getD (r * I.num_blocks + b) 0 < topk
            omega)
        obtain ⟨st2, hrr, hinv2, hpost⟩ := hrec
        refine ⟨st2, hrr, hinv2, ?_⟩
        rcases hpost with ⟨h1, h2, h3⟩ | ⟨i, hi1, hi2, hi3, hi4, hi5, hi6⟩
        · exact Or.inl ⟨h1, h2, h3⟩
        · exact Or.inr ⟨i, by omega, hi2, hi3, hi4, hi5, hi6⟩

/-- The sweep terminates with the invariant at the break index: the
returned state has exact counts up to the final threshold `i`, where
`cumLt i < topk ≤ cumLt (i + 1)`. -/
theorem sweepRef_exec (w m : Nat) (codes : List Nat) (q topk : Nat) (I : Index)
    (hB : Built w m codes I) (hm0 : 0 < m) (hmw : m ≤ w) (hw64 : w ≤ 64)
    (hq : q < 2 ^ w) (hcodes : ∀ c ∈ codes, c < 2 ^ w) (hcne : codes ≠ [])
    (htkN : topk ≤ codes.length) :
    ∀ (fuel r : Nat) (st : TopkState), w + 2 ≤ fuel + r →
      TKInv w codes q topk st → Proc I q m st.checked (r * m) →
      st.n = cumLt codes q (r * m) → st.n < topk →
      ∃ st2 i, sweepRef I q topk fuel r st = some st2 ∧ TKInv w codes q topk st2 ∧
        topk ≤ st2.n ∧ st2.n = cumLt codes q (i + 1) ∧ cumLt codes q i < topk ∧
        Proc I q m st2.checked (i + 1) ∧ i ≤ w := by
  intro fuel
  induction fuel with
  | zero =>
      intro r st hfuel hinv hproc hn hnlt
      exfalso
      have h1 : w + 1 ≤ r * m := by
        have h2 : r ≤ r * m := Nat.le_mul_of_pos_right r hm0
        omega
      have h2 : cumLt codes q (w + 1) ≤ cumLt codes q (r * m) := cumLt_mono codes q h1
      rw [cumLt_top w codes q hcodes hq hcne] at h2
      omega
  | succ fuel ih =>
      intro r st hfuel hinv hproc hn hnlt
      have hrw : r * m ≤ w := by
        by_contra hcon
        push_neg at hcon
        have h1 : cumLt codes q (w + 1) ≤ cumLt codes q (r * m) :=
          cumLt_mono codes q (by omega)
        rw [cumLt_top w codes q hcodes hq hcne] at h1
        omega
      have hrle : r ≤ w := by
        have h2 : r ≤ r * m := Nat.le_mul_of_pos_right r hm0
        omega
      rw [sweepRef, if_pos hnlt, hB.hm, List.range_eq_range']
      have hproc0 : Proc I q m st.checked (r * m + 0) := by
        have heq : r * m + 0 = r * m := by omega
        rw [heq]
        exact hproc
      have hn0 : st.n = cumLt codes q (r * m + 0) := by
        have heq : r * m + 0 = r * m := by omega
        rw [heq]
        exact hn
      obtain ⟨st2, hrr, hinv2, hpost⟩ := roundRef_exec w m codes q topk I hB hm0 hmw hw64
        hq hcodes hcne htkN r m 0 st (by omega) hinv hproc0 hn0 hnlt
      rw [hrr]
      rcases hpost with ⟨hlt2, hproc2, hn2⟩ | ⟨i, hi1, hi2, hi3, hi4, hi5, hi6⟩
      · have hproc2' : Proc I q m st2.checked ((r + 1) * m) := by
          have heq : (r + 1) * m = r * m + m := by
            rw [Nat.add_mul, Nat.one_mul]
          rw [heq]
          exact hproc2
        have hn2' : st2.n = cumLt codes q ((r + 1) * m) := by
          have heq : (r + 1) * m = r * m + m := by
            rw [Nat.add_mul, Nat.one_mul]
          rw [heq]
          exact hn2
        exact ih (r + 1) st2 (by omega) hinv2 hproc2' hn2' hlt2
      · have hiww : i ≤ w := by
          by_contra hcon
          push_neg at hcon
          have h1 : cumLt codes q (w + 1) ≤ cumLt codes q i := cumLt_mono codes q (by omega)
          rw [cumLt_top w codes q hcodes hq hcne] at h1
          omega
        cases fuel with
        | zero => omega
        | succ fuel2 =>
            refine ⟨st2, i, ?_, hinv2, hi3, hi4, hi5, hi6, hiww⟩
            show sweepRef I q topk (fuel2 + 1) (r + 1) st2 = some st2
            rw [sweepRef, if_neg (by omega)]

/-- The assembly loop: with exact counts and rows up to the threshold
`i`, it returns `topk - n` further ids taken row by row, in
non-decreasing distance order, all from `checked` at distances in
`[r, i]`. -/
theorem assemble_exec (codes : List Nat) (q topk w i : Nat) (checked : List Nat)
    (c answers : List Nat)
    (hclen : c.length = w + 1) (hiw : i ≤ w)
    (hcum : topk ≤ cumLt codes q (i + 1))
    (hexact : ∀ d, d ≤ i → c.getD d 0 = (foundAt codes q checked d).length)
    (hflen : ∀ d, d ≤ i → (foundAt codes q checked d).length = distCnt codes q d)
    (hans : ∀ d j, j < (foundAt codes q checked d).length → j < topk →
      answers.getD (d * topk + j) 0 = (foundAt codes q checked d).getD j 0)
    (halen : answers.length = (w + 1) * topk) :
    ∀ (fuel r n : Nat), w + 2 ≤ fuel + r → r ≤ i + 1 → n = min topk (cumLt codes q r) →
    ∃ out, topkAssemble topk answers c fuel n r = some out ∧
      out.length = topk - n ∧
      (∀ v ∈ out, v ∈ checked ∧ r ≤ distTo codes q v ∧ distTo codes q v ≤ i) ∧
      List.Pairwise (fun a b => distTo codes q a ≤ distTo codes q b) out := by
  intro fuel
  induction fuel with
  | zero =>
      intro r n hfuel hri hn
      exfalso
      omega
  | succ fuel ih =>
      intro r n hfuel hri hn
      by_cases hnk : n < topk
      · have hrle : r ≤ i := by
          by_contra hcon
          push_neg at hcon
          have hre : r = i + 1 := by omega
          subst hre
          omega
        have hncum : n = cumLt codes q r := by omega
        simp only [topkAssemble]
        rw [if_pos hnk, if_pos (show r < c.length by omega)]
        have hflenr := hflen r hrle
        have hexactr := hexact r hrle
        have hstep : n + min (c.getD r 0) (topk - n) = min topk (cumLt codes q (r + 1)) := by
          have h3 := cumLt_step codes q r
          omega
        obtain ⟨rest, hrest, hrlen, hrmem, hrsort⟩ :=
          ih (r + 1) (n + min (c.getD r 0) (topk - n)) (by omega) (by omega) hstep
        rw [hrest]
        have hcp : min (c.getD r 0) (topk - n) ≤ (foundAt codes q checked r).length := by
          omega
        have hck : min (c.getD r 0) (topk - n) ≤ topk := by omega
        have hrow : r * topk + topk ≤ (w + 1) * topk := by
          have h1 : (r + 1) * topk ≤ (w + 1) * topk := Nat.mul_le_mul_right _ (by omega)
          rw [Nat.add_mul, Nat.one_mul] at h1
          exact h1
        have hseg : (answers.drop (r * topk)).take (min (c.getD r 0) (topk - n)) =
            (foundAt codes q checked r).take (min (c.getD r 0) (topk - n)) := by
          refine List.ext_getElem? ?_
          intro i0
          rcases Nat.lt_or_ge i0 (min (c.getD r 0) (topk - n)) with hi0 | hi0
          · rw [List.getElem?_take, if_pos hi0, List.getElem?_take, if_pos hi0,
              List.getElem?_drop]
            have hin : r * topk + i0 < answers.length := by
              rw [halen]
              omega
            have hif : i0 < (foundAt codes q checked r).length := by omega
            rw [List.getElem?_eq_getElem hin, List.getElem?_eq_getElem hif]
            have hv := hans r i0 hif (by omega)
            rw [List.getD_eq_getElem _ _ hin, List.getD_eq_getElem _ _ hif] at hv
            rw [hv]
          · rw [List.getElem?_eq_none, List.getElem?_eq_none]
            · rw [List.length_take]
              omega
            · rw [List.length_take, List.length_drop, halen]
              omega
        rw [hseg]
        refine ⟨_, rfl, ?_, ?_, ?_⟩
        · rw [List.length_append, List.length_take, hrlen]
          omega
        · intro v hv
          rcases List.mem_append.mp hv with hvs | hvr
          · have hvf : v ∈ foundAt codes q checked r := List.mem_of_mem_take hvs
            rw [foundAt, List.mem_filter, List.mem_reverse] at hvf
            obtain ⟨hv1, hv2⟩ := hvf
            have hv3 : distTo codes q v = r := of_decide_eq_true hv2
            exact ⟨hv1, by omega, by omega⟩
          · obtain ⟨h1, h2, h3⟩ := hrmem v hvr
            exact ⟨h1, by omega, h3⟩
        · rw [List.pairwise_append]
          refine ⟨?_, hrsort, ?_⟩
          · refine List.pairwise_of_forall_mem_list ?_
            intro a ha b hb
            have haf : a ∈ foundAt codes q checked r := List.mem_of_mem_take ha
            have hbf : b ∈ foundAt codes q checked r := List.mem_of_mem_take hb
            rw [foundAt, List.mem_filter] at haf hbf
            have ha3 : distTo codes q a = r := of_decide_eq_true haf.2
            have hb3 : distTo codes q b = r := of_decide_eq_true hbf.2
            omega
          · intro a ha b hb
            have haf : a ∈ foundAt codes q checked r := List.mem_of_mem_take ha
            rw [foundAt, List.mem_filter] at haf
            have ha3 : distTo codes q a = r := of_decide_eq_true haf.2
            obtain ⟨_, hb2, _⟩ := hrmem b hb
            omega
      · simp only [topkAssemble]
        rw [if_neg hnk]
        refine ⟨[], rfl, ?_, ?_, List.Pairwise.nil⟩
        · show (0 : Nat) = topk - n
          omega
        · intro v hv
          exact absurd hv (List.not_mem_nil _)

/-- The K-th smallest Hamming distance, read off the sorted distance
column of the linear-scan oracle `ls::exhaustive_search`. -/
def kthDist (codes : List Nat) (q K : Nat) : Nat :=
  (((ls_exhaustive_search codes q).map Prod.snd).insertionSort (· ≤ ·)).getD (K - 1) 0

theorem exh_snd (codes : List Nat) (q : Nat) :
    (ls_exhaustive_search codes q).map Prod.snd =
      (List.range codes.length).map (fun v => distTo codes q v) := by
  rw [ls_exhaustive_search, List.map_map]
  refine List.map_congr_left ?_
  intro v _
  show hamdist (codes.getD v 0) q = distTo codes q v
  rw [distTo, hamdist_comm]

theorem cumLt_eq_countP (codes : List Nat) (q t : Nat) :
    cumLt codes q t = ((List.range codes.length).map
      (fun v => distTo codes q v)).countP (fun x => x < t) := by
  rw [List.countP_map]
  rfl

theorem sorted_getD_countP (s : List Nat) (hs : List.Pairwise (· ≤ ·) s) (j : Nat)
    (hj : j < s.length) :
    s.countP (fun x => x < s.getD j 0) ≤ j ∧ j + 1 ≤ s.countP (fun x => x ≤ s.getD j 0) := by
  have hsplit : ∀ (k : Nat) (p : Nat → Bool),
      s.countP p = (s.take k).countP p + (s.drop k).countP p := by
    intro k p
    conv_lhs => rw [← List.take_append_drop k s]
    rw [List.countP_append]
  constructor
  · rw [hsplit j]
    have h1 : (s.take j).countP (fun x => x < s.getD j 0) ≤ j := by
      have h2 := List.countP_le_length (p := fun x => decide (x < s.getD j 0)) (l := s.take j)
      rw [List.length_take] at h2
      omega
    have h2 : (s.drop j).countP (fun x => x < s.getD j 0) = 0 := by
      refine List.countP_eq_zero.mpr ?_
      intro a ha
      obtain ⟨k, hk, hke⟩ := List.mem_iff_getElem.mp ha
      have hkb : j + k < s.length := by
        rw [List.length_drop] at hk
        omega
      have hle : s.getD j 0 ≤ a := by
        rw [← hke, List.getElem_drop, List.getD_eq_getElem _ _ hj]
        rcases Nat.eq_zero_or_pos k with rfl | hkpos
        · exact le_refl _
        · exact List.pairwise_iff_getElem.mp hs j (j + k) hj hkb (by omega)
      simp only [decide_eq_true_eq]
      omega
    omega
  · have haux : ∀ a ∈ s.take (j + 1), decide (a ≤ s.getD j 0) = true := by
      intro a ha
      obtain ⟨k, hk, hke⟩ := List.mem_iff_getElem.mp ha
      have hkj1 : k < j + 1 := by
        rw [List.length_take] at hk
        omega
      have hkb : k < s.length := by omega
      have hae : a = s.getD k 0 := by
        rw [← hke, List.getD_eq_getElem _ _ hkb]
        rw [List.getElem_take]
      have hle : a ≤ s.getD j 0 := by
        rw [hae, List.getD_eq_getElem _ _ hkb, List.getD_eq_getElem _ _ hj]
        rcases Nat.lt_or_ge k j with hkj | hkj
        · exact List.pairwise_iff_getElem.mp hs k j hkb hj hkj
        · have hkje : k = j := by omega
          subst hkje
          exact le_refl _
      exact decide_eq_true hle
    rw [hsplit (j + 1)]
    have hl : (s.take (j + 1)).length = j + 1 := by
      rw [List.length_take]
      omega
    have h1 : (s.take (j + 1)).countP (fun x => x ≤ s.getD j 0) = j + 1 := by
      have h1a : (s.take (j + 1)).countP (fun x => x ≤ s.getD j 0) =
          (s.take (j + 1)).length := by
        refine List.countP_eq_length.mpr ?_
        intro a ha
        exact haux a ha
      rw [h1a, hl]
    omega

theorem break_unique (codes : List Nat) (q topk i j : Nat)
    (h1 : cumLt codes q i < topk) (h2 : topk ≤ cumLt codes q (i + 1))
    (h3 : cumLt codes q j < topk) (h4 : topk ≤ cumLt codes q (j + 1)) : i = j := by
  rcases Nat.lt_trichotomy i j with h | h | h
  · have := cumLt_mono codes q (show i + 1 ≤ j from by omega)
    omega
  · exact h
  · have := cumLt_mono codes q (show j + 1 ≤ i from by omega)
    omega

/-- The K-th smallest distance is exactly the sweep's break threshold. -/
theorem kthDist_spec (codes : List Nat) (q K : Nat) (hK1 : 1 ≤ K)
    (hKN : K ≤ codes.length) :
    cumLt codes q (kthDist codes q K) < K ∧ K ≤ cumLt codes q (kthDist codes q K + 1) := by
  have hsort : List.Pairwise (· ≤ ·)
      (((ls_exhaustive_search codes q).map Prod.snd).insertionSort (· ≤ ·)) :=
    List.sorted_insertionSort _ _
  have hperm : List.Perm (((ls_exhaustive_search codes q).map Prod.snd).insertionSort (· ≤ ·))
      ((List.range codes.length).map (fun v => distTo codes q v)) := by
    have h1 := List.perm_insertionSort (· ≤ ·) ((ls_exhaustive_search codes q).map Prod.snd)
    nth_rewrite 2 [exh_snd] at h1
    exact h1
  have hslen : (((ls_exhaustive_search codes q).map Prod.snd).insertionSort
      (· ≤ ·)).length = codes.length := by
    rw [hperm.length_eq, List.length_map, List.length_range]
  have hj : K - 1 < (((ls_exhaustive_search codes q).map Prod.snd).insertionSort
      (· ≤ ·)).length := by omega
  obtain ⟨h1, h2⟩ := sorted_getD_countP _ hsort (K - 1) hj
  constructor
  · rw [cumLt_eq_countP, ← hperm.countP_eq]
    rw [kthDist]
    omega
  · rw [cumLt_eq_countP, ← hperm.countP_eq]
    have hcong : (((ls_exhaustive_search codes q).map Prod.snd).insertionSort
        (· ≤ ·)).countP (fun x => x < kthDist codes q K + 1) =
        (((ls_exhaustive_search codes q).map Prod.snd).insertionSort
          (· ≤ ·)).countP (fun x => x ≤ kthDist codes q K) := by
      refine List.countP_congr ?_
      intro a _
      simp only [decide_eq_true_eq]
      omega
    rw [hcong, kthDist]
    omega

/-- **C2.** For every database of a supported width, every query `q`, and
every `K` with `1 ≤ K ≤ N`, `TopkSearcher::run(q, K)` returns a slice of
exactly `K` ids, sorted non-decreasing by Hamming distance to `q`, and
every returned id lies within the oracle's tied set: its distance is at
most the `K`-th smallest distance to `q`. -/
theorem topk_C2 (w : Nat) (hwsup : w = 8 ∨ w = 16 ∨ w = 32 ∨ w = 64)
    (codes : List Nat) (hcodes : ∀ c ∈ codes, c < 2 ^ w) (m : Nat) (I : Index)
    (hok : with_blocks w codes m = Except.ok I) (q : Nat) (hq : q < 2 ^ w)
    (topk : Nat) (htk1 : 1 ≤ topk) (htkN : topk ≤ codes.length)
    (ans0 checked0 : List Nat) (g0 : SigGenerator64) :
    ∃ res, topkRun I q topk ans0 checked0 g0 = some res ∧
      res.1.length = topk ∧
      (∀ v ∈ res.1, v < codes.length ∧
        hamdist q (codes.getD v 0) ≤ kthDist codes q topk) ∧
      List.Pairwise (fun a b => hamdist q (codes.getD a 0) ≤ hamdist q (codes.getD b 0))
        res.1 := by
  have hB := with_blocks_built w codes m I hok
  obtain ⟨hcne, hlen2, hm2, hmw⟩ := with_blocks_valid w codes m I hok
  have hm0 : 0 < m := by omega
  have hw64 : w ≤ 64 := by rcases hwsup with rfl | rfl | rfl | rfl <;> omega
  have hfst := topkRun_fst I q topk ans0 checked0 g0
  have hinv0 : TKInv w codes q topk
      { answers := resizeTo ans0 ((w + 1) * topk), checked := [], counts := List.replicate (w + 1) 0, n := 0 } := by
    refine ⟨List.nodup_nil, ?_, ?_, ?_, ?_, ?_⟩
    · intro v hv
      exact absurd hv (List.not_mem_nil _)
    · show (List.replicate (w + 1) (0 : Nat)).length = w + 1
      rw [List.length_replicate]
    · show (resizeTo ans0 ((w + 1) * topk)).length = (w + 1) * topk
      rw [resizeTo_length]
    · intro d
      show (List.replicate (w + 1) (0 : Nat)).getD d 0 = (foundAt codes q [] d).length
      have hf : foundAt codes q [] d = [] := rfl
      rw [hf]
      rcases Nat.lt_or_ge d (w + 1) with hd | hd
      · rw [List.getD_eq_getElem _ _ (by rw [List.length_replicate]; omega)]
        simp
      · rw [List.getD_eq_default _ _ (by rw [List.length_replicate]; omega)]
        rfl
    · intro d j hj _
      exfalso
      have hf : foundAt codes q [] d = [] := rfl
      rw [hf] at hj
      simp at hj
  obtain ⟨st2, i, hsw, hinv2, hn2k, hn2, hcum_lt, hproc2, hiw⟩ :=
    sweepRef_exec w m codes q topk I hB hm0 hmw hw64 hq hcodes hcne htkN (w + 2) 0
      { answers := resizeTo ans0 ((w + 1) * topk), checked := [], counts := List.replicate (w + 1) 0, n := 0 }
      (by omega) hinv0
      (by
        show Proc I q m ([] : List Nat) (0 * m)
        intro j hj v hv
        omega)
      (by
        show (0 : Nat) = cumLt codes q (0 * m)
        rw [Nat.zero_mul, cumLt_zero])
      (by
        show (0 : Nat) < topk
        omega)
  have hcov := cov_of_proc w m codes q I hB hm0 hmw hw64 hq hcodes st2.checked (i + 1) hproc2
  have hexact := counts_exact w codes q topk st2 hinv2 (i + 1) hcov
  have hflen : ∀ d, d ≤ i → (foundAt codes q st2.checked d).length = distCnt codes q d := by
    intro d hd
    have h1 := hexact d (by omega)
    rw [hinv2.hcnt d] at h1
    exact h1
  obtain ⟨out, hasm, holen, homem, hosort⟩ :=
    assemble_exec codes q topk w i st2.checked st2.counts st2.answers hinv2.hclen hiw
      (by omega)
      (fun d hd => hinv2.hcnt d)
      hflen
      (fun d j hj hjk => hinv2.hans d j hj hjk)
      hinv2.halen (w + 2) 0 0 (by omega) (by omega)
      (by rw [cumLt_zero]; omega)
  obtain ⟨hk1, hk2⟩ := kthDist_spec codes q topk htk1 htkN
  have hieq : i = kthDist codes q topk :=
    break_unique codes q topk i (kthDist codes q topk) hcum_lt (by omega) hk1 hk2
  have hrun : runRef I q topk ans0 = some out := by
    simp only [runRef]
    rw [hB.hw, hsw]
    show topkAssemble topk st2.answers st2.counts (w + 2) 0 0 = some out
    exact hasm
  rw [hrun] at hfst
  obtain ⟨res, hres, hlfst⟩ := Option.map_eq_some'.mp hfst
  refine ⟨res, hres, ?_, ?_, ?_⟩
  · rw [hlfst, holen]
    omega
  · intro v hv
    rw [hlfst] at hv
    obtain ⟨h1, _, h3⟩ := homem v hv
    refine ⟨hinv2.hsub v h1, ?_⟩
    show distTo codes q v ≤ kthDist codes q topk
    omega
  · rw [hlfst]
    exact hosort

/-- A concrete successfully built index (width 8, codes `[3, 5]`, two
blocks) for exercising the top-K theorem. -/
def witI2 : Index :=
  match with_blocks 8 [3, 5] 2 with
  | Except.ok I => I
  | Except.error _ => default

theorem topk_C2_witness :
    ∃ res, topkRun witI2 1 2 [] [] SigGenerator64.new = some res ∧
      res.1.length = 2 ∧
      (∀ v ∈ res.1, v < ([3, 5] : List Nat).length ∧
        hamdist 1 (([3, 5] : List Nat).getD v 0) ≤ kthDist [3, 5] 1 2) ∧
      List.Pairwise (fun a b => hamdist 1 (([3, 5] : List Nat).getD a 0) ≤
        hamdist 1 (([3, 5] : List Nat).getD b 0)) res.1 :=
  topk_C2 8 (Or.inl rfl) [3, 5] (by decide) 2 witI2 (by rfl) 1 (by decide) 2 (by decide)
    (by decide) [] [] SigGenerator64.new
